import Mathlib

/-!
Verification of the SMS emoji re-encoder (sms_message_encoder.py, constants.py,
sms_gateway_mock.py).  Unicode strings are modelled as lists of codepoints
(`List Nat`), byte strings as lists of bytes (`List Nat`, each < 256).

External collaborators (the `grapheme` segmentation library and
`unicodedata.normalize`) are passed as explicit parameters or modelled from
the spec where the theorems need concrete values.
-/

/-- Big-endian byte-order mark U+FEFF (constants.py, `BOM_BE`). -/
def BOM_BE : Nat := 0xFEFF

/-- Little-endian byte-order sentinel U+FFFE (constants.py, `BOM_LE`). -/
def BOM_LE : Nat := 0xFFFE

/-- U+FFFD (constants.py, `REPLACEMENT_CHARACTER_BE`). -/
def REPLACEMENT_CHARACTER_BE : Nat := 0xFFFD

/-- U+FDFF, the byte-swap of U+FFFD (constants.py, `REPLACEMENT_CHARACTER_LE`). -/
def REPLACEMENT_CHARACTER_LE : Nat := 0xFDFF

/-- Codepoints rejected by the re-encoder (constants.py, `UNSUPPORTED_CHARS`):
NUL and the bidi control characters. -/
def UNSUPPORTED_CHARS : List Nat :=
  [0x0, 0x202A, 0x202B, 0x202D, 0x202E, 0x202C,
   0x2069, 0x2066, 0x2067, 0x2068, 0x200E, 0x200F, 0x061C]

/-- The plaintext charset of the SMS appliance (constants.py, `SMS_CHARSET`):
digits, ASCII letters, punctuation except the backtick, and space/LF/CR/FF. -/
def SMS_CHARSET : List Nat :=
  [48, 49, 50, 51, 52, 53, 54, 55, 56, 57] ++                      -- digits
  [97, 98, 99, 100, 101, 102, 103, 104, 105, 106, 107, 108, 109,
   110, 111, 112, 113, 114, 115, 116, 117, 118, 119, 120, 121, 122] ++  -- a-z
  [65, 66, 67, 68, 69, 70, 71, 72, 73, 74, 75, 76, 77,
   78, 79, 80, 81, 82, 83, 84, 85, 86, 87, 88, 89, 90] ++          -- A-Z
  [33, 34, 35, 36, 37, 38, 39, 40, 41, 42, 43, 44, 45, 46, 47,
   58, 59, 60, 61, 62, 63, 64, 91, 92, 93, 94, 95, 123, 124, 125, 126] ++
  [32, 10, 13, 12]                                                  -- space LF CR FF

/-- A UTF-16 surrogate code unit / codepoint (U+D800..U+DFFF). -/
def isSurrogate (c : Nat) : Bool := 0xD800 ≤ c && c < 0xE000

/-- Left-to-right effectful map over `Except`, short-circuiting at the first
failure (the behaviour of a Python list comprehension or `map` that raises). -/
def mapE {α β : Type} (f : α → Except String β) : List α → Except String (List β)
  | [] => .ok []
  | a :: l =>
    match f a with
    | .error e => .error e
    | .ok b =>
      match mapE f l with
      | .error e => .error e
      | .ok bs => .ok (b :: bs)

/-- Left-to-right map over `Option`, short-circuiting at the first `none`. -/
def mapO {α β : Type} (f : α → Option β) : List α → Option (List β)
  | [] => some []
  | a :: l =>
    match f a with
    | none => none
    | some b =>
      match mapO f l with
      | none => none
      | some bs => some (b :: bs)

/-- UTF-16-BE encoding of one codepoint, as bytes.  Mirrors Python's strict
`str.encode("utf-16-be")`: lone surrogates (and out-of-range values) fail. -/
def encodeUtf16BEChar (c : Nat) : Option (List Nat) :=
  if c < 0xD800 then some [c / 256, c % 256]
  else if c < 0xE000 then none
  else if c < 0x10000 then some [c / 256, c % 256]
  else if c < 0x110000 then
    let v := c - 0x10000
    let hi := 0xD800 + v / 1024
    let lo := 0xDC00 + v % 1024
    some [hi / 256, hi % 256, lo / 256, lo % 256]
  else none

/-- UTF-16-BE encoding of a string, as bytes (Python `chars.encode("utf-16-be")`). -/
def encodeUtf16BE (s : List Nat) : Option (List Nat) :=
  (mapO encodeUtf16BEChar s).map List.flatten

/-- Reinterpret bytes as big-endian 16-bit units (`struct.unpack(">nH", b)`).
The byte string always has even length at the call sites (asserted in the
source), so the fall-through for a trailing odd byte is unreachable. -/
def unpackBE : List Nat → List Nat
  | b0 :: b1 :: rest => (b0 * 256 + b1) :: unpackBE rest
  | _ => []

/-- Reinterpret bytes as little-endian 16-bit units (`struct.unpack("<nH", b)`). -/
def unpackLE : List Nat → List Nat
  | b0 :: b1 :: rest => (b1 * 256 + b0) :: unpackLE rest
  | _ => []

/-- The `handle_unsupported` parameter of the encoder
(one of "replace", "ignore", "error", "pass"). -/
inductive Policy where
  | replace
  | ignore
  | error
  | pass
deriving DecidableEq, Repr

/-- The deduplicated normalization candidates built at the top of
`coerce_grapheme`: the original form first, then every normalized form that
differs from the original and was not already listed.  `norms chars` stands for
`[normalize(f, chars) for f in ("NFC", "NFKC", "NFD", "NFKD")]`, supplied by
the external `unicodedata` module. -/
def normCandidates (norms : List Nat → List (List Nat)) (chars : List Nat) :
    List (List Nat) :=
  (norms chars).foldl
    (fun acc f => if f ≠ chars ∧ ¬ acc.contains f then acc ++ [f] else acc)
    [chars]

/-- Stable insertion of a byte string into a list sorted by length. -/
def insByLen (x : List Nat) : List (List Nat) → List (List Nat)
  | [] => [x]
  | y :: ys => if y.length ≤ x.length then y :: insByLen x ys else x :: y :: ys

/-- Stable sort by byte length, matching Python's `sorted(key=len)`. -/
def sortByLen (l : List (List Nat)) : List (List Nat) := l.foldr insByLen []

/-- The inner `decode_ucs2` helper of `coerce_grapheme`: walk the sorted
candidate byte strings, reinterpret each under the given endianness, and accept
the first whose code units are all UTF-8-encodable (no surrogates).  The
`assert len(encoded) > 0` raises out of the function (it is not caught by the
`except UnicodeEncodeError` handler). -/
def decode_ucs2 (big : Bool) : List (List Nat) → Except String (Option (List Nat))
  | [] => .ok none
  | b :: rest =>
    let u := if big then unpackBE b else unpackLE b
    if u.isEmpty then .error "AssertionError: decode_ucs2 empty"
    else if u.all (fun c => !isSurrogate c) then .ok (some u)
    else decode_ucs2 big rest

/-- Lines 142-145 of the source: a masquerade of 63 or more code units
cannot fit a page and is discarded. -/
def capLen : Option (List Nat) → Option (List Nat)
  | some u => if u.length ≥ 63 then none else some u
  | none => none

/-- The masquerade computation of `coerce_grapheme` (normalization
candidates, UTF-16-BE encoding, length-sorted UCS-2 reinterpretation in both
endiannesses, length cap), before the both-sides-unencodable collapse. -/
def masquerades (norms : List Nat → List (List Nat)) (chars : List Nat) :
    Except String (Option (List Nat) × Option (List Nat)) :=
  match mapO encodeUtf16BE (normCandidates norms chars) with
  | none => .error "UnicodeEncodeError: utf-16-be"
  | some bytesList =>
    let sorted := sortByLen bytesList
    match decode_ucs2 true sorted, decode_ucs2 false sorted with
    | .error e, _ => .error e
    | _, .error e => .error e
    | .ok obe, .ok ole => .ok (capLen obe, capLen ole)

/-- `coerce_grapheme(chars, handle_unsupported)`: map one grapheme to its
(BE, LE) masquerade strings; `none` stands for Python's `None` sentinel.
`norms` supplies the four `unicodedata.normalize` forms of the grapheme. -/
def coerce_grapheme (norms : List Nat → List (List Nat)) (chars : List Nat)
    (pol : Policy) : Except String (Option (List Nat) × Option (List Nat)) :=
  if chars.isEmpty then .error "AssertionError: empty grapheme"
  else
    let unsup := chars.any (fun c => UNSUPPORTED_CHARS.contains c)
    if unsup ∧ pol = .replace then
      .ok (some [REPLACEMENT_CHARACTER_BE], some [REPLACEMENT_CHARACTER_LE])
    else if unsup ∧ pol = .ignore then .ok (some [], some [])
    else if unsup ∧ pol = .error then .ok (none, none)
    else
      match masquerades norms chars with
      | .error e => .error e
      | .ok (ebe, ele) =>
        if ebe = none ∧ ele = none then
          .ok (some [REPLACEMENT_CHARACTER_BE], some [REPLACEMENT_CHARACTER_LE])
        else .ok (ebe, ele)

/-- Identity normalization: all four normal forms coincide with the input.
This is the true value of `unicodedata.normalize` on every grapheme used in
the concrete theorems below (ASCII, BOMs, unassigned and emoji codepoints
without canonical decompositions). -/
def idNorms (g : List Nat) : List (List Nat) := [g, g, g, g]

/-! ## The page-structured re-encoder `coerce_text` -/

/-- The intermediate data `coerce_text` computes before its page search:
per-grapheme fragments and error flags, the two single-page candidates (the
BE one already BOM-prefixed), their error counts, and the grapheme count. -/
structure Setup where
  gbe : List (List Nat)
  gle : List (List Nat)
  ebe : List Bool
  ele : List Bool
  spbe : List Nat
  sple : List Nat
  spbeErr : Int
  spleErr : Int
  N : Nat
deriving DecidableEq, Repr

/-- A state of the page beam search: `(start_idx, n_errors, pages)`. -/
structure SState where
  cursor : Nat
  errs : Int
  pages : List (List Nat)
deriving DecidableEq, Repr

/-- The truncation-error count of a single-page candidate: walk the
(error flag, fragment) pairs accumulating length from `m0`; a fragment that
would push past 70 units contributes `len * mult`, any other contributes its
error flag. -/
def countSingleErrs (mult : Int) (m0 : Nat) (l : List (Bool × List Nat)) : Int :=
  (l.foldl
    (fun (st : Nat × Int) (p : Bool × List Nat) =>
      if st.1 + p.2.length > 70 then (st.1, st.2 + (p.2.length : Int) * mult)
      else (st.1 + p.2.length, st.2 + (if p.1 then 1 else 0)))
    (m0, 0)).2

/-- The per-grapheme BE fragments of `coerce_text` line 245: the BE side, or
U+FFFD when that side is the unencodable sentinel. -/
def fragsBE (coerced : List (Option (List Nat) × Option (List Nat))) :
    List (List Nat) :=
  coerced.map (fun p => p.1.getD [REPLACEMENT_CHARACTER_BE])

/-- The per-grapheme LE fragments of line 246 (sentinels become U+FDFF). -/
def fragsLE (coerced : List (Option (List Nat) × Option (List Nat))) :
    List (List Nat) :=
  coerced.map (fun p => p.2.getD [REPLACEMENT_CHARACTER_LE])

/-- The BE error flags of line 243 (`g is None`). -/
def flagsBE (coerced : List (Option (List Nat) × Option (List Nat))) : List Bool :=
  coerced.map (fun p => p.1.isNone)

/-- The LE error flags of line 244. -/
def flagsLE (coerced : List (Option (List Nat) × Option (List Nat))) : List Bool :=
  coerced.map (fun p => p.2.isNone)

/-- The BE single-page candidate after the BOM-prefix rule of lines 252-257
(unspecified on an empty concatenation: the source raises there instead,
which `mkSetup` models). -/
def spbeOf (coerced : List (Option (List Nat) × Option (List Nat))) : List Nat :=
  match (fragsBE coerced).flatten with
  | [] => []
  | c :: rest => if c = BOM_LE ∨ c = BOM_BE then BOM_BE :: c :: rest else c :: rest

/-- Assemble the `Setup` from the coerced graphemes; raises the `IndexError`
of `single_page_be[0]` when the BE concatenation is empty. -/
def mkSetup (coerced : List (Option (List Nat) × Option (List Nat)))
    (N : Nat) (mult : Int) : Except String Setup :=
  match (fragsBE coerced).flatten with
  | [] => .error "IndexError: string index out of range"
  | _ :: _ =>
    .ok ⟨fragsBE coerced, fragsLE coerced, flagsBE coerced, flagsLE coerced,
         spbeOf coerced, BOM_LE :: (fragsLE coerced).flatten,
         countSingleErrs mult
           (if (spbeOf coerced).take 2 = [BOM_BE, BOM_LE] then 1 else 0)
           ((flagsBE coerced).zip (fragsBE coerced)),
         countSingleErrs mult 1 ((flagsLE coerced).zip (fragsLE coerced)), N⟩

/-- Lines 239-277 of `coerce_text`: grapheme coercion, error flags,
replacement substitution, single-page candidates and their error counts.
Raises (as the Python does) when the grapheme list is empty (the
`zip(*...)` unpacking) or when the BE single-page candidate is empty
(`single_page_be[0]`). -/
def coerceSetup (norms : List Nat → List (List Nat)) (gs : List (List Nat))
    (pol : Policy) (mult : Int) : Except String Setup :=
  if gs.isEmpty then .error "ValueError: not enough values to unpack"
  else
    match mapE (fun g => coerce_grapheme norms g pol) gs with
    | .error e => .error e
    | .ok coerced => mkSetup coerced gs.length mult

/-- The `append` closure inside the beam loop: join the page's fragments and
record a new state, discarding an empty page or a page that is a lone BOM. -/
def saveState (idx : Nat) (errs : Int) (pages : List (List Nat))
    (page : List (List Nat)) : Option SState :=
  match page.flatten with
  | [] => none
  | c :: rest =>
    if c = BOM_BE ∨ c = BOM_LE then
      if rest.isEmpty then none else some ⟨idx, errs, pages ++ [page.flatten]⟩
    else some ⟨idx, errs, pages ++ [page.flatten]⟩

/-- The branch states saved before an error grapheme (`if errors[idx]:
append(...)`); nothing is saved for a non-error grapheme. -/
def beSaves (e : Bool) (idx : Nat) (errs : Int)
    (pages page : List (List Nat)) : List SState :=
  if e then (saveState idx errs pages page).toList else []

/-- `n_errors += 1` on an error grapheme. -/
def bumpErrs (e : Bool) (errs : Int) : Int := if e then errs + 1 else errs

/-- Appending one BE fragment to the page (lines 314-321): a BOM-initial
fragment at the head of an empty page gets a BE BOM prefix; inspecting the
first character of an empty fragment at the head of a page raises the
Python `IndexError`. -/
def beStep (page : List (List Nat)) (total : Nat) (g : List Nat) :
    Except String (List (List Nat) × Nat) :=
  if page.length = 0 then
    match g with
    | [] => .error "IndexError: string index out of range"
    | c :: _ =>
      if c = BOM_LE ∨ c = BOM_BE then
        .ok (page ++ [BOM_BE :: g], total + (1 + g.length))
      else .ok (page ++ [g], total + g.length)
  else .ok (page ++ [g], total + g.length)

/-- The big-endian page-filling loop (lines 305-331): iterate graphemes from
the cursor, saving a branch state before each error grapheme, BOM-prefixing a
page whose first fragment starts with a BOM, and flushing when the next
grapheme no longer fits in 63 units.  Returns the saved states and whether
the `for` loop ran to completion without `break` (the `else` case, reached
exactly when the remaining grapheme list is empty). -/
def beLoop (idx : Nat) (errs : Int) (pages : List (List Nat))
    (page : List (List Nat)) (total : Nat) :
    List (List Nat × Bool) → Except String (List SState × Bool)
  | [] => .ok ([], true)
  | (g, e) :: rest =>
    match beStep page total g with
    | .error e2 => .error e2
    | .ok pt =>
      match rest with
      | [] =>
        .ok (beSaves e idx errs pages page ++
          (saveState (idx + 1) (bumpErrs e errs) pages pt.1).toList, false)
      | (g2, _) :: _ =>
        if g2.length + pt.2 > 63 then
          .ok (beSaves e idx errs pages page ++
            (saveState (idx + 1) (bumpErrs e errs) pages pt.1).toList, false)
        else
          match beLoop (idx + 1) (bumpErrs e errs) pages pt.1 pt.2 rest with
          | .error e2 => .error e2
          | .ok (ss, fl) => .ok (beSaves e idx errs pages page ++ ss, fl)

/-- The little-endian page-filling loop (lines 338-359): identical to the BE
loop except that the page is seeded with the LE BOM (by the caller) and no
BOM check is performed on fragments. -/
def leLoop (idx : Nat) (errs : Int) (pages : List (List Nat))
    (page : List (List Nat)) (total : Nat) :
    List (List Nat × Bool) → List SState × Bool
  | [] => ([], true)
  | (g, e) :: rest =>
    match rest with
    | [] =>
      (beSaves e idx errs pages page ++
        (saveState (idx + 1) (bumpErrs e errs) pages (page ++ [g])).toList, false)
    | (g2, _) :: _ =>
      if g2.length + (total + g.length) > 63 then
        (beSaves e idx errs pages page ++
          (saveState (idx + 1) (bumpErrs e errs) pages (page ++ [g])).toList, false)
      else
        let r := leLoop (idx + 1) (bumpErrs e errs) pages (page ++ [g])
          (total + g.length) rest
        (beSaves e idx errs pages page ++ r.1, r.2)

/-- One state's big-endian extensions.  The `for`/`else` re-add never fires
here: when the loop completes without `break` the page is still the empty
list, and `any([])` is false. -/
def beExt (zbe : List (List Nat × Bool)) (s : SState) :
    Except String (List SState) :=
  match beLoop s.cursor s.errs s.pages [] 0 (zbe.drop s.cursor) with
  | .error e => .error e
  | .ok (ss, _) => .ok ss

/-- One state's little-endian extensions.  When the loop completes without
`break` (exhausted state) the page still holds the seeded BOM, `any(page)` is
true, and the state is re-added unchanged. -/
def leExt (zle : List (List Nat × Bool)) (s : SState) : List SState :=
  let r := leLoop s.cursor s.errs s.pages [[BOM_LE]] 1 (zle.drop s.cursor)
  r.1 ++ (if r.2 then [s] else [])

/-- One update of the `best_new_states` dict: keyed by error count, a state
replaces the stored one only with a strictly larger cursor; a state with
cursor 0 never beats the `(0, 0, [])` default and is dropped. -/
def updAssoc : List (Int × SState) → SState → List (Int × SState)
  | [], s => if 0 < s.cursor then [(s.errs, s)] else []
  | (k, t) :: rest, s =>
    if k = s.errs then
      if t.cursor < s.cursor then (k, s) :: rest else (k, t) :: rest
    else (k, t) :: updAssoc rest s

/-- The beam pruning (lines 368-374): keep, per distinct error count, the
state with the largest cursor, in dict insertion order. -/
def pruneFold (l : List SState) : List SState :=
  (l.foldl updAssoc []).map (fun p => p.2)

/-- One iteration of the beam (one page appended per state): all BE
extensions in state order, then all LE extensions, then pruning. -/
def beamIter (zbe zle : List (List Nat × Bool)) (states : List SState) :
    Except String (List SState) :=
  match mapE (beExt zbe) states with
  | .error e => .error e
  | .ok bs => .ok (pruneFold (bs.flatten ++ (states.map (leExt zle)).flatten))

/-- The outer beam loop: up to `max_pages` iterations, stopping early once
every state's cursor has reached the end of the grapheme list. -/
def beamLoop (zbe zle : List (List Nat × Bool)) (N : Nat) :
    Nat → List SState → Except String (List SState)
  | 0, st => .ok st
  | fuel + 1, st =>
    match beamIter zbe zle st with
    | .error e => .error e
    | .ok ns =>
      if ns.all (fun s => N ≤ s.cursor) then .ok ns
      else beamLoop zbe zle N fuel ns

/-- Total loss of a beam state at final selection:
`n_errors + max(0, len(graphemes) - start_idx) * truncated_text_error_multiplier`. -/
def lossOf (N : Nat) (mult : Int) (s : SState) : Int :=
  s.errs + max 0 ((N : Int) - (s.cursor : Int)) * mult

/-- The selection key `(total_loss, number_of_pages, length_of_last_page)`. -/
def candKey (x : Int × List (List Nat)) : Int × Nat × Nat :=
  (x.1, x.2.length, (x.2.getLastD []).length)

/-- Strict lexicographic comparison of selection keys. -/
def keyLt (a b : Int × Nat × Nat) : Bool :=
  decide (a.1 < b.1) ||
    (decide (a.1 = b.1) &&
      (decide (a.2.1 < b.2.1) ||
        (decide (a.2.1 = b.2.1) && decide (a.2.2 < b.2.2))))

/-- Python's `min(l, key=...)`: the first element with minimal key. -/
def selectBest (l : List (Int × List (List Nat))) : Int × List (List Nat) :=
  match l with
  | [] => (0, [])
  | x :: xs => xs.foldl (fun best y => if keyLt (candKey y) (candKey best) then y else best) x

/-- The `errors_and_pages` candidate list: each beam state with truncation
loss added, then the two single-page candidates. -/
def beamCandidates (st : Setup) (mult : Int) (states : List SState) :
    List (Int × List (List Nat)) :=
  states.map (fun s => (lossOf st.N mult s, s.pages)) ++
    [(st.spbeErr, [st.spbe]), (st.spleErr, [st.sple])]

/-- `right_pad_page(text, char)`: right-pad to 63 units;
asserts `len(text) <= 63`. -/
def right_pad_page (text : List Nat) (ch : Nat) : Except String (List Nat) :=
  if text.length ≤ 63 then .ok (text ++ List.replicate (63 - text.length) ch)
  else .error "AssertionError: right_pad_page"

/-- Assembly (lines 395-403) at the page level: pad every non-final selected
page with its own BOM (LE if it starts with U+FFFE, else BE), append the
final page unpadded. -/
def assembleList (best : List (List Nat)) : Except String (List (List Nat)) :=
  match best.getLast? with
  | none => .error "IndexError: best_pages empty"
  | some last =>
    match mapE (fun p =>
      match p with
      | [] => (.error "RuntimeError: empty best_page" : Except String (List Nat))
      | c :: _ =>
        if c = BOM_LE then right_pad_page p BOM_LE else right_pad_page p BOM_BE)
      best.dropLast with
    | .error e => .error e
    | .ok padded => .ok (padded ++ [last])

/-- `coerce_text`, factored to expose the list of pages it selects and
assembles: the fast single-page exits return one page; otherwise the beam
runs and the minimal `(loss, pages, last-page-length)` candidate is assembled.
`coerce_text` itself is the concatenation of these pages. -/
def selectedPages (norms : List Nat → List (List Nat)) (gs : List (List Nat))
    (max_pages : Int) (mult : Int) (pol : Policy) :
    Except String (List (List Nat)) :=
  if max_pages ≤ 0 then .error "AssertionError: max_pages"
  else
    match coerceSetup norms gs pol mult with
    | .error e => .error e
    | .ok st =>
      if ¬ st.ebe.any id ∧ st.spbe.length ≤ 70 then .ok [st.spbe]
      else if ¬ st.ele.any id ∧ st.sple.length ≤ 70 then .ok [st.sple]
      else
        match beamLoop (st.gbe.zip st.ebe) (st.gle.zip st.ele) st.N
            max_pages.toNat [⟨0, 0, []⟩] with
        | .error e => .error e
        | .ok fin => assembleList (selectBest (beamCandidates st mult fin)).2

/-- `coerce_text(text, max_pages, truncated_text_error_multiplier,
handle_unsupported)`, over the grapheme list produced by the external
segmenter. -/
def coerce_text (norms : List Nat → List (List Nat)) (gs : List (List Nat))
    (max_pages : Int) (mult : Int) (pol : Policy) : Except String (List Nat) :=
  (selectedPages norms gs max_pages mult pol).map List.flatten

/-- The quantity minimized at final selection (the `min_error` of line 392),
computed for the given page budget.  The fast single-page exits do not depend
on `max_pages`, so this is evaluated unconditionally past them. -/
def selectionLoss (norms : List Nat → List (List Nat)) (gs : List (List Nat))
    (max_pages : Int) (mult : Int) (pol : Policy) : Except String Int :=
  if max_pages ≤ 0 then .error "AssertionError: max_pages"
  else
    match coerceSetup norms gs pol mult with
    | .error e => .error e
    | .ok st =>
      match beamLoop (st.gbe.zip st.ebe) (st.gle.zip st.ele) st.N
          max_pages.toNat [⟨0, 0, []⟩] with
      | .error e => .error e
      | .ok fin => .ok (selectBest (beamCandidates st mult fin)).1

/-- Grapheme segmentation, modelled from the spec: "Grapheme segmentation
must follow Unicode extended grapheme clusters"; the external `grapheme`
library is not part of the repository.  This model implements the CR-LF rule
(UAX #29 GB3) and treats every other codepoint as its own cluster, which
coincides with full UAX #29 on every input used in the theorems below (ASCII,
BOM characters, and isolated non-combining codepoints). -/
def segmentGraphemes : List Nat → List (List Nat)
  | [] => []
  | 13 :: 10 :: rest => [13, 10] :: segmentGraphemes rest
  | c :: rest => [c] :: segmentGraphemes rest

/-- Whether the text contains a carriage return immediately followed by a
line feed (the one case where a grapheme cluster of the inputs considered
here spans more than one codepoint). -/
def hasCRLF : List Nat → Bool
  | 13 :: 10 :: _ => true
  | _ :: rest => hasCRLF rest
  | [] => false

/-- Byte swap of a 16-bit code unit (how a UCS-2 unit reads in the other
endianness). -/
def swap16 (u : Nat) : Nat := u % 256 * 256 + u / 256

/-- The UTF-16 surrogate pair of a supplementary-plane codepoint. -/
def surrogatePairOf (c : Nat) : List Nat :=
  [0xD800 + (c - 0x10000) / 1024, 0xDC00 + (c - 0x10000) % 1024]

/-- The UTF-16 code units of one codepoint. -/
def utf16UnitsOf (c : Nat) : List Nat :=
  if c < 0x10000 then [c] else surrogatePairOf c

/-- The gateway's page split (lines 38-47 of sms_gateway_mock.py): pages of
63 codepoints, or 67 when the page starts with a BOM character, driven by a
fuel argument so that the definition is structural (any fuel at least the
length of the text gives the cursor loop's value). -/
def gwSplit : Nat → List Nat → List (List Nat)
  | 0, _ => []
  | _, [] => []
  | fuel + 1, c :: rest =>
    if c = BOM_BE ∨ c = BOM_LE then
      (c :: rest).take 67 :: gwSplit fuel ((c :: rest).drop 67)
    else
      (c :: rest).take 63 :: gwSplit fuel ((c :: rest).drop 63)

/-- UTF-16 big-endian decoding of a byte string, strict: surrogate pairs are
combined, unpaired surrogates and odd lengths fail
(Python `bytes.decode("utf-16-be")`). -/
def utf16DecodeBE : List Nat → Except String (List Nat)
  | [] => .ok []
  | [_] => .error "UnicodeDecodeError: odd length"
  | b0 :: b1 :: rest =>
    let u := b0 * 256 + b1
    if 0xD800 ≤ u ∧ u < 0xDC00 then
      match rest with
      | b2 :: b3 :: rest2 =>
        let u2 := b2 * 256 + b3
        if 0xDC00 ≤ u2 ∧ u2 < 0xE000 then
          match utf16DecodeBE rest2 with
          | .error e => .error e
          | .ok tail => .ok ((0x10000 + (u - 0xD800) * 1024 + (u2 - 0xDC00)) :: tail)
        else .error "UnicodeDecodeError: unpaired surrogate"
      | _ => .error "UnicodeDecodeError: unpaired surrogate"
    else if 0xDC00 ≤ u ∧ u < 0xE000 then .error "UnicodeDecodeError: unpaired surrogate"
    else
      match utf16DecodeBE rest with
      | .error e => .error e
      | .ok tail => .ok (u :: tail)

/-- UTF-16 little-endian decoding, strict (`bytes.decode("utf-16-le")`). -/
def utf16DecodeLE : List Nat → Except String (List Nat)
  | [] => .ok []
  | [_] => .error "UnicodeDecodeError: odd length"
  | b0 :: b1 :: rest =>
    let u := b1 * 256 + b0
    if 0xD800 ≤ u ∧ u < 0xDC00 then
      match rest with
      | b2 :: b3 :: rest2 =>
        let u2 := b3 * 256 + b2
        if 0xDC00 ≤ u2 ∧ u2 < 0xE000 then
          match utf16DecodeLE rest2 with
          | .error e => .error e
          | .ok tail => .ok ((0x10000 + (u - 0xD800) * 1024 + (u2 - 0xDC00)) :: tail)
        else .error "UnicodeDecodeError: unpaired surrogate"
      | _ => .error "UnicodeDecodeError: unpaired surrogate"
    else if 0xDC00 ≤ u ∧ u < 0xE000 then .error "UnicodeDecodeError: unpaired surrogate"
    else
      match utf16DecodeLE rest with
      | .error e => .error e
      | .ok tail => .ok (u :: tail)

/-- Strip trailing U+FEFF codepoints (`page.rstrip("﻿")`). -/
def rstripBOM (l : List Nat) : List Nat :=
  (l.reverse.dropWhile (fun c => c = BOM_BE)).reverse

/-- `mobile_phone_render(*pages, rstrip=True)`: per page, sniff a leading
BOM to pick the UTF-16 endianness (default BE), decode, optionally strip
trailing U+FEFF, and concatenate. -/
def mobile_phone_render (rstrip : Bool) (pages : List (List Nat)) :
    Except String (List Nat) :=
  match mapE (fun p =>
      if p.take 2 = [0xFE, 0xFF] then utf16DecodeBE (p.drop 2)
      else if p.take 2 = [0xFF, 0xFE] then utf16DecodeLE (p.drop 2)
      else utf16DecodeBE p) pages with
  | .error e => .error e
  | .ok decoded =>
    .ok ((if rstrip then decoded.map rstripBOM else decoded).flatten)

theorem mapE_congr {α β : Type} (f g : α → Except String β) (l : List α)
    (h : ∀ a ∈ l, f a = g a) : mapE f l = mapE g l := by
  induction l with
  | nil => rfl
  | cons a t ih =>
    simp only [mapE]
    rw [h a (by simp), ih (fun x hx => h x (by simp [hx]))]

theorem mapE_ok_get {α β : Type} (f : α → Except String β) (l : List α)
    (r : List β) (h : mapE f l = .ok r) :
    ∀ i a, l.get? i = some a → ∃ b, r.get? i = some b ∧ f a = .ok b := by
  induction l generalizing r with
  | nil =>
    intro i a ha
    simp at ha
  | cons x t ih =>
    intro i a ha
    simp only [mapE] at h
    cases hx : f x with
    | error e => rw [hx] at h; cases h
    | ok b =>
      rw [hx] at h
      cases ht : mapE f t with
      | error e => rw [ht] at h; cases h
      | ok bs =>
        rw [ht] at h
        cases h
        cases i with
        | zero =>
          simp at ha
          subst ha
          exact ⟨b, rfl, hx⟩
        | succ j =>
          simp only [List.get?] at ha ⊢
          exact ih bs ht j a ha

theorem mapE_ok_length {α β : Type} (f : α → Except String β) (l : List α)
    (r : List β) (h : mapE f l = .ok r) : r.length = l.length := by
  induction l generalizing r with
  | nil => cases h; rfl
  | cons x t ih =>
    simp only [mapE] at h
    cases hx : f x with
    | error e => rw [hx] at h; cases h
    | ok b =>
      rw [hx] at h
      cases ht : mapE f t with
      | error e => rw [ht] at h; cases h
      | ok bs =>
        rw [ht] at h
        cases h
        simp [ih bs ht]

theorem mapE_ok_forall {α β : Type} (f : α → Except String β) (l : List α)
    (r : List β) (h : mapE f l = .ok r) :
    ∀ b ∈ r, ∃ a ∈ l, f a = .ok b := by
  induction l generalizing r with
  | nil => cases h; simp
  | cons x t ih =>
    simp only [mapE] at h
    cases hx : f x with
    | error e => rw [hx] at h; cases h
    | ok b =>
      rw [hx] at h
      cases ht : mapE f t with
      | error e => rw [ht] at h; cases h
      | ok bs =>
        rw [ht] at h
        cases h
        intro c hc
        rcases List.mem_cons.mp hc with hc2 | hc2
        · exact ⟨x, by simp, hc2 ▸ hx⟩
        · rcases ih bs ht c hc2 with ⟨a, ha, hfa⟩
          exact ⟨a, by simp [ha], hfa⟩

theorem coerce_grapheme_congr (n1 n2 : List Nat → List (List Nat))
    (chars : List Nat) (pol : Policy) (h : n1 chars = n2 chars) :
    coerce_grapheme n1 chars pol = coerce_grapheme n2 chars pol := by
  unfold coerce_grapheme masquerades normCandidates
  rw [h]

theorem coerceSetup_congr (n1 n2 : List Nat → List (List Nat))
    (gs : List (List Nat)) (pol : Policy) (mult : Int)
    (h : ∀ g ∈ gs, n1 g = n2 g) :
    coerceSetup n1 gs pol mult = coerceSetup n2 gs pol mult := by
  unfold coerceSetup
  rw [mapE_congr _ _ gs (fun g hg => coerce_grapheme_congr n1 n2 g pol (h g hg))]

theorem selectedPages_congr (n1 n2 : List Nat → List (List Nat))
    (gs : List (List Nat)) (mp mult : Int) (pol : Policy)
    (h : ∀ g ∈ gs, n1 g = n2 g) :
    selectedPages n1 gs mp mult pol = selectedPages n2 gs mp mult pol := by
  unfold selectedPages
  rw [coerceSetup_congr n1 n2 gs pol mult h]

theorem coerce_text_congr (n1 n2 : List Nat → List (List Nat))
    (gs : List (List Nat)) (mp mult : Int) (pol : Policy)
    (h : ∀ g ∈ gs, n1 g = n2 g) :
    coerce_text n1 gs mp mult pol = coerce_text n2 gs mp mult pol := by
  unfold coerce_text
  rw [selectedPages_congr n1 n2 gs mp mult pol h]

theorem selectionLoss_congr (n1 n2 : List Nat → List (List Nat))
    (gs : List (List Nat)) (mp mult : Int) (pol : Policy)
    (h : ∀ g ∈ gs, n1 g = n2 g) :
    selectionLoss n1 gs mp mult pol = selectionLoss n2 gs mp mult pol := by
  unfold selectionLoss
  rw [coerceSetup_congr n1 n2 gs pol mult h]

/-! ## Claims C6, C7, C9 -/

/-- C9: `coerce_text("﻿")` is exactly `"﻿﻿"` and
`coerce_text("￾")` is exactly `"﻿￾"` (a prefix BE BOM is
prepended when the single-page BE candidate begins with U+FEFF or U+FFFE);
stated for any normalization function that fixes the BOM characters, as
`unicodedata.normalize` does. -/
theorem c9_bom_only_inputs (norms : List Nat → List (List Nat))
    (h1 : norms [0xFEFF] = [[0xFEFF], [0xFEFF], [0xFEFF], [0xFEFF]])
    (h2 : norms [0xFFFE] = [[0xFFFE], [0xFFFE], [0xFFFE], [0xFFFE]]) :
    coerce_text norms (segmentGraphemes [0xFEFF]) 5 1 .replace = .ok [0xFEFF, 0xFEFF] ∧
    coerce_text norms (segmentGraphemes [0xFFFE]) 5 1 .replace = .ok [0xFEFF, 0xFFFE] := by
  constructor
  · rw [coerce_text_congr norms idNorms]
    · rfl
    · intro g hg
      have hs : segmentGraphemes [0xFEFF] = [[0xFEFF]] := rfl
      rw [hs] at hg
      simp at hg
      subst hg
      rw [h1]
      rfl
  · rw [coerce_text_congr norms idNorms]
    · rfl
    · intro g hg
      have hs : segmentGraphemes [0xFFFE] = [[0xFFFE]] := rfl
      rw [hs] at hg
      simp at hg
      subst hg
      rw [h2]
      rfl

/-- Witness for C9 at the concrete normalization function. -/
theorem c9_bom_only_inputs_witness :
    coerce_text idNorms (segmentGraphemes [0xFEFF]) 5 1 .replace = .ok [0xFEFF, 0xFEFF] ∧
    coerce_text idNorms (segmentGraphemes [0xFFFE]) 5 1 .replace = .ok [0xFEFF, 0xFFFE] :=
  c9_bom_only_inputs idNorms rfl rfl

/-- C7 counterexample: under policy "replace" the BE side of
`coerce_grapheme("💩")` IS the unencodable sentinel `None` (only its LE side
is encodable), refuting "under policy replace neither side of the returned
pair is ever the unencodable sentinel". -/
theorem c7_counterexample :
    coerce_grapheme idNorms [0x1F4A9] .replace = .ok (none, some [0x3DD8, 0xA9DC]) := rfl

/-- C7 amended: the returned pair has BOTH sides equal to the unencodable
sentinel only under policy "error" (on a grapheme containing unsupported
characters); in particular, under policy "replace" at least one side is
always encodable, but a single side may be the sentinel. -/
theorem c7_failure_conditions (norms : List Nat → List (List Nat))
    (chars : List Nat) (pol : Policy) (be le : Option (List Nat))
    (h : coerce_grapheme norms chars pol = .ok (be, le))
    (hbe : be = none) (hle : le = none) :
    pol = .error ∧ chars.any (fun c => UNSUPPORTED_CHARS.contains c) = true := by
  subst hbe hle
  unfold coerce_grapheme at h
  by_cases he : chars.isEmpty = true
  · rw [if_pos he] at h
    cases h
  · rw [if_neg he] at h
    by_cases h1 : (chars.any fun c => UNSUPPORTED_CHARS.contains c) = true ∧
        pol = Policy.replace
    · rw [if_pos h1] at h
      simp at h
    · rw [if_neg h1] at h
      by_cases h2 : (chars.any fun c => UNSUPPORTED_CHARS.contains c) = true ∧
          pol = Policy.ignore
      · rw [if_pos h2] at h
        simp at h
      · rw [if_neg h2] at h
        by_cases h3 : (chars.any fun c => UNSUPPORTED_CHARS.contains c) = true ∧
            pol = Policy.error
        · exact ⟨h3.2, h3.1⟩
        · rw [if_neg h3] at h
          cases hm : masquerades norms chars with
          | error e => rw [hm] at h; cases h
          | ok r =>
            rcases r with ⟨ebe, ele⟩
            rw [hm] at h
            dsimp only at h
            by_cases h4 : ebe = none ∧ ele = none
            · rw [if_pos h4] at h
              simp at h
            · rw [if_neg h4] at h
              injection h with h5
              injection h5 with h6 h7
              exact absurd ⟨h6, h7⟩ h4

/-- Witness for C7 at a concrete input: the NUL grapheme under policy
"error" yields the double sentinel. -/
theorem c7_failure_conditions_witness :
    Policy.error = Policy.error ∧
      [0].any (fun c => UNSUPPORTED_CHARS.contains c) = true :=
  c7_failure_conditions idNorms [0] .error none none rfl rfl rfl

/-- C6 counterexample: the grapheme U+46000 (whose UTF-16 surrogates swap to
surrogates, so both endiannesses fail) is rewritten as the replacement pair,
but `coerce_text` counts ZERO error units for it — the quantity minimized at
final selection is 0, refuting "counted as one error unit". -/
theorem c6_counterexample :
    coerce_grapheme idNorms [0x46000] .replace =
      .ok (some [REPLACEMENT_CHARACTER_BE], some [REPLACEMENT_CHARACTER_LE]) ∧
    selectionLoss idNorms (segmentGraphemes [0x46000]) 5 1 .replace = .ok 0 :=
  ⟨rfl, rfl⟩

/-- C6 amended: a grapheme that cannot be masqueraded in either endianness
is rewritten as the replacement pair `(U+FFFD, U+FDFF)`, and `coerce_text`
counts ZERO error units for it: both error flags computed for the grapheme
are false (the flags are set only when exactly one side is unencodable), so
its loss contribution is nothing. -/
theorem c6_lossy_substitution (norms : List Nat → List (List Nat))
    (chars : List Nat) (pol : Policy)
    (hne : chars.isEmpty = false)
    (hfall : chars.any (fun c => UNSUPPORTED_CHARS.contains c) = false ∨ pol = .pass)
    (hm : masquerades norms chars = .ok (none, none)) :
    coerce_grapheme norms chars pol =
      .ok (some [REPLACEMENT_CHARACTER_BE], some [REPLACEMENT_CHARACTER_LE]) ∧
    ∀ gs mult st i, coerceSetup norms gs pol mult = .ok st →
      gs.get? i = some chars →
      st.ebe.get? i = some false ∧ st.ele.get? i = some false ∧
      st.gbe.get? i = some [REPLACEMENT_CHARACTER_BE] ∧
      st.gle.get? i = some [REPLACEMENT_CHARACTER_LE] := by
  have hno : ∀ P : Policy, P ≠ .pass →
      ¬ ((chars.any fun c => UNSUPPORTED_CHARS.contains c) = true ∧ pol = P) := by
    intro P hP hp
    rcases hfall with hf | hf
    · rw [hp.1] at hf
      cases hf
    · rw [hf] at hp
      exact hP hp.2.symm
  have hcg : coerce_grapheme norms chars pol =
      .ok (some [REPLACEMENT_CHARACTER_BE], some [REPLACEMENT_CHARACTER_LE]) := by
    unfold coerce_grapheme
    rw [if_neg (by simp [hne]), if_neg (hno _ (by intro hx; cases hx)),
        if_neg (hno _ (by intro hx; cases hx)), if_neg (hno _ (by intro hx; cases hx)),
        hm]
    dsimp only
    rw [if_pos ⟨rfl, rfl⟩]
  refine ⟨hcg, ?_⟩
  intro gs mult st i hsetup hget
  unfold coerceSetup at hsetup
  by_cases hemp : gs.isEmpty = true
  · rw [if_pos hemp] at hsetup
    cases hsetup
  · rw [if_neg hemp] at hsetup
    cases hmap : mapE (fun g => coerce_grapheme norms g pol) gs with
    | error e => rw [hmap] at hsetup; cases hsetup
    | ok coerced =>
      rw [hmap] at hsetup
      dsimp only at hsetup
      rcases mapE_ok_get _ _ _ hmap i chars hget with ⟨b, hbi, hb⟩
      rw [hcg] at hb
      injection hb with hb2
      subst hb2
      unfold mkSetup at hsetup
      cases hflat : (fragsBE coerced).flatten with
      | nil => rw [hflat] at hsetup; cases hsetup
      | cons c0 rest =>
        rw [hflat] at hsetup
        dsimp only at hsetup
        cases hsetup
        rw [List.get?_eq_getElem?] at hbi
        refine ⟨?_, ?_, ?_, ?_⟩ <;>
          simp [flagsBE, flagsLE, fragsBE, fragsLE, hbi]

/-- Witness for C6 at the concrete both-ways-unencodable grapheme U+46000. -/
theorem c6_lossy_substitution_witness :
    coerce_grapheme idNorms [0x46000] .replace =
      .ok (some [REPLACEMENT_CHARACTER_BE], some [REPLACEMENT_CHARACTER_LE]) ∧
    ∀ gs mult st i, coerceSetup idNorms gs .replace mult = .ok st →
      gs.get? i = some [0x46000] →
      st.ebe.get? i = some false ∧ st.ele.get? i = some false ∧
      st.gbe.get? i = some [REPLACEMENT_CHARACTER_BE] ∧
      st.gle.get? i = some [REPLACEMENT_CHARACTER_LE] :=
  c6_lossy_substitution idNorms [0x46000] .replace rfl (Or.inl rfl) rfl

/-! ## Beam-search invariants

Every page the beam flushes is non-empty and at most 63 code units, and its
units satisfy any predicate `U` closed over the fragments and the BE BOM.
These invariants underlie the safety claims (the `right_pad_page` assertion,
the page-length bound, the output codepoint range, and totality). -/

/-- A well-formed flushed page under a unit predicate `U`. -/
def PageOK (U : Nat → Prop) (p : List Nat) : Prop :=
  p ≠ [] ∧ p.length ≤ 63 ∧ ∀ c ∈ p, U c

/-- A well-formed beam state: cursor within bounds, all pages well formed. -/
def StOK (U : Nat → Prop) (N : Nat) (s : SState) : Prop :=
  s.cursor ≤ N ∧ ∀ p ∈ s.pages, PageOK U p

theorem saveState_eq (idx : Nat) (errs : Int) (pages page : List (List Nat))
    (s : SState) (h : saveState idx errs pages page = some s) :
    s.cursor = idx ∧ s.errs = errs ∧ s.pages = pages ++ [page.flatten] ∧
      page.flatten ≠ [] := by
  unfold saveState at h
  cases hf : page.flatten with
  | nil => rw [hf] at h; cases h
  | cons c rest =>
    rw [hf] at h
    dsimp only at h
    by_cases hb : c = BOM_BE ∨ c = BOM_LE
    · rw [if_pos hb] at h
      by_cases hr : rest.isEmpty = true
      · rw [if_pos hr] at h; cases h
      · rw [if_neg hr] at h
        cases h
        exact ⟨rfl, rfl, by simp [hf], by simp [hf]⟩
    · rw [if_neg hb] at h
      cases h
      exact ⟨rfl, rfl, by simp [hf], by simp [hf]⟩

/-- Facts about one BE fragment append: the page length stays tracked by the
running total, bounded by 63, and the unit predicate is preserved. -/
theorem beStep_ok (U : Nat → Prop) (hUbe : U BOM_BE)
    (page : List (List Nat)) (total : Nat) (g : List Nat)
    (pt : List (List Nat) × Nat) (h : beStep page total g = .ok pt)
    (hlen : page.flatten.length = total)
    (hg62 : g.length ≤ 62) (hgU : ∀ c ∈ g, U c)
    (hpU : ∀ c ∈ page.flatten, U c)
    (hguard : g.length + total ≤ 63) :
    pt.1.flatten.length = pt.2 ∧ pt.2 ≤ 63 ∧ ∀ c ∈ pt.1.flatten, U c := by
  unfold beStep at h
  by_cases hpe : page.length = 0
  · have hpnil : page = [] := List.length_eq_zero.mp hpe
    subst hpnil
    have htot0 : total = 0 := by simpa using hlen.symm
    subst htot0
    rw [if_pos (show ([] : List (List Nat)).length = 0 from rfl)] at h
    cases g with
    | nil => cases h
    | cons c g2 =>
      dsimp only at h
      have hg62b : g2.length + 1 ≤ 62 := by simpa using hg62
      by_cases hb : c = BOM_LE ∨ c = BOM_BE
      · rw [if_pos hb] at h
        cases h
        refine ⟨by simp; omega, by simp; omega, ?_⟩
        intro x hx
        simp at hx
        rcases hx with hx | hx | hx
        · rw [hx]; exact hUbe
        · rw [hx]; exact hgU c (by simp)
        · exact hgU x (by simp [hx])
      · rw [if_neg hb] at h
        cases h
        refine ⟨by simp, by simp; omega, ?_⟩
        intro x hx
        simp at hx
        rcases hx with hx | hx
        · rw [hx]; exact hgU c (by simp)
        · exact hgU x (by simp [hx])
  · rw [if_neg hpe] at h
    cases h
    refine ⟨by simp [hlen], by simp [hlen]; omega, ?_⟩
    intro x hx
    simp at hx
    rcases hx with hx | hx
    · exact hpU x (List.mem_flatten.mpr hx)
    · exact hgU x hx

/-- Members of the error-branch saves are well formed. -/
theorem beSaves_inv (U : Nat → Prop) (e : Bool) (idx bound : Nat) (errs : Int)
    (pages page : List (List Nat))
    (hpages : ∀ p ∈ pages, PageOK U p)
    (hpU : ∀ c ∈ page.flatten, U c)
    (hp63 : page.flatten.length ≤ 63)
    (hidx : idx ≤ bound) :
    ∀ s ∈ beSaves e idx errs pages page, s.cursor ≤ bound ∧ s.pages ≠ [] ∧
      ∀ p ∈ s.pages, PageOK U p := by
  intro s hs
  unfold beSaves at hs
  by_cases he : e = true
  · rw [if_pos he] at hs
    cases hsv : saveState idx errs pages page with
    | none => rw [hsv] at hs; cases hs
    | some s2 =>
      rw [hsv] at hs
      simp at hs
      subst hs
      rcases saveState_eq _ _ _ _ _ hsv with ⟨hc, _, hp, hne⟩
      refine ⟨by omega, by simp [hp], ?_⟩
      intro p hp2
      rw [hp] at hp2
      rcases List.mem_append.mp hp2 with hp3 | hp3
      · exact hpages p hp3
      · simp at hp3
        subst hp3
        exact ⟨hne, hp63, hpU⟩
  · rw [if_neg he] at hs
    cases hs

/-- Members of a final-page save are well formed. -/
theorem saveFinal_inv (U : Nat → Prop) (idx bound : Nat) (errs : Int)
    (pages page1 : List (List Nat))
    (hpages : ∀ p ∈ pages, PageOK U p)
    (hpU : ∀ c ∈ page1.flatten, U c)
    (hp63 : page1.flatten.length ≤ 63)
    (hidx : idx ≤ bound) :
    ∀ s ∈ (saveState idx errs pages page1).toList, s.cursor ≤ bound ∧
      s.pages ≠ [] ∧ ∀ p ∈ s.pages, PageOK U p := by
  intro s hs
  cases hsv : saveState idx errs pages page1 with
  | none => rw [hsv] at hs; cases hs
  | some s2 =>
    rw [hsv] at hs
    simp at hs
    subst hs
    rcases saveState_eq _ _ _ _ _ hsv with ⟨hc, _, hp, hne⟩
    refine ⟨by omega, by simp [hp], ?_⟩
    intro p hp2
    rw [hp] at hp2
    rcases List.mem_append.mp hp2 with hp3 | hp3
    · exact hpages p hp3
    · simp at hp3
      subst hp3
      exact ⟨hne, hp63, hpU⟩

/-- Invariant of the BE page-filling loop: every saved state advances the
cursor at most to the end of the remaining graphemes and appends one
well-formed page to a list of well-formed pages; completion without break
happens only on an empty remainder. -/
theorem beLoop_inv (U : Nat → Prop) (hUbe : U BOM_BE) :
    ∀ (rest : List (List Nat × Bool)) (idx : Nat) (errs : Int)
      (pages page : List (List Nat)) (total : Nat),
      (∀ p ∈ pages, PageOK U p) →
      (∀ c ∈ page.flatten, U c) →
      page.flatten.length = total →
      (∀ g2 e2, rest.head? = some (g2, e2) → g2.length + total ≤ 63) →
      (∀ ge ∈ rest, ge.1.length ≤ 62 ∧ ∀ c ∈ ge.1, U c) →
      ∀ out fl,
      beLoop idx errs pages page total rest = .ok (out, fl) →
      (∀ s ∈ out, s.cursor ≤ idx + rest.length ∧ s.pages ≠ [] ∧
        ∀ p ∈ s.pages, PageOK U p) ∧
      (fl = true → rest = []) := by
  intro rest
  induction rest with
  | nil =>
    intro idx errs pages page total _ _ _ _ _ out fl h
    cases h
    refine ⟨?_, fun _ => rfl⟩
    intro s hs
    cases hs
  | cons ge r ih =>
    intro idx errs pages page total hpages hpflat hlen hguard hfrag out fl h
    rcases ge with ⟨g, e⟩
    have hgfit : g.length + total ≤ 63 := hguard g e rfl
    have htot63 : total ≤ 63 := by omega
    have hgle : g.length ≤ 62 := (hfrag (g, e) (by simp)).1
    have hgU : ∀ c ∈ g, U c := (hfrag (g, e) (by simp)).2
    simp only [beLoop] at h
    cases hstep : beStep page total g with
    | error e2 => rw [hstep] at h; cases h
    | ok pt =>
      rw [hstep] at h
      dsimp only at h
      obtain ⟨hl1, ht1, hU1⟩ :=
        beStep_ok U hUbe page total g pt hstep hlen hgle hgU hpflat hgfit
      have hs0 := beSaves_inv U e idx (idx + ((g, e) :: r).length) errs pages page
        hpages hpflat (by omega) (by simp)
      have hsave1 := saveFinal_inv U (idx + 1) (idx + ((g, e) :: r).length)
        (bumpErrs e errs) pages pt.1 hpages hU1 (by omega) (by simp)
      cases r with
      | nil =>
        dsimp only at h
        cases h
        refine ⟨?_, fun hx => nomatch hx⟩
        intro s hs
        rcases List.mem_append.mp hs with hs2 | hs2
        · exact hs0 s hs2
        · exact hsave1 s hs2
      | cons ge2 r2 =>
        rcases ge2 with ⟨g2, e2b⟩
        dsimp only at h
        by_cases hfit : g2.length + pt.2 > 63
        · rw [if_pos hfit] at h
          cases h
          refine ⟨?_, fun hx => nomatch hx⟩
          intro s hs
          rcases List.mem_append.mp hs with hs2 | hs2
          · exact hs0 s hs2
          · exact hsave1 s hs2
        · rw [if_neg hfit] at h
          cases hrec : beLoop (idx + 1) (bumpErrs e errs) pages pt.1 pt.2
              ((g2, e2b) :: r2) with
          | error e3 => rw [hrec] at h; cases h
          | ok pr =>
            rcases pr with ⟨ss, fl2⟩
            rw [hrec] at h
            cases h
            obtain ⟨hmem, hflr⟩ := ih (idx + 1) (bumpErrs e errs) pages pt.1 pt.2
              hpages hU1 hl1
              (by
                intro g3 e3 hh
                simp only [List.head?_cons, Option.some.injEq, Prod.mk.injEq] at hh
                obtain ⟨hg3, _⟩ := hh
                subst hg3
                omega)
              (fun ge hge => hfrag ge (by simp [hge]))
              ss _ hrec
            refine ⟨?_, ?_⟩
            · intro s hs
              rcases List.mem_append.mp hs with hs2 | hs2
              · exact hs0 s hs2
              · have := hmem s hs2
                refine ⟨by have := this.1; simp at this ⊢; omega, this.2.1, this.2.2⟩
            · intro hx
              exact absurd (hflr hx) (by simp)

/-- Invariant of the LE page-filling loop, mirroring `beLoop_inv`. -/
theorem leLoop_inv (U : Nat → Prop) :
    ∀ (rest : List (List Nat × Bool)) (idx : Nat) (errs : Int)
      (pages page : List (List Nat)) (total : Nat),
      (∀ p ∈ pages, PageOK U p) →
      (∀ c ∈ page.flatten, U c) →
      page.flatten.length = total →
      (∀ g2 e2, rest.head? = some (g2, e2) → g2.length + total ≤ 63) →
      (∀ ge ∈ rest, ge.1.length ≤ 62 ∧ ∀ c ∈ ge.1, U c) →
      ∀ out fl,
      leLoop idx errs pages page total rest = (out, fl) →
      (∀ s ∈ out, s.cursor ≤ idx + rest.length ∧ s.pages ≠ [] ∧
        ∀ p ∈ s.pages, PageOK U p) ∧
      (fl = true → rest = []) := by
  intro rest
  induction rest with
  | nil =>
    intro idx errs pages page total _ _ _ _ _ out fl h
    cases h
    refine ⟨?_, fun _ => rfl⟩
    intro s hs
    cases hs
  | cons ge r ih =>
    intro idx errs pages page total hpages hpflat hlen hguard hfrag out fl h
    rcases ge with ⟨g, e⟩
    have hgfit : g.length + total ≤ 63 := hguard g e rfl
    have htot63 : total ≤ 63 := by omega
    have hgU : ∀ c ∈ g, U c := (hfrag (g, e) (by simp)).2
    have hl1 : (page ++ [g]).flatten.length = total + g.length := by
      simp [hlen]
    have hU1 : ∀ c ∈ (page ++ [g]).flatten, U c := by
      intro x hx
      simp at hx
      rcases hx with hx | hx
      · exact hpflat x (List.mem_flatten.mpr hx)
      · exact hgU x hx
    have hs0 := beSaves_inv U e idx (idx + ((g, e) :: r).length) errs pages page
      hpages hpflat (by omega) (by simp)
    have hsave1 := saveFinal_inv U (idx + 1) (idx + ((g, e) :: r).length)
      (bumpErrs e errs) pages (page ++ [g]) hpages hU1 (by omega) (by simp)
    simp only [leLoop] at h
    cases r with
    | nil =>
      cases h
      refine ⟨?_, fun hx => nomatch hx⟩
      intro s hs
      rcases List.mem_append.mp hs with hs2 | hs2
      · exact hs0 s hs2
      · exact hsave1 s hs2
    | cons ge2 r2 =>
      rcases ge2 with ⟨g2, e2b⟩
      dsimp only at h
      by_cases hfit : g2.length + (total + g.length) > 63
      · rw [if_pos hfit] at h
        cases h
        refine ⟨?_, fun hx => nomatch hx⟩
        intro s hs
        rcases List.mem_append.mp hs with hs2 | hs2
        · exact hs0 s hs2
        · exact hsave1 s hs2
      · rw [if_neg hfit] at h
        cases h
        obtain ⟨hmem, hflr⟩ := ih (idx + 1) (bumpErrs e errs) pages (page ++ [g])
          (total + g.length) hpages hU1 hl1
          (by
            intro g3 e3 hh
            simp only [List.head?_cons, Option.some.injEq, Prod.mk.injEq] at hh
            obtain ⟨hg3, _⟩ := hh
            subst hg3
            omega)
          (fun ge hge => hfrag ge (by simp [hge]))
          (leLoop (idx + 1) (bumpErrs e errs) pages (page ++ [g])
            (total + g.length) ((g2, e2b) :: r2)).1
          (leLoop (idx + 1) (bumpErrs e errs) pages (page ++ [g])
            (total + g.length) ((g2, e2b) :: r2)).2
          rfl
        refine ⟨?_, ?_⟩
        · intro s hs
          rcases List.mem_append.mp hs with hs2 | hs2
          · exact hs0 s hs2
          · have := hmem s hs2
            refine ⟨by have := this.1; simp at this ⊢; omega, this.2.1, this.2.2⟩
        · intro hx
          exact absurd (hflr hx) (by simp)

theorem mem_of_head? {α : Type} (l : List α) (x : α) (h : l.head? = some x) :
    x ∈ l := by
  cases l with
  | nil => cases h
  | cons a t =>
    simp at h
    simp [h]

/-- The BE extensions of a well-formed state are well formed. -/
theorem beExt_inv (U : Nat → Prop) (hUbe : U BOM_BE)
    (z : List (List Nat × Bool))
    (hz : ∀ ge ∈ z, ge.1.length ≤ 62 ∧ ∀ c ∈ ge.1, U c) (s : SState)
    (hsc : s.cursor ≤ z.length) (hsp : ∀ p ∈ s.pages, PageOK U p)
    (out : List SState) (h : beExt z s = .ok out) :
    ∀ t ∈ out, t.cursor ≤ z.length ∧ t.pages ≠ [] ∧
      ∀ p ∈ t.pages, PageOK U p := by
  unfold beExt at h
  cases hbl : beLoop s.cursor s.errs s.pages [] 0 (z.drop s.cursor) with
  | error e => rw [hbl] at h; cases h
  | ok pr =>
    rw [hbl] at h
    cases h
    obtain ⟨hmem, _⟩ := beLoop_inv U hUbe (z.drop s.cursor) s.cursor s.errs
      s.pages [] 0 hsp (by simp) rfl
      (by
        intro g2 e2 hh
        have h62 : g2.length ≤ 62 :=
          (hz (g2, e2) (List.drop_subset _ _ (mem_of_head? _ _ hh))).1
        omega)
      (fun ge hge => hz ge (List.drop_subset _ _ hge))
      pr.1 pr.2 (by rw [hbl])
    intro t ht
    have := hmem t ht
    refine ⟨?_, this.2.1, this.2.2⟩
    have hlen := this.1
    rw [List.length_drop] at hlen
    omega

/-- The LE extensions of a well-formed state are well formed; a state without
pages can come out only as the re-added copy of an exhausted input state. -/
theorem leExt_inv (U : Nat → Prop) (hUle : U BOM_LE)
    (z : List (List Nat × Bool))
    (hz : ∀ ge ∈ z, ge.1.length ≤ 62 ∧ ∀ c ∈ ge.1, U c) (s : SState)
    (hsc : s.cursor ≤ z.length) (hsp : ∀ p ∈ s.pages, PageOK U p) :
    ∀ t ∈ leExt z s, (t.cursor ≤ z.length ∧ ∀ p ∈ t.pages, PageOK U p) ∧
      (t.pages ≠ [] ∨ (t = s ∧ z.length ≤ s.cursor)) := by
  intro t ht
  unfold leExt at ht
  obtain ⟨hmem, hfl⟩ := leLoop_inv U (z.drop s.cursor) s.cursor s.errs
    s.pages [[BOM_LE]] 1 hsp
    (by
      intro c hc
      simp at hc
      rw [hc]
      exact hUle)
    (by simp)
    (by
      intro g2 e2 hh
      have h62 : g2.length ≤ 62 :=
        (hz (g2, e2) (List.drop_subset _ _ (mem_of_head? _ _ hh))).1
      omega)
    (fun ge hge => hz ge (List.drop_subset _ _ hge))
    (leLoop s.cursor s.errs s.pages [[BOM_LE]] 1 (z.drop s.cursor)).1
    (leLoop s.cursor s.errs s.pages [[BOM_LE]] 1 (z.drop s.cursor)).2
    rfl
  rcases List.mem_append.mp ht with ht2 | ht2
  · have := hmem t ht2
    have hlen := this.1
    rw [List.length_drop] at hlen
    exact ⟨⟨by omega, this.2.2⟩, Or.inl this.2.1⟩
  · by_cases hf : (leLoop s.cursor s.errs s.pages [[BOM_LE]] 1 (z.drop s.cursor)).2 = true
    · rw [if_pos hf] at ht2
      simp at ht2
      subst ht2
      refine ⟨⟨hsc, hsp⟩, Or.inr ⟨rfl, ?_⟩⟩
      have := hfl hf
      have h2 : (z.drop t.cursor).length = 0 := by rw [this]; rfl
      rw [List.length_drop] at h2
      omega
    · rw [if_neg hf] at ht2
      cases ht2

theorem updAssoc_mem (acc : List (Int × SState)) (s : SState) :
    ∀ p ∈ updAssoc acc s, p ∈ acc ∨ p = (s.errs, s) := by
  induction acc with
  | nil =>
    intro p hp
    unfold updAssoc at hp
    by_cases hc : 0 < s.cursor
    · rw [if_pos hc] at hp
      simp at hp
      exact Or.inr hp
    · rw [if_neg hc] at hp
      cases hp
  | cons kt rest ih =>
    intro p hp
    rcases kt with ⟨k, t⟩
    unfold updAssoc at hp
    by_cases hk : k = s.errs
    · rw [if_pos hk] at hp
      by_cases hc : t.cursor < s.cursor
      · rw [if_pos hc] at hp
        rcases List.mem_cons.mp hp with hp2 | hp2
        · right
          rw [hp2, hk]
        · left
          exact List.mem_cons_of_mem _ hp2
      · rw [if_neg hc] at hp
        exact Or.inl hp
    · rw [if_neg hk] at hp
      rcases List.mem_cons.mp hp with hp2 | hp2
      · exact Or.inl (by simp [hp2])
      · rcases ih p hp2 with hp3 | hp3
        · exact Or.inl (List.mem_cons_of_mem _ hp3)
        · exact Or.inr hp3

theorem pruneFold_mem (l : List SState) : ∀ t ∈ pruneFold l, t ∈ l := by
  have key : ∀ (l2 : List SState) (acc : List (Int × SState)),
      ∀ p ∈ l2.foldl updAssoc acc, p ∈ acc ∨ p.2 ∈ l2 := by
    intro l2
    induction l2 with
    | nil =>
      intro acc p hp
      exact Or.inl hp
    | cons x t2 ih =>
      intro acc p hp
      rw [List.foldl_cons] at hp
      rcases ih (updAssoc acc x) p hp with hp2 | hp2
      · rcases updAssoc_mem acc x p hp2 with hp3 | hp3
        · exact Or.inl hp3
        · right
          rw [hp3]
          simp
      · right
        exact List.mem_cons_of_mem _ hp2
  intro t ht
  unfold pruneFold at ht
  rcases List.mem_map.mp ht with ⟨p, hp, hpt⟩
  rcases key l [] p hp with hp2 | hp2
  · cases hp2
  · rw [← hpt]
    exact hp2

/-- One beam iteration sends well-formed states to well-formed states with at
least one page each, provided every page-less input state is unexhausted. -/
theorem beamIter_inv (U : Nat → Prop) (hUbe : U BOM_BE) (hUle : U BOM_LE)
    (zbe zle : List (List Nat × Bool)) (N : Nat)
    (hNbe : zbe.length = N) (hNle : zle.length = N)
    (hzbe : ∀ ge ∈ zbe, ge.1.length ≤ 62 ∧ ∀ c ∈ ge.1, U c)
    (hzle : ∀ ge ∈ zle, ge.1.length ≤ 62 ∧ ∀ c ∈ ge.1, U c)
    (states : List SState)
    (hst : ∀ s ∈ states, s.cursor ≤ N ∧ (∀ p ∈ s.pages, PageOK U p) ∧
      (s.pages ≠ [] ∨ s.cursor < N))
    (ns : List SState) (h : beamIter zbe zle states = .ok ns) :
    ∀ t ∈ ns, t.cursor ≤ N ∧ t.pages ≠ [] ∧ ∀ p ∈ t.pages, PageOK U p := by
  unfold beamIter at h
  cases hbs : mapE (beExt zbe) states with
  | error e => rw [hbs] at h; cases h
  | ok bs =>
    rw [hbs] at h
    cases h
    intro t ht
    have ht2 := pruneFold_mem _ t ht
    rcases List.mem_append.mp ht2 with ht3 | ht3
    · rcases List.mem_flatten.mp ht3 with ⟨lst, hlst, htl⟩
      rcases mapE_ok_forall _ _ _ hbs lst hlst with ⟨s, hsin, hext⟩
      have := beExt_inv U hUbe zbe hzbe s (by rw [hNbe]; exact (hst s hsin).1)
        ((hst s hsin).2.1) lst hext t htl
      exact ⟨by rw [← hNbe]; exact this.1, this.2.1, this.2.2⟩
    · rcases List.mem_flatten.mp ht3 with ⟨lst, hlst, htl⟩
      rcases List.mem_map.mp hlst with ⟨s, hsin, hext⟩
      have := leExt_inv U hUle zle hzle s (by rw [hNle]; exact (hst s hsin).1)
        ((hst s hsin).2.1) t (by rw [hext]; exact htl)
      refine ⟨by rw [← hNle]; exact this.1.1, ?_, this.1.2⟩
      rcases this.2 with h4 | h4
      · exact h4
      · rcases (hst s hsin).2.2 with h5 | h5
        · rw [h4.1]
          exact h5
        · rw [hNle] at h4
          omega

/-- The beam loop preserves well-formedness with non-empty page lists. -/
theorem beamLoop_post (U : Nat → Prop) (hUbe : U BOM_BE) (hUle : U BOM_LE)
    (zbe zle : List (List Nat × Bool)) (N : Nat)
    (hNbe : zbe.length = N) (hNle : zle.length = N)
    (hzbe : ∀ ge ∈ zbe, ge.1.length ≤ 62 ∧ ∀ c ∈ ge.1, U c)
    (hzle : ∀ ge ∈ zle, ge.1.length ≤ 62 ∧ ∀ c ∈ ge.1, U c) :
    ∀ (fuel : Nat) (states ns : List SState),
      (∀ s ∈ states, s.cursor ≤ N ∧ s.pages ≠ [] ∧ ∀ p ∈ s.pages, PageOK U p) →
      beamLoop zbe zle N fuel states = .ok ns →
      ∀ t ∈ ns, t.cursor ≤ N ∧ t.pages ≠ [] ∧ ∀ p ∈ t.pages, PageOK U p := by
  intro fuel
  induction fuel with
  | zero =>
    intro states ns hst h
    cases h
    exact hst
  | succ f ih =>
    intro states ns hst h
    simp only [beamLoop] at h
    cases hit : beamIter zbe zle states with
    | error e => rw [hit] at h; cases h
    | ok ns2 =>
      rw [hit] at h
      dsimp only at h
      have hpost := beamIter_inv U hUbe hUle zbe zle N hNbe hNle hzbe hzle states
        (fun s hs => ⟨(hst s hs).1, (hst s hs).2.2, Or.inl (hst s hs).2.1⟩)
        ns2 hit
      by_cases hex : ns2.all (fun s => decide (N ≤ s.cursor)) = true
      · rw [if_pos hex] at h
        cases h
        exact hpost
      · rw [if_neg hex] at h
        exact ih ns2 ns hpost h

/-- Starting from the initial beam state `(0, 0, [])` with at least one
grapheme and at least one page of budget, every final state is well formed
and owns at least one page. -/
theorem beamLoop_first (U : Nat → Prop) (hUbe : U BOM_BE) (hUle : U BOM_LE)
    (zbe zle : List (List Nat × Bool)) (N : Nat)
    (hNbe : zbe.length = N) (hNle : zle.length = N)
    (hzbe : ∀ ge ∈ zbe, ge.1.length ≤ 62 ∧ ∀ c ∈ ge.1, U c)
    (hzle : ∀ ge ∈ zle, ge.1.length ≤ 62 ∧ ∀ c ∈ ge.1, U c)
    (hN : 1 ≤ N) (fuel : Nat) (ns : List SState)
    (h : beamLoop zbe zle N (fuel + 1) [⟨0, 0, []⟩] = .ok ns) :
    ∀ t ∈ ns, t.cursor ≤ N ∧ t.pages ≠ [] ∧ ∀ p ∈ t.pages, PageOK U p := by
  simp only [beamLoop] at h
  cases hit : beamIter zbe zle [⟨0, 0, []⟩] with
  | error e => rw [hit] at h; cases h
  | ok ns2 =>
    rw [hit] at h
    dsimp only at h
    have hpost := beamIter_inv U hUbe hUle zbe zle N hNbe hNle hzbe hzle
      [⟨0, 0, []⟩]
      (by
        intro s hs
        simp at hs
        subst hs
        refine ⟨by simp, ?_, Or.inr (by simp; omega)⟩
        intro p hp
        simp at hp)
      ns2 hit
    by_cases hex : ns2.all (fun s => decide (N ≤ s.cursor)) = true
    · rw [if_pos hex] at h
      cases h
      exact hpost
    · rw [if_neg hex] at h
      exact beamLoop_post U hUbe hUle zbe zle N hNbe hNle hzbe hzle
        fuel ns2 ns hpost h

/-! ## Which errors each stage can raise, and selection facts -/

theorem mapE_err {α β : Type} (f : α → Except String β) (l : List α) (e : String)
    (h : mapE f l = .error e) : ∃ a ∈ l, f a = .error e := by
  induction l with
  | nil => cases h
  | cons x t ih =>
    simp only [mapE] at h
    cases hx : f x with
    | error e2 =>
      rw [hx] at h
      cases h
      exact ⟨x, by simp, hx⟩
    | ok b =>
      rw [hx] at h
      cases ht : mapE f t with
      | error e2 =>
        rw [ht] at h
        cases h
        rcases ih ht with ⟨a, ha, hfa⟩
        exact ⟨a, by simp [ha], hfa⟩
      | ok bs => rw [ht] at h; cases h

theorem decode_ucs2_err (big : Bool) :
    ∀ (cands : List (List Nat)) (e : String), decode_ucs2 big cands = .error e →
      e = "AssertionError: decode_ucs2 empty" := by
  intro cands
  induction cands with
  | nil => intro e h; cases h
  | cons b rest ih =>
    intro e h
    simp only [decode_ucs2] at h
    by_cases h1 : (if big then unpackBE b else unpackLE b).isEmpty = true
    · rw [if_pos h1] at h
      cases h
      rfl
    · rw [if_neg h1] at h
      by_cases h2 : ((if big then unpackBE b else unpackLE b).all
          fun c => !isSurrogate c) = true
      · rw [if_pos h2] at h
        cases h
      · rw [if_neg h2] at h
        exact ih e h

theorem masquerades_err (norms : List Nat → List (List Nat)) (chars : List Nat)
    (e : String) (h : masquerades norms chars = .error e) :
    e = "UnicodeEncodeError: utf-16-be" ∨
      e = "AssertionError: decode_ucs2 empty" := by
  unfold masquerades at h
  cases hmo : mapO encodeUtf16BE (normCandidates norms chars) with
  | none =>
    rw [hmo] at h
    cases h
    exact Or.inl rfl
  | some bl =>
    rw [hmo] at h
    dsimp only at h
    cases hd1 : decode_ucs2 true (sortByLen bl) with
    | error e1 =>
      rw [hd1] at h
      cases hd2 : decode_ucs2 false (sortByLen bl) with
      | error e2 =>
        rw [hd2] at h
        dsimp only at h
        cases h
        exact Or.inr (decode_ucs2_err true _ _ hd1)
      | ok ole =>
        rw [hd2] at h
        dsimp only at h
        cases h
        exact Or.inr (decode_ucs2_err true _ _ hd1)
    | ok obe =>
      rw [hd1] at h
      cases hd2 : decode_ucs2 false (sortByLen bl) with
      | error e2 =>
        rw [hd2] at h
        dsimp only at h
        cases h
        exact Or.inr (decode_ucs2_err false _ _ hd2)
      | ok ole =>
        rw [hd2] at h
        dsimp only at h
        cases h

theorem coerce_grapheme_err (norms : List Nat → List (List Nat))
    (chars : List Nat) (pol : Policy) (e : String)
    (h : coerce_grapheme norms chars pol = .error e) :
    e = "AssertionError: empty grapheme" ∨ e = "UnicodeEncodeError: utf-16-be" ∨
      e = "AssertionError: decode_ucs2 empty" := by
  unfold coerce_grapheme at h
  by_cases he : chars.isEmpty = true
  · rw [if_pos he] at h
    cases h
    exact Or.inl rfl
  · rw [if_neg he] at h
    by_cases h1 : (chars.any fun c => UNSUPPORTED_CHARS.contains c) = true ∧
        pol = Policy.replace
    · rw [if_pos h1] at h; cases h
    · rw [if_neg h1] at h
      by_cases h2 : (chars.any fun c => UNSUPPORTED_CHARS.contains c) = true ∧
          pol = Policy.ignore
      · rw [if_pos h2] at h; cases h
      · rw [if_neg h2] at h
        by_cases h3 : (chars.any fun c => UNSUPPORTED_CHARS.contains c) = true ∧
            pol = Policy.error
        · rw [if_pos h3] at h; cases h
        · rw [if_neg h3] at h
          cases hm : masquerades norms chars with
          | error e2 =>
            rw [hm] at h
            cases h
            exact Or.inr (masquerades_err norms chars e hm)
          | ok r =>
            rcases r with ⟨ebe, ele⟩
            rw [hm] at h
            dsimp only at h
            by_cases h4 : ebe = none ∧ ele = none
            · rw [if_pos h4] at h; cases h
            · rw [if_neg h4] at h; cases h

theorem coerceSetup_err (norms : List Nat → List (List Nat))
    (gs : List (List Nat)) (pol : Policy) (mult : Int) (e : String)
    (h : coerceSetup norms gs pol mult = .error e) :
    e = "ValueError: not enough values to unpack" ∨
      e = "AssertionError: empty grapheme" ∨ e = "UnicodeEncodeError: utf-16-be" ∨
      e = "AssertionError: decode_ucs2 empty" ∨
      e = "IndexError: string index out of range" := by
  unfold coerceSetup at h
  by_cases hemp : gs.isEmpty = true
  · rw [if_pos hemp] at h
    cases h
    exact Or.inl rfl
  · rw [if_neg hemp] at h
    cases hmap : mapE (fun g => coerce_grapheme norms g pol) gs with
    | error e2 =>
      rw [hmap] at h
      cases h
      rcases mapE_err _ _ _ hmap with ⟨g, _, hg⟩
      rcases coerce_grapheme_err norms g pol e hg with h1 | h1 | h1
      · exact Or.inr (Or.inl h1)
      · exact Or.inr (Or.inr (Or.inl h1))
      · exact Or.inr (Or.inr (Or.inr (Or.inl h1)))
    | ok coerced =>
      rw [hmap] at h
      dsimp only at h
      unfold mkSetup at h
      cases hflat : (fragsBE coerced).flatten with
      | nil =>
        rw [hflat] at h
        cases h
        exact Or.inr (Or.inr (Or.inr (Or.inr rfl)))
      | cons c0 r0 =>
        rw [hflat] at h
        cases h

theorem beLoop_err :
    ∀ (rest : List (List Nat × Bool)) (idx : Nat) (errs : Int)
      (pages page : List (List Nat)) (total : Nat) (e : String),
      beLoop idx errs pages page total rest = .error e →
      e = "IndexError: string index out of range" := by
  intro rest
  induction rest with
  | nil => intro idx errs pages page total e h; cases h
  | cons ge r ih =>
    intro idx errs pages page total e h
    rcases ge with ⟨g, e2⟩
    simp only [beLoop] at h
    cases hstep : beStep page total g with
    | error e3 =>
      rw [hstep] at h
      cases h
      unfold beStep at hstep
      by_cases hpe : page.length = 0
      · rw [if_pos hpe] at hstep
        cases g with
        | nil => cases hstep; rfl
        | cons c g2 =>
          dsimp only at hstep
          by_cases hb : c = BOM_LE ∨ c = BOM_BE
          · rw [if_pos hb] at hstep; cases hstep
          · rw [if_neg hb] at hstep; cases hstep
      · rw [if_neg hpe] at hstep
        cases hstep
    | ok pt =>
      rw [hstep] at h
      dsimp only at h
      cases r with
      | nil => cases h
      | cons ge2 r2 =>
        rcases ge2 with ⟨g2, e2b⟩
        dsimp only at h
        by_cases hfit : g2.length + pt.2 > 63
        · rw [if_pos hfit] at h
          cases h
        · rw [if_neg hfit] at h
          cases hrec : beLoop (idx + 1) (bumpErrs e2 errs) pages pt.1 pt.2
              ((g2, e2b) :: r2) with
          | error e3 =>
            rw [hrec] at h
            cases h
            exact ih _ _ _ _ _ _ hrec
          | ok pr =>
            rw [hrec] at h
            cases h

theorem beamIter_err (zbe zle : List (List Nat × Bool)) (states : List SState)
    (e : String) (h : beamIter zbe zle states = .error e) :
    e = "IndexError: string index out of range" := by
  unfold beamIter at h
  cases hbs : mapE (beExt zbe) states with
  | error e2 =>
    rw [hbs] at h
    cases h
    rcases mapE_err _ _ _ hbs with ⟨s, _, hs⟩
    unfold beExt at hs
    cases hbl : beLoop s.cursor s.errs s.pages [] 0 (zbe.drop s.cursor) with
    | error e3 =>
      rw [hbl] at hs
      cases hs
      exact beLoop_err _ _ _ _ _ _ _ hbl
    | ok pr => rw [hbl] at hs; cases hs
  | ok bs => rw [hbs] at h; cases h

theorem beamLoop_err (zbe zle : List (List Nat × Bool)) (N : Nat) :
    ∀ (fuel : Nat) (states : List SState) (e : String),
      beamLoop zbe zle N fuel states = .error e →
      e = "IndexError: string index out of range" := by
  intro fuel
  induction fuel with
  | zero => intro states e h; cases h
  | succ f ih =>
    intro states e h
    simp only [beamLoop] at h
    cases hit : beamIter zbe zle states with
    | error e2 =>
      rw [hit] at h
      cases h
      exact beamIter_err _ _ _ _ hit
    | ok ns2 =>
      rw [hit] at h
      dsimp only at h
      by_cases hex : ns2.all (fun s => decide (N ≤ s.cursor)) = true
      · rw [if_pos hex] at h
        cases h
      · rw [if_neg hex] at h
        exact ih ns2 e h

/-- `min(..., key=...)` returns a member of the candidate list. -/
theorem selectBest_mem (l : List (Int × List (List Nat))) (hl : l ≠ []) :
    selectBest l ∈ l := by
  cases l with
  | nil => exact absurd rfl hl
  | cons x xs =>
    unfold selectBest
    dsimp only
    have key : ∀ (t : List (Int × List (List Nat))) (b : Int × List (List Nat)),
        (t.foldl (fun best y => if keyLt (candKey y) (candKey best) then y
          else best) b) = b ∨
        (t.foldl (fun best y => if keyLt (candKey y) (candKey best) then y
          else best) b) ∈ t := by
      intro t
      induction t with
      | nil => intro b; exact Or.inl rfl
      | cons y t2 ih =>
        intro b
        rw [List.foldl_cons]
        rcases ih (if keyLt (candKey y) (candKey b) then y else b) with h1 | h1
        · rw [h1]
          by_cases hk : keyLt (candKey y) (candKey b) = true
          · rw [if_pos hk]
            exact Or.inr (by simp)
          · rw [if_neg hk]
            exact Or.inl rfl
        · exact Or.inr (List.mem_cons_of_mem _ h1)
    rcases key xs x with h1 | h1
    · rw [h1]
      simp
    · exact List.mem_cons_of_mem _ h1

theorem capLen_le (o : Option (List Nat)) (u : List Nat) (h : capLen o = some u) :
    u.length ≤ 62 := by
  cases o with
  | none => cases h
  | some v =>
    unfold capLen at h
    dsimp only at h
    by_cases hv : v.length ≥ 63
    · rw [if_pos hv] at h
      cases h
    · rw [if_neg hv] at h
      cases h
      omega

theorem masquerades_caps (norms : List Nat → List (List Nat)) (chars : List Nat)
    (be le : Option (List Nat)) (h : masquerades norms chars = .ok (be, le)) :
    (∀ u, be = some u → u.length ≤ 62) ∧ (∀ u, le = some u → u.length ≤ 62) := by
  unfold masquerades at h
  cases hmo : mapO encodeUtf16BE (normCandidates norms chars) with
  | none => rw [hmo] at h; cases h
  | some bl =>
    rw [hmo] at h
    dsimp only at h
    cases hd1 : decode_ucs2 true (sortByLen bl) with
    | error e1 =>
      rw [hd1] at h
      cases hd2 : decode_ucs2 false (sortByLen bl) with
      | error e2 => rw [hd2] at h; dsimp only at h; cases h
      | ok ole => rw [hd2] at h; dsimp only at h; cases h
    | ok obe =>
      rw [hd1] at h
      cases hd2 : decode_ucs2 false (sortByLen bl) with
      | error e2 => rw [hd2] at h; dsimp only at h; cases h
      | ok ole =>
        rw [hd2] at h
        dsimp only at h
        cases h
        exact ⟨fun u hu => capLen_le _ _ hu, fun u hu => capLen_le _ _ hu⟩

/-- Every masquerade side a successful `coerce_grapheme` returns is at most
62 code units. -/
theorem coerce_grapheme_len62 (norms : List Nat → List (List Nat))
    (chars : List Nat) (pol : Policy) (r : Option (List Nat) × Option (List Nat))
    (h : coerce_grapheme norms chars pol = .ok r) :
    (∀ u, r.1 = some u → u.length ≤ 62) ∧ (∀ u, r.2 = some u → u.length ≤ 62) := by
  unfold coerce_grapheme at h
  by_cases he : chars.isEmpty = true
  · rw [if_pos he] at h; cases h
  · rw [if_neg he] at h
    by_cases h1 : (chars.any fun c => UNSUPPORTED_CHARS.contains c) = true ∧
        pol = Policy.replace
    · rw [if_pos h1] at h
      cases h
      constructor <;> (intro u hu; cases hu; simp)
    · rw [if_neg h1] at h
      by_cases h2 : (chars.any fun c => UNSUPPORTED_CHARS.contains c) = true ∧
          pol = Policy.ignore
      · rw [if_pos h2] at h
        cases h
        constructor <;> (intro u hu; cases hu; simp)
      · rw [if_neg h2] at h
        by_cases h3 : (chars.any fun c => UNSUPPORTED_CHARS.contains c) = true ∧
            pol = Policy.error
        · rw [if_pos h3] at h
          cases h
          constructor <;> (intro u hu; cases hu)
        · rw [if_neg h3] at h
          cases hm : masquerades norms chars with
          | error e2 => rw [hm] at h; cases h
          | ok mr =>
            rcases mr with ⟨ebe, ele⟩
            rw [hm] at h
            dsimp only at h
            by_cases h4 : ebe = none ∧ ele = none
            · rw [if_pos h4] at h
              cases h
              constructor <;> (intro u hu; cases hu; simp)
            · rw [if_neg h4] at h
              cases h
              exact masquerades_caps norms chars ebe ele hm

/-- The shape of a successful `mkSetup`. -/
theorem mkSetup_ok (coerced : List (Option (List Nat) × Option (List Nat)))
    (N : Nat) (mult : Int) (st : Setup) (h : mkSetup coerced N mult = .ok st) :
    st.gbe = fragsBE coerced ∧ st.gle = fragsLE coerced ∧
    st.ebe = flagsBE coerced ∧ st.ele = flagsLE coerced ∧
    st.spbe = spbeOf coerced ∧ st.sple = BOM_LE :: (fragsLE coerced).flatten ∧
    st.N = N ∧ (fragsBE coerced).flatten ≠ [] := by
  unfold mkSetup at h
  cases hflat : (fragsBE coerced).flatten with
  | nil => rw [hflat] at h; cases h
  | cons c0 r0 =>
    rw [hflat] at h
    dsimp only at h
    cases h
    exact ⟨rfl, rfl, rfl, rfl, rfl, rfl, rfl, by simp [hflat]⟩

/-- A successful setup decomposes through `mapE` and `mkSetup`. -/
theorem coerceSetup_ok (norms : List Nat → List (List Nat))
    (gs : List (List Nat)) (pol : Policy) (mult : Int) (st : Setup)
    (h : coerceSetup norms gs pol mult = .ok st) :
    gs ≠ [] ∧ ∃ coerced, mapE (fun g => coerce_grapheme norms g pol) gs = .ok coerced ∧
      mkSetup coerced gs.length mult = .ok st := by
  unfold coerceSetup at h
  by_cases hemp : gs.isEmpty = true
  · rw [if_pos hemp] at h; cases h
  · rw [if_neg hemp] at h
    cases hmap : mapE (fun g => coerce_grapheme norms g pol) gs with
    | error e => rw [hmap] at h; cases h
    | ok coerced =>
      rw [hmap] at h
      dsimp only at h
      exact ⟨by simpa using hemp, coerced, rfl, h⟩

/-- Fragment bounds of a successful setup: every fragment is at most 62 code
units and all the lists have the length of the grapheme list. -/
theorem setup_frags62 (norms : List Nat → List (List Nat))
    (gs : List (List Nat)) (pol : Policy) (mult : Int) (st : Setup)
    (h : coerceSetup norms gs pol mult = .ok st) :
    (∀ f ∈ st.gbe, f.length ≤ 62) ∧ (∀ f ∈ st.gle, f.length ≤ 62) ∧
    st.gbe.length = gs.length ∧ st.gle.length = gs.length ∧
    st.ebe.length = gs.length ∧ st.ele.length = gs.length ∧
    st.N = gs.length ∧ 1 ≤ gs.length := by
  rcases coerceSetup_ok norms gs pol mult st h with ⟨hne, coerced, hmap, hmk⟩
  rcases mkSetup_ok coerced gs.length mult st hmk with
    ⟨hgbe, hgle, hebe, hele, _, _, hN, _⟩
  have hlen := mapE_ok_length _ _ _ hmap
  have hfbe : ∀ f ∈ st.gbe, f.length ≤ 62 := by
    rw [hgbe]
    intro f hf
    rcases List.mem_map.mp hf with ⟨p, hp, hpf⟩
    rcases mapE_ok_forall _ _ _ hmap p hp with ⟨g, _, hg⟩
    rcases coerce_grapheme_len62 norms g pol p hg with ⟨hb, _⟩
    cases hp1 : p.1 with
    | none => rw [← hpf]; simp [fragsBE, hp1]
    | some u =>
      rw [← hpf]
      have := hb u hp1
      simp [hp1]
      omega
  have hfle : ∀ f ∈ st.gle, f.length ≤ 62 := by
    rw [hgle]
    intro f hf
    rcases List.mem_map.mp hf with ⟨p, hp, hpf⟩
    rcases mapE_ok_forall _ _ _ hmap p hp with ⟨g, _, hg⟩
    rcases coerce_grapheme_len62 norms g pol p hg with ⟨_, hl⟩
    cases hp1 : p.2 with
    | none => rw [← hpf]; simp [fragsLE, hp1]
    | some u =>
      rw [← hpf]
      have := hl u hp1
      simp [hp1]
      omega
  refine ⟨hfbe, hfle, ?_, ?_, ?_, ?_, hN, ?_⟩
  · rw [hgbe]; simp [fragsBE, hlen]
  · rw [hgle]; simp [fragsLE, hlen]
  · rw [hebe]; simp [flagsBE, hlen]
  · rw [hele]; simp [flagsLE, hlen]
  · cases gs with
    | nil => exact absurd rfl hne
    | cons a t => simp

/-! ## Claims C10 and C2 -/

theorem right_pad_page_ok (p : List Nat) (ch : Nat) (out : List Nat)
    (h : right_pad_page p ch = .ok out) : out.length = 63 := by
  unfold right_pad_page at h
  by_cases hp : p.length ≤ 63
  · rw [if_pos hp] at h
    cases h
    simp
    omega
  · rw [if_neg hp] at h
    cases h

theorem right_pad_page_err (p : List Nat) (ch : Nat) (e : String)
    (h : right_pad_page p ch = .error e) :
    e = "AssertionError: right_pad_page" ∧ 63 < p.length := by
  unfold right_pad_page at h
  by_cases hp : p.length ≤ 63
  · rw [if_pos hp] at h
    cases h
  · rw [if_neg hp] at h
    cases h
    exact ⟨rfl, by omega⟩

/-- When every non-final selected page is at most 63 units, the assembly
never trips the `right_pad_page` assertion. -/
theorem assembleList_ne_pad (best : List (List Nat))
    (hb : ∀ p ∈ best.dropLast, p.length ≤ 63) :
    assembleList best ≠ .error "AssertionError: right_pad_page" := by
  intro h
  unfold assembleList at h
  cases hl : best.getLast? with
  | none =>
    rw [hl] at h
    injection h with h2
    exact absurd h2 (by decide)
  | some last =>
    rw [hl] at h
    dsimp only at h
    cases hmap : mapE (fun p =>
        match p with
        | [] => (.error "RuntimeError: empty best_page" : Except String (List Nat))
        | c :: _ =>
          if c = BOM_LE then right_pad_page p BOM_LE
          else right_pad_page p BOM_BE) best.dropLast with
    | error e2 =>
      rw [hmap] at h
      cases h
      rcases mapE_err _ _ _ hmap with ⟨p, hp, hpe⟩
      cases p with
      | nil =>
        injection hpe with h3
        exact absurd h3 (by decide)
      | cons c p2 =>
        dsimp only at hpe
        by_cases hc : c = BOM_LE
        · rw [if_pos hc] at hpe
          have := right_pad_page_err _ _ _ hpe
          have := hb _ hp
          omega
        · rw [if_neg hc] at hpe
          have := right_pad_page_err _ _ _ hpe
          have := hb _ hp
          omega
    | ok padded =>
      rw [hmap] at h
      cases h

/-- Every final beam state has non-empty, at-most-63-unit pages, given a
successful setup and a positive page budget. -/
theorem beam_fin_pages63 (norms : List Nat → List (List Nat))
    (gs : List (List Nat)) (pol : Policy) (mult mp : Int) (st : Setup)
    (fin : List SState)
    (hsetup : coerceSetup norms gs pol mult = .ok st)
    (hmp : ¬ mp ≤ 0)
    (hbeam : beamLoop (st.gbe.zip st.ebe) (st.gle.zip st.ele) st.N
      mp.toNat [⟨0, 0, []⟩] = .ok fin) :
    ∀ t ∈ fin, t.pages ≠ [] ∧ ∀ p ∈ t.pages, p ≠ [] ∧ p.length ≤ 63 := by
  obtain ⟨hbe62, hle62, hlbe, hlle, hlebe, hlele, hN, hN1⟩ :=
    setup_frags62 norms gs pol mult st hsetup
  have hfuel : mp.toNat = (mp.toNat - 1) + 1 := by omega
  rw [hfuel] at hbeam
  have hmain := beamLoop_first (fun _ => True) trivial trivial
    (st.gbe.zip st.ebe) (st.gle.zip st.ele) st.N
    (by rw [List.length_zip, hlbe, hlebe, hN]; omega)
    (by rw [List.length_zip, hlle, hlele, hN]; omega)
    (by
      intro ge hge
      exact ⟨hbe62 ge.1 (List.of_mem_zip hge).1, fun c _ => trivial⟩)
    (by
      intro ge hge
      exact ⟨hle62 ge.1 (List.of_mem_zip hge).1, fun c _ => trivial⟩)
    (by omega) (mp.toNat - 1) fin hbeam
  intro t ht
  have := hmain t ht
  exact ⟨this.2.1, fun p hp => ⟨(this.2.2 p hp).1, (this.2.2 p hp).2.1⟩⟩

/-- C10: every page `coerce_text` passes to `right_pad_page` (every non-final
page of the selected solution) is at most 63 code units, so the assertion
`len(text) <= 63` inside `right_pad_page` can never fail: for no input or
parameters does the encoder raise that assertion. -/
theorem c10_right_pad_assert (norms : List Nat → List (List Nat))
    (gs : List (List Nat)) (mp mult : Int) (pol : Policy) :
    selectedPages norms gs mp mult pol ≠ .error "AssertionError: right_pad_page" := by
  intro h
  unfold selectedPages at h
  by_cases hmp : mp ≤ 0
  · rw [if_pos hmp] at h
    injection h with h2
    exact absurd h2 (by decide)
  · rw [if_neg hmp] at h
    cases hsetup : coerceSetup norms gs pol mult with
    | error e =>
      rw [hsetup] at h
      injection h with h2
      subst h2
      rcases coerceSetup_err norms gs pol mult _ hsetup with h1 | h1 | h1 | h1 | h1 <;>
        exact absurd h1 (by decide)
    | ok st =>
      rw [hsetup] at h
      dsimp only at h
      by_cases hf1 : ¬ st.ebe.any id = true ∧ st.spbe.length ≤ 70
      · rw [if_pos hf1] at h
        cases h
      · rw [if_neg hf1] at h
        by_cases hf2 : ¬ st.ele.any id = true ∧ st.sple.length ≤ 70
        · rw [if_pos hf2] at h
          cases h
        · rw [if_neg hf2] at h
          cases hbeam : beamLoop (st.gbe.zip st.ebe) (st.gle.zip st.ele) st.N
              mp.toNat [⟨0, 0, []⟩] with
          | error e =>
            rw [hbeam] at h
            injection h with h2
            subst h2
            exact absurd (beamLoop_err _ _ _ _ _ _ hbeam) (by decide)
          | ok fin =>
            rw [hbeam] at h
            dsimp only at h
            have hfin := beam_fin_pages63 norms gs pol mult mp st fin hsetup hmp hbeam
            refine assembleList_ne_pad _ ?_ h
            intro p hp
            have hmem : selectBest (beamCandidates st mult fin) ∈
                fin.map (fun s => (lossOf st.N mult s, s.pages)) ++
                  [(st.spbeErr, [st.spbe]), (st.spleErr, [st.sple])] :=
              selectBest_mem (beamCandidates st mult fin) (by
                unfold beamCandidates
                simp)
            rcases List.mem_append.mp hmem with h3 | h3
            · rcases List.mem_map.mp h3 with ⟨s, hsin, hsel⟩
              have hpages : (selectBest (beamCandidates st mult fin)).2 = s.pages := by
                rw [← hsel]
              rw [hpages] at hp
              exact ((hfin s hsin).2 p (List.dropLast_subset _ hp)).2
            · simp at h3
              rcases h3 with h3 | h3 <;>
              · rw [h3] at hp
                simp at hp

/-- Witness for C10 at concrete arguments. -/
theorem c10_right_pad_assert_witness :
    selectedPages idNorms [[97]] 5 1 .replace ≠
      .error "AssertionError: right_pad_page" :=
  c10_right_pad_assert idNorms [[97]] 5 1 .replace

theorem mem_of_getLast? {α : Type} (l : List α) (a : α) (h : l.getLast? = some a) :
    a ∈ l := by
  induction l with
  | nil => cases h
  | cons x t ih =>
    cases t with
    | nil =>
      simp at h
      simp [h]
    | cons y t2 =>
      rw [List.getLast?_cons_cons] at h
      exact List.mem_cons_of_mem _ (ih h)

/-- The shape of a successful assembly. -/
theorem assembleList_ok (best : List (List Nat)) (ps : List (List Nat))
    (h : assembleList best = .ok ps) :
    ∃ last padded, best.getLast? = some last ∧ ps = padded ++ [last] ∧
      (∀ p ∈ padded, p.length = 63) ∧ padded.length = best.dropLast.length := by
  unfold assembleList at h
  cases hl : best.getLast? with
  | none => rw [hl] at h; cases h
  | some last =>
    rw [hl] at h
    dsimp only at h
    cases hmap : mapE (fun p =>
        match p with
        | [] => (.error "RuntimeError: empty best_page" : Except String (List Nat))
        | c :: _ =>
          if c = BOM_LE then right_pad_page p BOM_LE
          else right_pad_page p BOM_BE) best.dropLast with
    | error e2 => rw [hmap] at h; cases h
    | ok padded =>
      rw [hmap] at h
      cases h
      refine ⟨last, padded, rfl, rfl, ?_, mapE_ok_length _ _ _ hmap⟩
      intro p hp
      rcases mapE_ok_forall _ _ _ hmap p hp with ⟨q, _, hq⟩
      cases q with
      | nil => cases hq
      | cons c q2 =>
        dsimp only at hq
        by_cases hc : c = BOM_LE
        · rw [if_pos hc] at hq
          exact right_pad_page_ok _ _ _ hq
        · rw [if_neg hc] at hq
          exact right_pad_page_ok _ _ _ hq

set_option maxRecDepth 40000 in
/-- C2 counterexample: with `max_pages = 1` and eighty letters `a`, the
degenerate single-page candidate wins the final selection and the sole
selected page is 80 code units, refuting "the final page is at most 70 code
units when it is the only page". -/
theorem c2_counterexample :
    selectedPages idNorms (segmentGraphemes (List.replicate 80 97)) 1 1 .replace =
      .ok [List.replicate 80 97] ∧ ¬ (List.replicate 80 97).length ≤ 70 := by
  constructor
  · rfl
  · simp

/-- C2 amended: in the list of pages `coerce_text` selects and assembles,
every non-final page is exactly 63 code units after padding, and when there
are at least two pages the final page is at most 63 code units.  (A sole
selected page can exceed 70 units when a degenerate single-page candidate
wins the selection, as the counterexample shows.) -/
theorem c2_page_length (norms : List Nat → List (List Nat))
    (gs : List (List Nat)) (mp mult : Int) (pol : Policy) (ps : List (List Nat))
    (h : selectedPages norms gs mp mult pol = .ok ps) :
    (∀ i p, i + 1 < ps.length → ps.get? i = some p → p.length = 63) ∧
    (2 ≤ ps.length → (ps.getLastD []).length ≤ 63) := by
  unfold selectedPages at h
  by_cases hmp : mp ≤ 0
  · rw [if_pos hmp] at h
    cases h
  · rw [if_neg hmp] at h
    cases hsetup : coerceSetup norms gs pol mult with
    | error e => rw [hsetup] at h; cases h
    | ok st =>
      rw [hsetup] at h
      dsimp only at h
      by_cases hf1 : ¬ st.ebe.any id = true ∧ st.spbe.length ≤ 70
      · rw [if_pos hf1] at h
        cases h
        constructor
        · intro i p hi hp
          simp at hi
        · intro h2
          simp at h2
      · rw [if_neg hf1] at h
        by_cases hf2 : ¬ st.ele.any id = true ∧ st.sple.length ≤ 70
        · rw [if_pos hf2] at h
          cases h
          constructor
          · intro i p hi hp
            simp at hi
          · intro h2
            simp at h2
        · rw [if_neg hf2] at h
          cases hbeam : beamLoop (st.gbe.zip st.ebe) (st.gle.zip st.ele) st.N
              mp.toNat [⟨0, 0, []⟩] with
          | error e => rw [hbeam] at h; cases h
          | ok fin =>
            rw [hbeam] at h
            dsimp only at h
            have hfin := beam_fin_pages63 norms gs pol mult mp st fin hsetup hmp hbeam
            rcases assembleList_ok _ _ h with ⟨last, padded, hlast, hps, hpad, hplen⟩
            constructor
            · intro i p hi hp
              rw [hps] at hi hp
              simp at hi
              have hilt : i < padded.length := by omega
              rw [List.get?_append hilt] at hp
              exact hpad p (List.get?_mem hp)
            · intro hlen2
              have hld : ps.getLastD [] = last := by
                rw [hps]
                rw [List.getLastD_eq_getLast?, List.getLast?_concat]
                rfl
              rw [hld]
              have hmem : selectBest (beamCandidates st mult fin) ∈
                  fin.map (fun s => (lossOf st.N mult s, s.pages)) ++
                    [(st.spbeErr, [st.spbe]), (st.spleErr, [st.sple])] :=
                selectBest_mem (beamCandidates st mult fin) (by
                  unfold beamCandidates
                  simp)
              rcases List.mem_append.mp hmem with h3 | h3
              · rcases List.mem_map.mp h3 with ⟨s, hsin, hsel⟩
                have hpages : (selectBest (beamCandidates st mult fin)).2 = s.pages := by
                  rw [← hsel]
                rw [hpages] at hlast
                exact ((hfin s hsin).2 last (mem_of_getLast? _ _ hlast)).2
              · simp at h3
                rcases h3 with h3 | h3 <;>
                · rw [h3] at hplen
                  simp at hplen
                  rw [hps] at hlen2
                  rw [List.length_append, hplen] at hlen2
                  simp at hlen2

/-- Witness for C2 at concrete arguments. -/
theorem c2_page_length_witness :
    (∀ i p, i + 1 < ([[97]] : List (List Nat)).length →
      ([[97]] : List (List Nat)).get? i = some p → p.length = 63) ∧
    (2 ≤ ([[97]] : List (List Nat)).length →
      (([[97]] : List (List Nat)).getLastD []).length ≤ 63) :=
  c2_page_length idNorms [[97]] 5 1 .replace [[97]] rfl

/-! ## Claim C5: output codepoint range -/

/-- A code unit the gateway's strict UTF-8 round trip survives: at most
U+FFFF and not a surrogate. -/
def GoodUnit (c : Nat) : Prop := c ≤ 0xFFFF ∧ ¬ (0xD800 ≤ c ∧ c < 0xE000)

theorem encodeUtf16BEChar_bytes (c : Nat) (bs : List Nat)
    (h : encodeUtf16BEChar c = some bs) : ∀ b ∈ bs, b < 256 := by
  unfold encodeUtf16BEChar at h
  by_cases h1 : c < 0xD800
  · rw [if_pos h1] at h
    cases h
    intro b hb
    simp at hb
    rcases hb with hb | hb <;> (rw [hb]; omega)
  · rw [if_neg h1] at h
    by_cases h2 : c < 0xE000
    · rw [if_pos h2] at h
      cases h
    · rw [if_neg h2] at h
      by_cases h3 : c < 0x10000
      · rw [if_pos h3] at h
        cases h
        intro b hb
        simp at hb
        rcases hb with hb | hb <;> (rw [hb]; omega)
      · rw [if_neg h3] at h
        by_cases h4 : c < 0x110000
        · rw [if_pos h4] at h
          cases h
          intro b hb
          simp at hb
          have hd : (c - 0x10000) / 1024 < 1024 := by omega
          have he : (c - 0x10000) % 1024 < 1024 := Nat.mod_lt _ (by omega)
          rcases hb with hb | hb | hb | hb <;> (rw [hb]; omega)
        · rw [if_neg h4] at h
          cases h

theorem mapO_some_forall {α β : Type} (f : α → Option β) (l : List α)
    (r : List β) (h : mapO f l = some r) : ∀ b ∈ r, ∃ a ∈ l, f a = some b := by
  induction l generalizing r with
  | nil => cases h; simp
  | cons x t ih =>
    simp only [mapO] at h
    cases hx : f x with
    | none => rw [hx] at h; cases h
    | some b =>
      rw [hx] at h
      cases ht : mapO f t with
      | none => rw [ht] at h; cases h
      | some bs =>
        rw [ht] at h
        cases h
        intro c hc
        rcases List.mem_cons.mp hc with hc2 | hc2
        · exact ⟨x, by simp, hc2 ▸ hx⟩
        · rcases ih bs ht c hc2 with ⟨a, ha, hfa⟩
          exact ⟨a, by simp [ha], hfa⟩

theorem encodeUtf16BE_bytes (s : List Nat) (bytes : List Nat)
    (h : encodeUtf16BE s = some bytes) : ∀ b ∈ bytes, b < 256 := by
  unfold encodeUtf16BE at h
  cases hmo : mapO encodeUtf16BEChar s with
  | none => rw [hmo] at h; cases h
  | some bl =>
    rw [hmo] at h
    cases h
    intro b hb
    rcases List.mem_flatten.mp hb with ⟨bs, hbs, hbb⟩
    rcases mapO_some_forall _ _ _ hmo bs hbs with ⟨c, _, hc⟩
    exact encodeUtf16BEChar_bytes c bs hc b hbb

theorem unpackBE_lt (bytes : List Nat) (hb : ∀ b ∈ bytes, b < 256) :
    ∀ u ∈ unpackBE bytes, u ≤ 0xFFFF := by
  induction bytes using unpackBE.induct with
  | case1 b0 b1 rest =>
    rename_i ih
    intro u hu
    simp only [unpackBE] at hu
    rcases List.mem_cons.mp hu with hu2 | hu2
    · have h0 := hb b0 (by simp)
      have h1 := hb b1 (by simp)
      omega
    · exact ih (fun b hbm => hb b (by simp [hbm])) u hu2
  | case2 l hl =>
    intro u hu
    cases l with
    | nil => cases hu
    | cons a t =>
      cases t with
      | nil => cases hu
      | cons a2 t2 => exact absurd rfl (hl a a2 t2)

theorem unpackLE_lt (bytes : List Nat) (hb : ∀ b ∈ bytes, b < 256) :
    ∀ u ∈ unpackLE bytes, u ≤ 0xFFFF := by
  induction bytes using unpackLE.induct with
  | case1 b0 b1 rest =>
    rename_i ih
    intro u hu
    simp only [unpackLE] at hu
    rcases List.mem_cons.mp hu with hu2 | hu2
    · have h0 := hb b0 (by simp)
      have h1 := hb b1 (by simp)
      omega
    · exact ih (fun b hbm => hb b (by simp [hbm])) u hu2
  | case2 l hl =>
    intro u hu
    cases l with
    | nil => cases hu
    | cons a t =>
      cases t with
      | nil => cases hu
      | cons a2 t2 => exact absurd rfl (hl a a2 t2)

theorem decode_ucs2_good (big : Bool) :
    ∀ (cands : List (List Nat)) (u : List Nat),
      decode_ucs2 big cands = .ok (some u) →
      (∀ b ∈ cands, ∀ x ∈ b, x < 256) →
      ∀ c ∈ u, GoodUnit c := by
  intro cands
  induction cands with
  | nil => intro u h _; cases h
  | cons b rest ih =>
    intro u h hb
    simp only [decode_ucs2] at h
    by_cases h1 : (if big then unpackBE b else unpackLE b).isEmpty = true
    · rw [if_pos h1] at h
      cases h
    · rw [if_neg h1] at h
      by_cases h2 : ((if big then unpackBE b else unpackLE b).all
          fun c => !isSurrogate c) = true
      · rw [if_pos h2] at h
        cases h
        intro c hc
        have hns := List.all_eq_true.mp h2 c hc
        simp [isSurrogate] at hns
        constructor
        · cases big with
          | true =>
            simp at hc
            exact unpackBE_lt b (hb b (by simp)) c hc
          | false =>
            simp at hc
            exact unpackLE_lt b (hb b (by simp)) c hc
        · intro hcon
          rcases hns with hns | hns <;> omega
      · rw [if_neg h2] at h
        exact ih u h (fun b2 hb2 => hb b2 (by simp [hb2]))

theorem insByLen_mem (x : List Nat) (l : List (List Nat)) :
    ∀ y ∈ insByLen x l, y = x ∨ y ∈ l := by
  induction l with
  | nil =>
    intro y hy
    simp [insByLen] at hy
    exact Or.inl hy
  | cons z t ih =>
    intro y hy
    simp only [insByLen] at hy
    by_cases hc : z.length ≤ x.length
    · rw [if_pos hc] at hy
      rcases List.mem_cons.mp hy with hy2 | hy2
      · exact Or.inr (by simp [hy2])
      · rcases ih y hy2 with hy3 | hy3
        · exact Or.inl hy3
        · exact Or.inr (by simp [hy3])
    · rw [if_neg hc] at hy
      rcases List.mem_cons.mp hy with hy2 | hy2
      · exact Or.inl hy2
      · exact Or.inr hy2

theorem sortByLen_mem (l : List (List Nat)) : ∀ y ∈ sortByLen l, y ∈ l := by
  induction l with
  | nil => intro y hy; cases hy
  | cons x t ih =>
    intro y hy
    unfold sortByLen at hy
    rw [List.foldr_cons] at hy
    rcases insByLen_mem x (t.foldr insByLen []) y hy with hy2 | hy2
    · simp [hy2]
    · exact List.mem_cons_of_mem _ (ih y hy2)

/-- Every masquerade side a successful `masquerades` call returns consists of
UTF-8-survivable units. -/
theorem masquerades_good (norms : List Nat → List (List Nat)) (chars : List Nat)
    (be le : Option (List Nat)) (h : masquerades norms chars = .ok (be, le)) :
    (∀ u, be = some u → ∀ c ∈ u, GoodUnit c) ∧
    (∀ u, le = some u → ∀ c ∈ u, GoodUnit c) := by
  unfold masquerades at h
  cases hmo : mapO encodeUtf16BE (normCandidates norms chars) with
  | none => rw [hmo] at h; cases h
  | some bl =>
    rw [hmo] at h
    dsimp only at h
    have hbytes : ∀ b ∈ sortByLen bl, ∀ x ∈ b, x < 256 := by
      intro b hb x hx
      rcases mapO_some_forall _ _ _ hmo b (sortByLen_mem bl b hb) with ⟨cand, _, hc⟩
      exact encodeUtf16BE_bytes cand b hc x hx
    cases hd1 : decode_ucs2 true (sortByLen bl) with
    | error e1 =>
      rw [hd1] at h
      cases hd2 : decode_ucs2 false (sortByLen bl) with
      | error e2 => rw [hd2] at h; dsimp only at h; cases h
      | ok ole => rw [hd2] at h; dsimp only at h; cases h
    | ok obe =>
      rw [hd1] at h
      cases hd2 : decode_ucs2 false (sortByLen bl) with
      | error e2 => rw [hd2] at h; dsimp only at h; cases h
      | ok ole =>
        rw [hd2] at h
        dsimp only at h
        cases h
        constructor
        · intro u hu c hc
          cases hobe : obe with
          | none => rw [hobe] at hu; cases hu
          | some v =>
            rw [hobe] at hd1 hu
            unfold capLen at hu
            dsimp only at hu
            by_cases hv : v.length ≥ 63
            · rw [if_pos hv] at hu; cases hu
            · rw [if_neg hv] at hu
              cases hu
              exact decode_ucs2_good true _ u hd1 hbytes c hc
        · intro u hu c hc
          cases hole : ole with
          | none => rw [hole] at hu; cases hu
          | some v =>
            rw [hole] at hd2 hu
            unfold capLen at hu
            dsimp only at hu
            by_cases hv : v.length ≥ 63
            · rw [if_pos hv] at hu; cases hu
            · rw [if_neg hv] at hu
              cases hu
              exact decode_ucs2_good false _ u hd2 hbytes c hc

theorem goodRepl : GoodUnit REPLACEMENT_CHARACTER_BE ∧
    GoodUnit REPLACEMENT_CHARACTER_LE ∧ GoodUnit BOM_BE ∧ GoodUnit BOM_LE := by
  refine ⟨⟨by decide, by decide⟩, ⟨by decide, by decide⟩,
    ⟨by decide, by decide⟩, ⟨by decide, by decide⟩⟩

/-- Every masquerade side a successful `coerce_grapheme` returns consists of
UTF-8-survivable units. -/
theorem coerce_grapheme_good (norms : List Nat → List (List Nat))
    (chars : List Nat) (pol : Policy) (r : Option (List Nat) × Option (List Nat))
    (h : coerce_grapheme norms chars pol = .ok r) :
    (∀ u, r.1 = some u → ∀ c ∈ u, GoodUnit c) ∧
    (∀ u, r.2 = some u → ∀ c ∈ u, GoodUnit c) := by
  unfold coerce_grapheme at h
  by_cases he : chars.isEmpty = true
  · rw [if_pos he] at h; cases h
  · rw [if_neg he] at h
    by_cases h1 : (chars.any fun c => UNSUPPORTED_CHARS.contains c) = true ∧
        pol = Policy.replace
    · rw [if_pos h1] at h
      cases h
      constructor <;>
        (intro u hu c hc; cases hu; simp at hc; rw [hc]; first
          | exact goodRepl.1
          | exact goodRepl.2.1)
    · rw [if_neg h1] at h
      by_cases h2 : (chars.any fun c => UNSUPPORTED_CHARS.contains c) = true ∧
          pol = Policy.ignore
      · rw [if_pos h2] at h
        cases h
        constructor <;> (intro u hu c hc; cases hu; cases hc)
      · rw [if_neg h2] at h
        by_cases h3 : (chars.any fun c => UNSUPPORTED_CHARS.contains c) = true ∧
            pol = Policy.error
        · rw [if_pos h3] at h
          cases h
          constructor <;> (intro u hu; cases hu)
        · rw [if_neg h3] at h
          cases hm : masquerades norms chars with
          | error e2 => rw [hm] at h; cases h
          | ok mr =>
            rcases mr with ⟨ebe, ele⟩
            rw [hm] at h
            dsimp only at h
            by_cases h4 : ebe = none ∧ ele = none
            · rw [if_pos h4] at h
              cases h
              constructor <;>
                (intro u hu c hc; cases hu; simp at hc; rw [hc]; first
                  | exact goodRepl.1
                  | exact goodRepl.2.1)
            · rw [if_neg h4] at h
              cases h
              exact masquerades_good norms chars ebe ele hm

/-- All fragments and both single-page candidates of a successful setup
consist of UTF-8-survivable units. -/
theorem setup_good (norms : List Nat → List (List Nat)) (gs : List (List Nat))
    (pol : Policy) (mult : Int) (st : Setup)
    (h : coerceSetup norms gs pol mult = .ok st) :
    (∀ f ∈ st.gbe, ∀ c ∈ f, GoodUnit c) ∧ (∀ f ∈ st.gle, ∀ c ∈ f, GoodUnit c) ∧
    (∀ c ∈ st.spbe, GoodUnit c) ∧ (∀ c ∈ st.sple, GoodUnit c) := by
  rcases coerceSetup_ok norms gs pol mult st h with ⟨hne, coerced, hmap, hmk⟩
  rcases mkSetup_ok coerced gs.length mult st hmk with
    ⟨hgbe, hgle, _, _, hspbe, hsple, _, _⟩
  have hfbe : ∀ f ∈ fragsBE coerced, ∀ c ∈ f, GoodUnit c := by
    intro f hf
    rcases List.mem_map.mp hf with ⟨p, hp, hpf⟩
    rcases mapE_ok_forall _ _ _ hmap p hp with ⟨g, _, hg⟩
    rcases coerce_grapheme_good norms g pol p hg with ⟨hb, _⟩
    cases hp1 : p.1 with
    | none =>
      rw [← hpf]
      simp only [hp1, Option.getD_none]
      intro c hc
      rw [List.mem_singleton.mp hc]
      exact goodRepl.1
    | some u =>
      rw [← hpf]
      simp only [hp1, Option.getD_some]
      exact hb u hp1
  have hfle : ∀ f ∈ fragsLE coerced, ∀ c ∈ f, GoodUnit c := by
    intro f hf
    rcases List.mem_map.mp hf with ⟨p, hp, hpf⟩
    rcases mapE_ok_forall _ _ _ hmap p hp with ⟨g, _, hg⟩
    rcases coerce_grapheme_good norms g pol p hg with ⟨_, hl⟩
    cases hp1 : p.2 with
    | none =>
      rw [← hpf]
      simp only [hp1, Option.getD_none]
      intro c hc
      rw [List.mem_singleton.mp hc]
      exact goodRepl.2.1
    | some u =>
      rw [← hpf]
      simp only [hp1, Option.getD_some]
      exact hl u hp1
  refine ⟨by rw [hgbe]; exact hfbe, by rw [hgle]; exact hfle, ?_, ?_⟩
  · rw [hspbe]
    unfold spbeOf
    cases hflat : (fragsBE coerced).flatten with
    | nil => intro c hc; cases hc
    | cons c0 r0 =>
      dsimp only
      have hflg : ∀ c ∈ c0 :: r0, GoodUnit c := by
        rw [← hflat]
        intro c hc
        rcases List.mem_flatten.mp hc with ⟨f, hf, hcf⟩
        exact hfbe f hf c hcf
      by_cases hb : c0 = BOM_LE ∨ c0 = BOM_BE
      · rw [if_pos hb]
        intro c hc
        rcases List.mem_cons.mp hc with hc2 | hc2
        · rw [hc2]
          exact goodRepl.2.2.1
        · exact hflg c hc2
      · rw [if_neg hb]
        exact hflg
  · rw [hsple]
    intro c hc
    rcases List.mem_cons.mp hc with hc2 | hc2
    · rw [hc2]
      exact goodRepl.2.2.2
    · rcases List.mem_flatten.mp hc2 with ⟨f, hf, hcf⟩
      exact hfle f hf c hcf

theorem right_pad_page_good (p : List Nat) (ch : Nat) (out : List Nat)
    (h : right_pad_page p ch = .ok out)
    (hp : ∀ c ∈ p, GoodUnit c) (hch : GoodUnit ch) :
    ∀ c ∈ out, GoodUnit c := by
  unfold right_pad_page at h
  by_cases hl : p.length ≤ 63
  · rw [if_pos hl] at h
    cases h
    intro c hc
    rcases List.mem_append.mp hc with hc2 | hc2
    · exact hp c hc2
    · rw [List.eq_of_mem_replicate hc2]
      exact hch
  · rw [if_neg hl] at h
    cases h

theorem assembleList_good (best ps : List (List Nat))
    (h : assembleList best = .ok ps)
    (hb : ∀ p ∈ best, ∀ c ∈ p, GoodUnit c) :
    ∀ p ∈ ps, ∀ c ∈ p, GoodUnit c := by
  unfold assembleList at h
  cases hl : best.getLast? with
  | none => rw [hl] at h; cases h
  | some last =>
    rw [hl] at h
    dsimp only at h
    cases hmap : mapE (fun p =>
        match p with
        | [] => (.error "RuntimeError: empty best_page" : Except String (List Nat))
        | c :: _ =>
          if c = BOM_LE then right_pad_page p BOM_LE
          else right_pad_page p BOM_BE) best.dropLast with
    | error e2 => rw [hmap] at h; cases h
    | ok padded =>
      rw [hmap] at h
      cases h
      intro p hp
      rcases List.mem_append.mp hp with hp2 | hp2
      · rcases mapE_ok_forall _ _ _ hmap p hp2 with ⟨q, hq, hqp⟩
        have hqgood := hb q (List.dropLast_subset _ hq)
        cases q with
        | nil => cases hqp
        | cons c q2 =>
          dsimp only at hqp
          by_cases hc : c = BOM_LE
          · rw [if_pos hc] at hqp
            exact right_pad_page_good _ _ _ hqp hqgood goodRepl.2.2.2
          · rw [if_neg hc] at hqp
            exact right_pad_page_good _ _ _ hqp hqgood goodRepl.2.2.1
      · simp at hp2
        rw [hp2]
        exact hb last (mem_of_getLast? _ _ hl)

/-- C5: for every input and parameters for which `coerce_text` returns, every
codepoint of the returned string is at most U+FFFF and none lies in the
surrogate range U+D800..U+DFFF (so the result survives a strict UTF-8
encode). -/
theorem c5_output_range (norms : List Nat → List (List Nat))
    (gs : List (List Nat)) (mp mult : Int) (pol : Policy) (out : List Nat)
    (h : coerce_text norms gs mp mult pol = .ok out) :
    ∀ c ∈ out, c ≤ 0xFFFF ∧ ¬ (0xD800 ≤ c ∧ c < 0xE000) := by
  unfold coerce_text at h
  cases hsp : selectedPages norms gs mp mult pol with
  | error e => rw [hsp] at h; cases h
  | ok ps =>
    rw [hsp] at h
    cases h
    suffices hgood : ∀ p ∈ ps, ∀ c ∈ p, GoodUnit c by
      intro c hc
      rcases List.mem_flatten.mp hc with ⟨p, hp, hcp⟩
      exact hgood p hp c hcp
    unfold selectedPages at hsp
    by_cases hmp : mp ≤ 0
    · rw [if_pos hmp] at hsp
      cases hsp
    · rw [if_neg hmp] at hsp
      cases hsetup : coerceSetup norms gs pol mult with
      | error e => rw [hsetup] at hsp; cases hsp
      | ok st =>
        rw [hsetup] at hsp
        dsimp only at hsp
        obtain ⟨hgbeG, hgleG, hspbeG, hspleG⟩ := setup_good norms gs pol mult st hsetup
        by_cases hf1 : ¬ st.ebe.any id = true ∧ st.spbe.length ≤ 70
        · rw [if_pos hf1] at hsp
          cases hsp
          intro p hp
          simp at hp
          rw [hp]
          exact hspbeG
        · rw [if_neg hf1] at hsp
          by_cases hf2 : ¬ st.ele.any id = true ∧ st.sple.length ≤ 70
          · rw [if_pos hf2] at hsp
            cases hsp
            intro p hp
            simp at hp
            rw [hp]
            exact hspleG
          · rw [if_neg hf2] at hsp
            cases hbeam : beamLoop (st.gbe.zip st.ebe) (st.gle.zip st.ele) st.N
                mp.toNat [⟨0, 0, []⟩] with
            | error e => rw [hbeam] at hsp; cases hsp
            | ok fin =>
              rw [hbeam] at hsp
              dsimp only at hsp
              obtain ⟨hbe62, hle62, hlbe, hlle, hlebe, hlele, hN, hN1⟩ :=
                setup_frags62 norms gs pol mult st hsetup
              have hfuel : mp.toNat = (mp.toNat - 1) + 1 := by omega
              rw [hfuel] at hbeam
              have hmain := beamLoop_first GoodUnit goodRepl.2.2.1 goodRepl.2.2.2
                (st.gbe.zip st.ebe) (st.gle.zip st.ele) st.N
                (by rw [List.length_zip, hlbe, hlebe, hN]; omega)
                (by rw [List.length_zip, hlle, hlele, hN]; omega)
                (by
                  intro ge hge
                  exact ⟨hbe62 ge.1 (List.of_mem_zip hge).1,
                    hgbeG ge.1 (List.of_mem_zip hge).1⟩)
                (by
                  intro ge hge
                  exact ⟨hle62 ge.1 (List.of_mem_zip hge).1,
                    hgleG ge.1 (List.of_mem_zip hge).1⟩)
                (by omega) (mp.toNat - 1) fin hbeam
              refine assembleList_good _ _ hsp ?_
              intro p hp
              have hmem : selectBest (beamCandidates st mult fin) ∈
                  fin.map (fun s => (lossOf st.N mult s, s.pages)) ++
                    [(st.spbeErr, [st.spbe]), (st.spleErr, [st.sple])] :=
                selectBest_mem (beamCandidates st mult fin) (by
                  unfold beamCandidates
                  simp)
              rcases List.mem_append.mp hmem with h3 | h3
              · rcases List.mem_map.mp h3 with ⟨s, hsin, hsel⟩
                have hpages : (selectBest (beamCandidates st mult fin)).2 = s.pages := by
                  rw [← hsel]
                rw [hpages] at hp
                exact ((hmain s hsin).2.2 p hp).2.2
              · simp at h3
                rcases h3 with h3 | h3 <;>
                · rw [h3] at hp
                  simp at hp
                  rw [hp]
                  first
                    | exact hspbeG
                    | exact hspleG

/-- Witness for C5 at concrete arguments. -/
theorem c5_output_range_witness :
    (97 : Nat) ≤ 0xFFFF ∧ ¬ ((0xD800 : Nat) ≤ 97 ∧ (97 : Nat) < 0xE000) :=
  c5_output_range idNorms [[97]] 5 1 .replace [97] rfl 97 (by decide)

/-! ## Claim C3: totality -/

/-- A codepoint Python's strict UTF-16 encoder accepts: a Unicode scalar
value (below U+110000 and not a lone surrogate). -/
def ValidCp (c : Nat) : Prop := c < 0x110000 ∧ ¬ (0xD800 ≤ c ∧ c < 0xE000)

theorem encodeUtf16BEChar_total (c : Nat) (hv : ValidCp c) :
    ∃ bs, encodeUtf16BEChar c = some bs ∧ 2 ≤ bs.length := by
  rcases hv with ⟨h1, h2⟩
  unfold encodeUtf16BEChar
  by_cases hc1 : c < 0xD800
  · rw [if_pos hc1]
    exact ⟨_, rfl, by simp⟩
  · rw [if_neg hc1]
    have hc2 : ¬ c < 0xE000 := by
      intro hx
      exact h2 ⟨by omega, hx⟩
    rw [if_neg hc2]
    by_cases hc3 : c < 0x10000
    · rw [if_pos hc3]
      exact ⟨_, rfl, by simp⟩
    · rw [if_neg hc3]
      rw [if_pos h1]
      exact ⟨_, rfl, by simp⟩

theorem mapO_total {α β : Type} (f : α → Option β) (l : List α)
    (h : ∀ a ∈ l, ∃ b, f a = some b) : ∃ r, mapO f l = some r := by
  induction l with
  | nil => exact ⟨[], rfl⟩
  | cons x t ih =>
    rcases h x (by simp) with ⟨b, hb⟩
    rcases ih (fun a ha => h a (by simp [ha])) with ⟨r, hr⟩
    exact ⟨b :: r, by simp only [mapO]; rw [hb, hr]⟩

theorem mapE_total {α β : Type} (f : α → Except String β) (l : List α)
    (h : ∀ a ∈ l, ∃ b, f a = .ok b) : ∃ r, mapE f l = .ok r := by
  induction l with
  | nil => exact ⟨[], rfl⟩
  | cons x t ih =>
    rcases h x (by simp) with ⟨b, hb⟩
    rcases ih (fun a ha => h a (by simp [ha])) with ⟨r, hr⟩
    exact ⟨b :: r, by simp only [mapE]; rw [hb, hr]⟩

theorem encodeUtf16BE_total (s : List Nat) (hs : s ≠ [])
    (hv : ∀ c ∈ s, ValidCp c) :
    ∃ b0 b1 brest, encodeUtf16BE s = some (b0 :: b1 :: brest) := by
  cases s with
  | nil => exact absurd rfl hs
  | cons c t =>
    rcases encodeUtf16BEChar_total c (hv c (by simp)) with ⟨bs, hbs, hbs2⟩
    rcases mapO_total encodeUtf16BEChar t (fun a ha =>
      ⟨_, (encodeUtf16BEChar_total a (hv a (by simp [ha]))).choose_spec.1⟩) with ⟨r, hr⟩
    cases bs with
    | nil => simp at hbs2
    | cons b0 bs2 =>
      cases bs2 with
      | nil => simp at hbs2
      | cons b1 bs3 =>
        refine ⟨b0, b1, bs3 ++ r.flatten, ?_⟩
        unfold encodeUtf16BE
        simp only [mapO]
        rw [hbs, hr]
        simp

theorem decode_ucs2_ne (big : Bool) :
    ∀ (cands : List (List Nat)),
      (∀ b ∈ cands, ∃ b0 b1 br, b = b0 :: b1 :: br) →
      ∃ o, decode_ucs2 big cands = .ok o := by
  intro cands
  induction cands with
  | nil => exact fun _ => ⟨none, rfl⟩
  | cons b rest ih =>
    intro hb
    rcases hb b (by simp) with ⟨b0, b1, br, hbe⟩
    have hne : (if big then unpackBE b else unpackLE b).isEmpty = false := by
      subst hbe
      cases big <;> simp [unpackBE, unpackLE]
    simp only [decode_ucs2]
    rw [if_neg (by simp [hne])]
    by_cases h2 : ((if big then unpackBE b else unpackLE b).all
        fun c => !isSurrogate c) = true
    · rw [if_pos h2]
      exact ⟨_, rfl⟩
    · rw [if_neg h2]
      exact ih (fun b2 hb2 => hb b2 (by simp [hb2]))

theorem normCandidates_mem (norms : List Nat → List (List Nat))
    (chars : List Nat) :
    ∀ f ∈ normCandidates norms chars, f = chars ∨ f ∈ norms chars := by
  unfold normCandidates
  have key : ∀ (l : List (List Nat)) (acc : List (List Nat)),
      (∀ f ∈ acc, f = chars ∨ f ∈ norms chars) →
      (∀ f ∈ l, f ∈ norms chars) →
      ∀ f ∈ l.foldl (fun acc2 f =>
        if f ≠ chars ∧ ¬ acc2.contains f then acc2 ++ [f] else acc2) acc,
        f = chars ∨ f ∈ norms chars := by
    intro l
    induction l with
    | nil => intro acc hacc _ f hf; exact hacc f hf
    | cons x t ih =>
      intro acc hacc hl f hf
      rw [List.foldl_cons] at hf
      refine ih _ ?_ (fun f2 hf2 => hl f2 (by simp [hf2])) f hf
      intro f2 hf2
      by_cases hx : x ≠ chars ∧ ¬ acc.contains x
      · rw [if_pos hx] at hf2
        rcases List.mem_append.mp hf2 with h3 | h3
        · exact hacc f2 h3
        · simp at h3
          exact Or.inr (h3 ▸ hl x (by simp))
      · rw [if_neg hx] at hf2
        exact hacc f2 hf2
  exact key (norms chars) [chars] (by simp) (fun f hf => hf)

theorem masquerades_total (norms : List Nat → List (List Nat))
    (chars : List Nat) (hne : chars ≠ []) (hv : ∀ c ∈ chars, ValidCp c)
    (hn : ∀ f ∈ norms chars, f ≠ [] ∧ ∀ c ∈ f, ValidCp c) :
    ∃ r, masquerades norms chars = .ok r := by
  have hcand : ∀ f ∈ normCandidates norms chars, f ≠ [] ∧ ∀ c ∈ f, ValidCp c := by
    intro f hf
    rcases normCandidates_mem norms chars f hf with h1 | h1
    · rw [h1]
      exact ⟨hne, hv⟩
    · exact hn f h1
  have henc : ∀ f ∈ normCandidates norms chars,
      ∃ b, encodeUtf16BE f = some b ∧ ∃ b0 b1 br, b = b0 :: b1 :: br := by
    intro f hf
    rcases encodeUtf16BE_total f (hcand f hf).1 (hcand f hf).2 with ⟨b0, b1, br, hb⟩
    exact ⟨b0 :: b1 :: br, hb, b0, b1, br, rfl⟩
  rcases mapO_total encodeUtf16BE (normCandidates norms chars)
    (fun f hf => ⟨_, (henc f hf).choose_spec.1⟩) with ⟨bl, hbl⟩
  have hblshape : ∀ b ∈ sortByLen bl, ∃ b0 b1 br, b = b0 :: b1 :: br := by
    intro b hb
    rcases mapO_some_forall _ _ _ hbl b (sortByLen_mem bl b hb) with ⟨f, hf, hfb⟩
    rcases henc f hf with ⟨b2, hb2, b0, b1, br, hsh⟩
    rw [hfb] at hb2
    cases hb2
    exact ⟨b0, b1, br, hsh⟩
  rcases decode_ucs2_ne true (sortByLen bl) hblshape with ⟨obe, hobe⟩
  rcases decode_ucs2_ne false (sortByLen bl) hblshape with ⟨ole, hole⟩
  refine ⟨(capLen obe, capLen ole), ?_⟩
  unfold masquerades
  rw [hbl]
  dsimp only
  rw [hobe, hole]

theorem coerce_grapheme_total (norms : List Nat → List (List Nat))
    (chars : List Nat) (pol : Policy) (hne : chars ≠ [])
    (hv : ∀ c ∈ chars, ValidCp c)
    (hn : ∀ f ∈ norms chars, f ≠ [] ∧ ∀ c ∈ f, ValidCp c) :
    ∃ r, coerce_grapheme norms chars pol = .ok r := by
  unfold coerce_grapheme
  rw [if_neg (by simp [hne])]
  by_cases h1 : (chars.any fun c => UNSUPPORTED_CHARS.contains c) = true ∧
      pol = Policy.replace
  · rw [if_pos h1]
    exact ⟨_, rfl⟩
  · rw [if_neg h1]
    by_cases h2 : (chars.any fun c => UNSUPPORTED_CHARS.contains c) = true ∧
        pol = Policy.ignore
    · rw [if_pos h2]
      exact ⟨_, rfl⟩
    · rw [if_neg h2]
      by_cases h3 : (chars.any fun c => UNSUPPORTED_CHARS.contains c) = true ∧
          pol = Policy.error
      · rw [if_pos h3]
        exact ⟨_, rfl⟩
      · rw [if_neg h3]
        rcases masquerades_total norms chars hne hv hn with ⟨r, hr⟩
        rw [hr]
        rcases r with ⟨ebe, ele⟩
        dsimp only
        by_cases h4 : ebe = none ∧ ele = none
        · rw [if_pos h4]
          exact ⟨_, rfl⟩
        · rw [if_neg h4]
          exact ⟨_, rfl⟩

theorem decode_ucs2_some_ne (big : Bool) :
    ∀ (cands : List (List Nat)) (u : List Nat),
      decode_ucs2 big cands = .ok (some u) → u ≠ [] := by
  intro cands
  induction cands with
  | nil => intro u h; cases h
  | cons b rest ih =>
    intro u h
    simp only [decode_ucs2] at h
    by_cases h1 : (if big then unpackBE b else unpackLE b).isEmpty = true
    · rw [if_pos h1] at h
      cases h
    · rw [if_neg h1] at h
      by_cases h2 : ((if big then unpackBE b else unpackLE b).all
          fun c => !isSurrogate c) = true
      · rw [if_pos h2] at h
        cases h
        intro hx
        rw [hx] at h1
        simp at h1
      · rw [if_neg h2] at h
        exact ih u h

/-- The masquerade sides, when present, are non-empty (the inner assertion
of `decode_ucs2` guarantees it). -/
theorem masquerades_ne (norms : List Nat → List (List Nat)) (chars : List Nat)
    (be le : Option (List Nat)) (h : masquerades norms chars = .ok (be, le)) :
    (∀ u, be = some u → u ≠ []) ∧ (∀ u, le = some u → u ≠ []) := by
  unfold masquerades at h
  cases hmo : mapO encodeUtf16BE (normCandidates norms chars) with
  | none => rw [hmo] at h; cases h
  | some bl =>
    rw [hmo] at h
    dsimp only at h
    cases hd1 : decode_ucs2 true (sortByLen bl) with
    | error e1 =>
      rw [hd1] at h
      cases hd2 : decode_ucs2 false (sortByLen bl) with
      | error e2 => rw [hd2] at h; dsimp only at h; cases h
      | ok ole => rw [hd2] at h; dsimp only at h; cases h
    | ok obe =>
      rw [hd1] at h
      cases hd2 : decode_ucs2 false (sortByLen bl) with
      | error e2 => rw [hd2] at h; dsimp only at h; cases h
      | ok ole =>
        rw [hd2] at h
        dsimp only at h
        cases h
        constructor
        · intro u hu
          cases hobe : obe with
          | none => rw [hobe] at hu; cases hu
          | some v =>
            rw [hobe] at hu hd1
            unfold capLen at hu
            dsimp only at hu
            by_cases hv : v.length ≥ 63
            · rw [if_pos hv] at hu; cases hu
            · rw [if_neg hv] at hu
              cases hu
              exact decode_ucs2_some_ne true _ u hd1
        · intro u hu
          cases hole : ole with
          | none => rw [hole] at hu; cases hu
          | some v =>
            rw [hole] at hu hd2
            unfold capLen at hu
            dsimp only at hu
            by_cases hv : v.length ≥ 63
            · rw [if_pos hv] at hu; cases hu
            · rw [if_neg hv] at hu
              cases hu
              exact decode_ucs2_some_ne false _ u hd2

/-- Both substituted fragments of a coerced grapheme are non-empty, except in
the `ignore`-policy branch on an unsupported grapheme. -/
theorem coerce_grapheme_frag_ne (norms : List Nat → List (List Nat))
    (chars : List Nat) (pol : Policy) (r : Option (List Nat) × Option (List Nat))
    (h : coerce_grapheme norms chars pol = .ok r)
    (hig : pol = .ignore →
      (chars.any fun c => UNSUPPORTED_CHARS.contains c) = false) :
    r.1.getD [REPLACEMENT_CHARACTER_BE] ≠ [] ∧
    r.2.getD [REPLACEMENT_CHARACTER_LE] ≠ [] := by
  unfold coerce_grapheme at h
  by_cases he : chars.isEmpty = true
  · rw [if_pos he] at h; cases h
  · rw [if_neg he] at h
    by_cases h1 : (chars.any fun c => UNSUPPORTED_CHARS.contains c) = true ∧
        pol = Policy.replace
    · rw [if_pos h1] at h
      cases h
      exact ⟨by simp, by simp⟩
    · rw [if_neg h1] at h
      by_cases h2 : (chars.any fun c => UNSUPPORTED_CHARS.contains c) = true ∧
          pol = Policy.ignore
      · rw [hig h2.2] at h2
        cases h2.1
      · rw [if_neg h2] at h
        by_cases h3 : (chars.any fun c => UNSUPPORTED_CHARS.contains c) = true ∧
            pol = Policy.error
        · rw [if_pos h3] at h
          cases h
          exact ⟨by simp, by simp⟩
        · rw [if_neg h3] at h
          cases hm : masquerades norms chars with
          | error e2 => rw [hm] at h; cases h
          | ok mr =>
            rcases mr with ⟨ebe, ele⟩
            rw [hm] at h
            dsimp only at h
            by_cases h4 : ebe = none ∧ ele = none
            · rw [if_pos h4] at h
              cases h
              exact ⟨by simp, by simp⟩
            · rw [if_neg h4] at h
              cases h
              obtain ⟨hbne, hlne⟩ := masquerades_ne norms chars ebe ele hm
              constructor
              · cases hbe : ebe with
                | none => simp
                | some u =>
                  simp only [hbe, Option.getD_some]
                  exact hbne u hbe
              · cases hle : ele with
                | none => simp
                | some u =>
                  simp only [hle, Option.getD_some]
                  exact hlne u hle

theorem beStep_total (page : List (List Nat)) (total : Nat) (g : List Nat)
    (hg : g ≠ []) : ∃ pt, beStep page total g = .ok pt := by
  unfold beStep
  by_cases hpe : page.length = 0
  · rw [if_pos hpe]
    cases g with
    | nil => exact absurd rfl hg
    | cons c g2 =>
      dsimp only
      by_cases hb : c = BOM_LE ∨ c = BOM_BE
      · rw [if_pos hb]
        exact ⟨_, rfl⟩
      · rw [if_neg hb]
        exact ⟨_, rfl⟩
  · rw [if_neg hpe]
    exact ⟨_, rfl⟩

theorem beLoop_total :
    ∀ (rest : List (List Nat × Bool)) (idx : Nat) (errs : Int)
      (pages page : List (List Nat)) (total : Nat),
      (∀ ge ∈ rest, ge.1 ≠ ([] : List Nat)) →
      ∃ out, beLoop idx errs pages page total rest = .ok out := by
  intro rest
  induction rest with
  | nil => intro idx errs pages page total _; exact ⟨_, rfl⟩
  | cons ge r ih =>
    intro idx errs pages page total hne
    rcases ge with ⟨g, e⟩
    rcases beStep_total page total g (hne (g, e) (by simp)) with ⟨pt, hstep⟩
    simp only [beLoop]
    rw [hstep]
    dsimp only
    cases r with
    | nil => exact ⟨_, rfl⟩
    | cons ge2 r2 =>
      rcases ge2 with ⟨g2, e2b⟩
      dsimp only
      by_cases hfit : g2.length + pt.2 > 63
      · rw [if_pos hfit]
        exact ⟨_, rfl⟩
      · rw [if_neg hfit]
        rcases ih (idx + 1) (bumpErrs e errs) pages pt.1 pt.2
          (fun ge3 hge3 => hne ge3 (by simp [hge3])) with ⟨out2, hout2⟩
        rw [hout2]
        exact ⟨_, rfl⟩

theorem beamIter_total (zbe zle : List (List Nat × Bool)) (states : List SState)
    (hz : ∀ ge ∈ zbe, ge.1 ≠ ([] : List Nat)) :
    ∃ ns, beamIter zbe zle states = .ok ns := by
  have hext : ∀ s ∈ states, ∃ out, beExt zbe s = .ok out := by
    intro s _
    unfold beExt
    rcases beLoop_total (zbe.drop s.cursor) s.cursor s.errs s.pages [] 0
      (fun ge hge => hz ge (List.drop_subset _ _ hge)) with ⟨out, hout⟩
    rw [hout]
    exact ⟨_, rfl⟩
  rcases mapE_total _ states hext with ⟨bs, hbs⟩
  unfold beamIter
  rw [hbs]
  exact ⟨_, rfl⟩

theorem beamLoop_total (zbe zle : List (List Nat × Bool)) (N : Nat)
    (hz : ∀ ge ∈ zbe, ge.1 ≠ ([] : List Nat)) :
    ∀ (fuel : Nat) (states : List SState),
      ∃ ns, beamLoop zbe zle N fuel states = .ok ns := by
  intro fuel
  induction fuel with
  | zero => intro states; exact ⟨_, rfl⟩
  | succ f ih =>
    intro states
    rcases beamIter_total zbe zle states hz with ⟨ns2, hns2⟩
    simp only [beamLoop]
    rw [hns2]
    dsimp only
    by_cases hex : ns2.all (fun s => decide (N ≤ s.cursor)) = true
    · rw [if_pos hex]
      exact ⟨_, rfl⟩
    · rw [if_neg hex]
      exact ih ns2

theorem getLast?_ne {α : Type} (l : List α) (hl : l ≠ []) :
    ∃ a, l.getLast? = some a := by
  induction l with
  | nil => exact absurd rfl hl
  | cons x t ih =>
    cases t with
    | nil => exact ⟨x, rfl⟩
    | cons y t2 =>
      rcases ih (by simp) with ⟨a, ha⟩
      exact ⟨a, by rw [List.getLast?_cons_cons]; exact ha⟩

theorem assembleList_total (best : List (List Nat)) (hne : best ≠ [])
    (hp : ∀ p ∈ best.dropLast, p ≠ [] ∧ p.length ≤ 63) :
    ∃ ps, assembleList best = .ok ps := by
  rcases getLast?_ne best hne with ⟨last, hl⟩
  unfold assembleList
  rw [hl]
  dsimp only
  have hmap : ∀ p ∈ best.dropLast, ∃ out : List Nat,
      (match p with
      | [] => (.error "RuntimeError: empty best_page" : Except String (List Nat))
      | c :: _ =>
        if c = BOM_LE then right_pad_page p BOM_LE
        else right_pad_page p BOM_BE) = .ok out := by
    intro p hp2
    cases hpv : p with
    | nil => exact absurd hpv (hp p hp2).1
    | cons c p2 =>
      dsimp only
      have h63 : p.length ≤ 63 := (hp p hp2).2
      rw [hpv] at h63
      by_cases hc : c = BOM_LE
      · rw [if_pos hc]
        unfold right_pad_page
        rw [if_pos h63]
        exact ⟨_, rfl⟩
      · rw [if_neg hc]
        unfold right_pad_page
        rw [if_pos h63]
        exact ⟨_, rfl⟩
  rcases mapE_total _ best.dropLast hmap with ⟨padded, hpadded⟩
  rw [hpadded]
  exact ⟨_, rfl⟩

/-- C3 counterexample: on the empty input text (whose grapheme list is
empty) `coerce_text` raises even though `max_pages = 5 ≥ 1`, refuting "for
every input text (of any content or length) ... returns a string without
raising any exception; it fails only when max_pages < 1". -/
theorem c3_counterexample :
    coerce_text idNorms (segmentGraphemes []) 5 1 .replace =
      .error "ValueError: not enough values to unpack" ∧ ¬ ((5 : Int) < 1) :=
  ⟨rfl, by decide⟩

/-- C3 amended: `coerce_text` returns a string without raising for every
input with at least one grapheme whose codepoints are Unicode scalar values
(no lone surrogates — Python's UTF-16 encoder raises on those), whose
normalizations are non-empty scalar strings, for every `max_pages ≥ 1`,
every multiplier, and every policy — except that under policy "ignore" no
grapheme may consist of unsupported characters (an all-ignored grapheme can
trip the `IndexError` at `single_page_be[0]` or at the beam's page-head
check).  The `max_pages < 1` precondition failure happens before any
encoding work, for every input. -/
theorem c3_totality (norms : List Nat → List (List Nat)) (gs : List (List Nat))
    (mp mult : Int) (pol : Policy)
    (hgs : gs ≠ [])
    (hg : ∀ g ∈ gs, g ≠ [] ∧ ∀ c ∈ g, ValidCp c)
    (hn : ∀ g ∈ gs, ∀ f ∈ norms g, f ≠ [] ∧ ∀ c ∈ f, ValidCp c)
    (hmp : 1 ≤ mp)
    (hig : pol = .ignore → ∀ g ∈ gs,
      (g.any fun c => UNSUPPORTED_CHARS.contains c) = false) :
    (∃ out, coerce_text norms gs mp mult pol = .ok out) ∧
    ∀ mp2 : Int, mp2 < 1 → ∀ gs2 mult2 pol2,
      coerce_text norms gs2 mp2 mult2 pol2 = .error "AssertionError: max_pages" := by
  constructor
  · have hcg : ∀ g ∈ gs, ∃ r, coerce_grapheme norms g pol = .ok r := fun g hgm =>
      coerce_grapheme_total norms g pol (hg g hgm).1 (hg g hgm).2 (hn g hgm)
    rcases mapE_total _ gs hcg with ⟨coerced, hmap⟩
    have hfragne : ∀ p ∈ coerced, p.1.getD [REPLACEMENT_CHARACTER_BE] ≠ [] ∧
        p.2.getD [REPLACEMENT_CHARACTER_LE] ≠ [] := by
      intro p hp
      rcases mapE_ok_forall _ _ _ hmap p hp with ⟨g, hgm, hgp⟩
      exact coerce_grapheme_frag_ne norms g pol p hgp (fun hpol => hig hpol g hgm)
    have hclen : coerced.length = gs.length := mapE_ok_length _ _ _ hmap
    have hflatne : (fragsBE coerced).flatten ≠ [] := by
      intro hx
      have hall := List.flatten_eq_nil_iff.mp hx
      cases hcv : coerced with
      | nil =>
        rw [hcv] at hclen
        cases gs with
        | nil => exact absurd rfl hgs
        | cons a t => simp at hclen
      | cons p t =>
        have h1 := (hfragne p (by simp [hcv])).1
        have h2 : p.1.getD [REPLACEMENT_CHARACTER_BE] ∈ fragsBE coerced := by
          rw [hcv]
          unfold fragsBE
          simp
        exact h1 (hall _ h2)
    have hmk : ∃ st, mkSetup coerced gs.length mult = .ok st := by
      unfold mkSetup
      cases hflat : (fragsBE coerced).flatten with
      | nil => exact absurd hflat hflatne
      | cons c0 r0 =>
        dsimp only
        exact ⟨_, rfl⟩
    rcases hmk with ⟨st, hmkeq⟩
    have hsetup : coerceSetup norms gs pol mult = .ok st := by
      unfold coerceSetup
      rw [if_neg (by simp [hgs]), hmap]
      exact hmkeq
    unfold coerce_text selectedPages
    rw [if_neg (by omega), hsetup]
    dsimp only
    by_cases hf1 : ¬ st.ebe.any id = true ∧ st.spbe.length ≤ 70
    · rw [if_pos hf1]
      exact ⟨_, rfl⟩
    · rw [if_neg hf1]
      by_cases hf2 : ¬ st.ele.any id = true ∧ st.sple.length ≤ 70
      · rw [if_pos hf2]
        exact ⟨_, rfl⟩
      · rw [if_neg hf2]
        have hbfragne : ∀ ge ∈ st.gbe.zip st.ebe, ge.1 ≠ ([] : List Nat) := by
          intro ge hge
          have hm1 := (List.of_mem_zip hge).1
          rcases mkSetup_ok coerced gs.length mult st hmkeq with ⟨hgbe, _⟩
          rw [hgbe] at hm1
          rcases List.mem_map.mp hm1 with ⟨p, hp, hpf⟩
          rw [← hpf]
          exact (hfragne p hp).1
        rcases beamLoop_total (st.gbe.zip st.ebe) (st.gle.zip st.ele) st.N
          hbfragne mp.toNat [⟨0, 0, []⟩] with ⟨fin, hbeam⟩
        rw [hbeam]
        dsimp only
        have hfin := beam_fin_pages63 norms gs pol mult mp st fin hsetup
          (by omega) hbeam
        have hmem : selectBest (beamCandidates st mult fin) ∈
            fin.map (fun s => (lossOf st.N mult s, s.pages)) ++
              [(st.spbeErr, [st.spbe]), (st.spleErr, [st.sple])] :=
          selectBest_mem (beamCandidates st mult fin) (by
            unfold beamCandidates
            simp)
        have hbest : (selectBest (beamCandidates st mult fin)).2 ≠ [] ∧
            ∀ p ∈ (selectBest (beamCandidates st mult fin)).2.dropLast,
              p ≠ [] ∧ p.length ≤ 63 := by
          rcases List.mem_append.mp hmem with h3 | h3
          · rcases List.mem_map.mp h3 with ⟨s, hsin, hsel⟩
            have hpages : (selectBest (beamCandidates st mult fin)).2 = s.pages := by
              rw [← hsel]
            rw [hpages]
            exact ⟨(hfin s hsin).1, fun p hp =>
              (hfin s hsin).2 p (List.dropLast_subset _ hp)⟩
          · simp at h3
            rcases h3 with h3 | h3 <;>
            · rw [h3]
              exact ⟨by simp, by simp⟩
        rcases assembleList_total _ hbest.1 hbest.2 with ⟨ps, hps⟩
        rw [hps]
        exact ⟨_, rfl⟩
  · intro mp2 hmp2 gs2 mult2 pol2
    unfold coerce_text selectedPages
    rw [if_pos (by omega)]
    rfl

/-- Witness for C3 at concrete arguments. -/
theorem c3_totality_witness :
    (∃ out, coerce_text idNorms [[97]] 5 1 .replace = .ok out) ∧
    ∀ mp2 : Int, mp2 < 1 → ∀ gs2 mult2 pol2,
      coerce_text idNorms gs2 mp2 mult2 pol2 =
        .error "AssertionError: max_pages" :=
  c3_totality idNorms [[97]] 5 1 .replace (by simp)
    (by
      intro g hgm
      simp at hgm
      subst hgm
      exact ⟨by simp, by intro c hc; simp at hc; rw [hc]; exact ⟨by norm_num, by omega⟩⟩)
    (by
      intro g hgm f hf
      simp at hgm
      subst hgm
      simp [idNorms] at hf
      subst hf
      exact ⟨by simp, by intro c hc; simp at hc; rw [hc]; exact ⟨by norm_num, by omega⟩⟩)
    (by norm_num)
    (by intro hpol; cases hpol)

theorem sms_char_facts : ∀ c ∈ SMS_CHARSET,
    c ≤ 126 ∧ (UNSUPPORTED_CHARS.contains c) = false := by decide

theorem normCandidates_id (norms : List Nat → List (List Nat)) (chars : List Nat)
    (hn : norms chars = [chars, chars, chars, chars]) :
    normCandidates norms chars = [chars] := by
  unfold normCandidates
  rw [hn]
  simp

theorem encode_ascii (c : Nat) (hc : c ≤ 126) : encodeUtf16BE [c] = some [0, c] := by
  have h1 : encodeUtf16BEChar c = some [0, c] := by
    unfold encodeUtf16BEChar
    rw [if_pos (by omega), Nat.div_eq_of_lt (by omega), Nat.mod_eq_of_lt (by omega)]
  unfold encodeUtf16BE mapO
  rw [h1]
  rfl

theorem masquerades_ascii (norms : List Nat → List (List Nat)) (c : Nat)
    (hc : c ≤ 126) (hn : norms [c] = [[c], [c], [c], [c]]) :
    masquerades norms [c] = .ok (some [c], some [c * 256]) := by
  unfold masquerades
  rw [normCandidates_id norms [c] hn]
  rw [show mapO encodeUtf16BE [[c]] = some [[0, c]] from by
    unfold mapO; rw [encode_ascii c hc]; rfl]
  dsimp only
  have hube : unpackBE [0, c] = [c] := by
    unfold unpackBE unpackBE
    norm_num
  have hule : unpackLE [0, c] = [c * 256] := by
    unfold unpackLE unpackLE
    norm_num
  have hsort : sortByLen [[0, c]] = [[0, c]] := rfl
  have hnsur : isSurrogate c = false := by
    unfold isSurrogate
    simp
    omega
  have hnsur2 : isSurrogate (c * 256) = false := by
    unfold isSurrogate
    simp
    omega
  have hdbe : decode_ucs2 true [[0, c]] = .ok (some [c]) := by
    unfold decode_ucs2
    dsimp only
    rw [show (if (true = true) then unpackBE [0, c] else unpackLE [0, c]) =
      unpackBE [0, c] from rfl, hube]
    rw [if_neg (by simp)]
    rw [if_pos (by simp [hnsur])]
  have hdle : decode_ucs2 false [[0, c]] = .ok (some [c * 256]) := by
    unfold decode_ucs2
    dsimp only
    rw [show (if (false = true) then unpackBE [0, c] else unpackLE [0, c]) =
      unpackLE [0, c] from rfl, hule]
    rw [if_neg (by simp)]
    rw [if_pos (by simp [hnsur2])]
  rw [hsort, hdbe, hdle]
  dsimp only
  simp [capLen]

theorem coerce_grapheme_ascii (norms : List Nat → List (List Nat)) (c : Nat)
    (pol : Policy) (hc : c ∈ SMS_CHARSET)
    (hn : norms [c] = [[c], [c], [c], [c]]) :
    coerce_grapheme norms [c] pol = .ok (some [c], some [c * 256]) := by
  obtain ⟨h126, hns⟩ := sms_char_facts c hc
  unfold coerce_grapheme
  rw [if_neg (by simp)]
  dsimp only
  have hunsup : ([c].any fun x => UNSUPPORTED_CHARS.contains x) = false := by
    simp only [List.any_cons, List.any_nil, Bool.or_false]
    exact hns
  rw [hunsup]
  rw [if_neg (by simp), if_neg (by simp), if_neg (by simp)]
  rw [masquerades_ascii norms c h126 hn]
  dsimp only
  rw [if_neg (by simp)]

theorem mapE_ascii (norms : List Nat → List (List Nat)) (s : List Nat)
    (pol : Policy) (hc : ∀ c ∈ s, c ∈ SMS_CHARSET)
    (hn : ∀ c ∈ s, norms [c] = [[c], [c], [c], [c]]) :
    mapE (fun g => coerce_grapheme norms g pol) (s.map (fun c => [c])) =
      .ok (s.map (fun c => (some [c], some [c * 256]))) := by
  induction s with
  | nil => rfl
  | cons c t ih =>
    simp only [List.map_cons]
    unfold mapE
    rw [coerce_grapheme_ascii norms c pol (hc c (by simp))
      (hn c (by simp))]
    rw [ih (fun x hx => hc x (by simp [hx])) (fun x hx => hn x (by simp [hx]))]

theorem flatten_map_singleton {α : Type} (f : Nat → α) (s : List Nat) :
    (s.map (fun c => [f c])).flatten = s.map f := by
  induction s with
  | nil => rfl
  | cons c t ih => simp [ih]

theorem flatten_singletons (s : List Nat) :
    (s.map (fun c => [c])).flatten = s := by
  induction s with
  | nil => rfl
  | cons c t ih => simp [ih]

theorem coerceSetup_ascii (norms : List Nat → List (List Nat)) (c0 : Nat)
    (t : List Nat) (pol : Policy) (mult : Int)
    (hc : ∀ c ∈ c0 :: t, c ∈ SMS_CHARSET)
    (hn : ∀ c ∈ c0 :: t, norms [c] = [[c], [c], [c], [c]]) :
    coerceSetup norms ((c0 :: t).map (fun c => [c])) pol mult =
      .ok ⟨(c0 :: t).map (fun c => [c]),
           (c0 :: t).map (fun c => [c * 256]),
           (c0 :: t).map (fun _ => false),
           (c0 :: t).map (fun _ => false),
           c0 :: t,
           BOM_LE :: (c0 :: t).map (fun c => c * 256),
           countSingleErrs mult 0 ((c0 :: t).map (fun c => ((false : Bool), [c]))),
           countSingleErrs mult 1
             ((c0 :: t).map (fun c => ((false : Bool), [c * 256]))),
           (c0 :: t).length⟩ := by
  have h126 : c0 ≤ 126 := (sms_char_facts c0 (hc c0 (by simp))).1
  unfold coerceSetup
  rw [if_neg (by simp)]
  rw [mapE_ascii norms (c0 :: t) pol hc hn]
  dsimp only
  have hfb : fragsBE ((c0 :: t).map (fun c => (some [c], some [c * 256]))) =
      (c0 :: t).map (fun c => [c]) := by
    unfold fragsBE
    rw [List.map_map]
    rfl
  have hfl : fragsLE ((c0 :: t).map (fun c => (some [c], some [c * 256]))) =
      (c0 :: t).map (fun c => [c * 256]) := by
    unfold fragsLE
    rw [List.map_map]
    rfl
  have hgb : flagsBE ((c0 :: t).map (fun c => (some [c], some [c * 256]))) =
      (c0 :: t).map (fun _ => false) := by
    unfold flagsBE
    rw [List.map_map]
    rfl
  have hgl : flagsLE ((c0 :: t).map (fun c => (some [c], some [c * 256]))) =
      (c0 :: t).map (fun _ => false) := by
    unfold flagsLE
    rw [List.map_map]
    rfl
  have hflat : (fragsBE ((c0 :: t).map
      (fun c => (some [c], some [c * 256])))).flatten = c0 :: t := by
    rw [hfb, flatten_singletons]
  have hspbe : spbeOf ((c0 :: t).map (fun c => (some [c], some [c * 256]))) =
      c0 :: t := by
    unfold spbeOf
    rw [hflat]
    dsimp only
    rw [if_neg (by simp only [BOM_LE, BOM_BE]; omega)]
  unfold mkSetup
  rw [hflat]
  dsimp only
  rw [hfb, hfl, hgb, hgl, hspbe]
  rw [if_neg (by
    intro h
    rw [show (2 : Nat) = 1 + 1 from rfl, List.take_add] at h
    simp at h
    have := h.1
    simp only [BOM_BE] at this
    omega)]
  rw [List.zip_map', List.zip_map', List.length_map,
    flatten_map_singleton (fun c => c * 256)]

theorem csFoldAux (l : List (Bool × List Nat)) :
    ∀ (n : Nat) (e : Int), (∀ p ∈ l, p.1 = false ∧ p.2.length = 1) → n ≤ 70 →
    (l.foldl
      (fun (st : Nat × Int) (p : Bool × List Nat) =>
        if st.1 + p.2.length > 70 then (st.1, st.2 + (p.2.length : Int) * 1)
        else (st.1 + p.2.length, st.2 + (if p.1 then 1 else 0)))
      (n, e)).2 = e + max 0 ((n : Int) + l.length - 70) := by
  induction l with
  | nil =>
    intro n e _ h
    simp only [List.foldl_nil, List.length_nil]
    omega
  | cons p v ih =>
    intro n e hl h
    obtain ⟨hb, hg⟩ := hl p (by simp)
    simp only [List.foldl_cons]
    rw [hg, hb]
    by_cases h70 : n + 1 > 70
    · rw [if_pos h70]
      rw [ih n (e + (1 : Nat) * 1) (fun x hx => hl x (by simp [hx])) h]
      simp only [List.length_cons]
      have hn : n = 70 := by omega
      subst hn
      push_cast
      omega
    · rw [if_neg h70]
      rw [ih (n + 1) (e + (if false = true then 1 else 0))
        (fun x hx => hl x (by simp [hx])) (by omega)]
      simp only [List.length_cons, if_neg (by simp : ¬ (false = true))]
      push_cast
      omega

theorem countSingleErrs_singles (m0 : Nat) (l : List (Bool × List Nat))
    (hl : ∀ p ∈ l, p.1 = false ∧ p.2.length = 1) (hm : m0 ≤ 70) :
    countSingleErrs 1 m0 l = max 0 ((m0 : Int) + l.length - 70) := by
  unfold countSingleErrs
  rw [csFoldAux l m0 0 hl hm]
  omega

theorem beStep_ascii (page : List (List Nat)) (total : Nat) (c : Nat)
    (hbom : ¬(c = BOM_LE ∨ c = BOM_BE)) :
    beStep page total [c] = .ok (page ++ [[c]], total + 1) := by
  unfold beStep
  by_cases hp : page.length = 0
  · rw [if_pos hp]
    dsimp only
    rw [if_neg hbom]
    rfl
  · rw [if_neg hp]
    rfl

theorem saveState_some (i : Nat) (errs : Int) (pages pg : List (List Nat))
    (c0 : Nat) (r : List Nat) (h : pg.flatten = c0 :: r)
    (hok : ¬(c0 = BOM_BE ∨ c0 = BOM_LE) ∨ ((c0 = BOM_BE ∨ c0 = BOM_LE) ∧ r ≠ [])) :
    saveState i errs pages pg = some ⟨i, errs, pages ++ [pg.flatten]⟩ := by
  unfold saveState
  rw [h]
  dsimp only
  rcases hok with hok | ⟨hbom, hr⟩
  · rw [if_neg hok]
  · rw [if_pos hbom, if_neg (by simp [hr])]

theorem beSaves_false (i : Nat) (errs : Int) (pages pg : List (List Nat)) :
    beSaves false i errs pages pg = [] := rfl

theorem bumpErrs_false (errs : Int) : bumpErrs false errs = errs := rfl

theorem beLoop_cons_eq (idx : Nat) (errs : Int) (pages page : List (List Nat))
    (total : Nat) (g : List Nat) (e : Bool) (rest : List (List Nat × Bool)) :
    beLoop idx errs pages page total ((g, e) :: rest) =
      match beStep page total g with
      | .error e2 => .error e2
      | .ok pt =>
        match rest with
        | [] => .ok (beSaves e idx errs pages page ++
            (saveState (idx + 1) (bumpErrs e errs) pages pt.1).toList, false)
        | (g2, _) :: _ =>
          if g2.length + pt.2 > 63 then
            .ok (beSaves e idx errs pages page ++
              (saveState (idx + 1) (bumpErrs e errs) pages pt.1).toList, false)
          else
            match beLoop (idx + 1) (bumpErrs e errs) pages pt.1 pt.2 rest with
            | .error e2 => .error e2
            | .ok (ss, fl) => .ok (beSaves e idx errs pages page ++ ss, fl) := by
  simp only [beLoop]

theorem beLoop_singletons (u : List Nat) :
    u ≠ [] →
    (∀ c ∈ u, ¬(c = BOM_LE ∨ c = BOM_BE)) →
    ∀ (idx : Nat) (errs : Int) (pages page : List (List Nat)) (total : Nat),
      page.flatten.length = total →
      (page.length = 0 → total = 0) →
      (∀ c ∈ page.flatten, ¬(c = BOM_LE ∨ c = BOM_BE)) →
      total + 1 ≤ 63 →
      beLoop idx errs pages page total (u.map (fun c => ([c], false))) =
        (if total + u.length ≤ 63 then
          .ok ([⟨idx + u.length, errs, pages ++ [page.flatten ++ u]⟩], false)
        else
          .ok ([⟨idx + (63 - total), errs,
            pages ++ [page.flatten ++ u.take (63 - total)]⟩], false)) := by
  induction u with
  | nil => intro h; exact absurd rfl h
  | cons c u' ih =>
    intro _ hu idx errs pages page total hlen hpe hpf h63
    have hbc : ¬(c = BOM_LE ∨ c = BOM_BE) := hu c (by simp)
    have hflc : (page ++ [[c]]).flatten = page.flatten ++ [c] := by simp
    have hsv : saveState (idx + 1) errs pages (page ++ [[c]]) =
        some ⟨idx + 1, errs, pages ++ [(page ++ [[c]]).flatten]⟩ := by
      cases hpf2 : page.flatten with
      | nil =>
        exact saveState_some _ _ _ _ c [] (by rw [hflc, hpf2]; rfl)
          (.inl (by tauto))
      | cons c0 q =>
        exact saveState_some _ _ _ _ c0 (q ++ [c]) (by rw [hflc, hpf2]; rfl)
          (.inl (by have := hpf c0 (by rw [hpf2]; simp); tauto))
    cases u' with
    | nil =>
      rw [show List.map (fun c => ([c], (false : Bool))) [c] = [([c], false)] from
        rfl]
      rw [beLoop_cons_eq]
      rw [beStep_ascii page total c hbc]
      dsimp only
      rw [beSaves_false, bumpErrs_false, hsv]
      rw [if_pos (by simp only [List.length_cons, List.length_nil]; omega)]
      simp [hflc]
    | cons c2 u'' =>
      rw [show List.map (fun c => ([c], (false : Bool))) (c :: c2 :: u'') =
        ([c], false) :: List.map (fun c => ([c], (false : Bool))) (c2 :: u'')
        from rfl]
      rw [beLoop_cons_eq]
      rw [beStep_ascii page total c hbc]
      dsimp only
      rw [show List.map (fun c => ([c], (false : Bool))) (c2 :: u'') =
        ([c2], false) :: List.map (fun c => ([c], (false : Bool))) u'' from rfl]
      dsimp only
      by_cases h62 : total = 62
      · rw [if_pos (by simp only [List.length_cons, List.length_nil]; omega)]
        rw [beSaves_false, bumpErrs_false, hsv]
        rw [if_neg (by simp only [List.length_cons]; omega)]
        subst h62
        rw [show (63 : Nat) - 62 = 1 from rfl]
        simp [hflc]
      · have h61 : total ≤ 61 := by omega
        rw [if_neg (by simp only [List.length_cons, List.length_nil]; omega)]
        rw [bumpErrs_false]
        rw [show (([c2], (false : Bool)) ::
          List.map (fun c => ([c], (false : Bool))) u'') =
          List.map (fun c => ([c], (false : Bool))) (c2 :: u'') from rfl]
        rw [ih (by simp)
          (fun x hx => hu x (by simp [hx]))
          (idx + 1) errs pages (page ++ [[c]]) (total + 1)
          (by rw [hflc]; simp [hlen])
          (by simp)
          (by
            intro x hx
            rw [hflc] at hx
            rcases List.mem_append.mp hx with hx | hx
            · exact hpf x hx
            · rw [List.mem_singleton.mp hx]; exact hbc)
          (by omega)]
        rw [beSaves_false]
        by_cases hfit : (total + 1) + (c2 :: u'').length ≤ 63
        · rw [if_pos hfit]
          dsimp only
          rw [if_pos (by simp only [List.length_cons] at hfit ⊢; omega)]
          simp only [List.nil_append, Except.ok.injEq, Prod.mk.injEq,
            List.cons.injEq, SState.mk.injEq, and_true, true_and]
          constructor
          · simp only [List.length_cons]
            omega
          · rw [hflc]
            simp [List.append_assoc]
        · rw [if_neg hfit]
          dsimp only
          rw [if_neg (by simp only [List.length_cons] at hfit ⊢; omega)]
          simp only [List.nil_append, Except.ok.injEq, Prod.mk.injEq,
            List.cons.injEq, SState.mk.injEq, and_true, true_and]
          have h1 : 63 - (total + 1) = 62 - total := by omega
          have h2 : 63 - total = (62 - total) + 1 := by omega
          constructor
          · omega
          · rw [hflc, h1, h2, List.take_succ_cons]
            simp [List.append_assoc]

theorem leLoop_cons_eq (idx : Nat) (errs : Int) (pages page : List (List Nat))
    (total : Nat) (g : List Nat) (e : Bool) (rest : List (List Nat × Bool)) :
    leLoop idx errs pages page total ((g, e) :: rest) =
      match rest with
      | [] => (beSaves e idx errs pages page ++
          (saveState (idx + 1) (bumpErrs e errs) pages (page ++ [g])).toList,
          false)
      | (g2, _) :: _ =>
        if g2.length + (total + g.length) > 63 then
          (beSaves e idx errs pages page ++
            (saveState (idx + 1) (bumpErrs e errs) pages (page ++ [g])).toList,
            false)
        else
          (beSaves e idx errs pages page ++
            (leLoop (idx + 1) (bumpErrs e errs) pages (page ++ [g])
              (total + g.length) rest).1,
            (leLoop (idx + 1) (bumpErrs e errs) pages (page ++ [g])
              (total + g.length) rest).2) := by
  simp only [leLoop]

theorem leLoop_singletons (u : List Nat) :
    u ≠ [] →
    ∀ (idx : Nat) (errs : Int) (pages page : List (List Nat)) (total : Nat)
      (q : List Nat),
      page.flatten = BOM_LE :: q →
      page.flatten.length = total →
      total + 1 ≤ 63 →
      leLoop idx errs pages page total (u.map (fun c => ([c], false))) =
        (if total + u.length ≤ 63 then
          ([⟨idx + u.length, errs, pages ++ [page.flatten ++ u]⟩], false)
        else
          ([⟨idx + (63 - total), errs,
            pages ++ [page.flatten ++ u.take (63 - total)]⟩], false)) := by
  induction u with
  | nil => intro h; exact absurd rfl h
  | cons c u' ih =>
    intro _ idx errs pages page total q hq hlen h63
    have hflc : (page ++ [[c]]).flatten = page.flatten ++ [c] := by simp
    have hsv : saveState (idx + 1) errs pages (page ++ [[c]]) =
        some ⟨idx + 1, errs, pages ++ [(page ++ [[c]]).flatten]⟩ :=
      saveState_some _ _ _ _ BOM_LE (q ++ [c])
        (by rw [hflc, hq]; rfl)
        (.inr ⟨.inr rfl, by simp⟩)
    cases u' with
    | nil =>
      rw [show List.map (fun c => ([c], (false : Bool))) [c] = [([c], false)] from
        rfl]
      rw [leLoop_cons_eq]
      dsimp only
      rw [beSaves_false, bumpErrs_false, hsv]
      rw [if_pos (by simp only [List.length_cons, List.length_nil]; omega)]
      simp [hflc]
    | cons c2 u'' =>
      rw [show List.map (fun c => ([c], (false : Bool))) (c :: c2 :: u'') =
        ([c], false) :: List.map (fun c => ([c], (false : Bool))) (c2 :: u'')
        from rfl]
      rw [leLoop_cons_eq]
      rw [show List.map (fun c => ([c], (false : Bool))) (c2 :: u'') =
        ([c2], false) :: List.map (fun c => ([c], (false : Bool))) u'' from rfl]
      dsimp only
      by_cases h62 : total = 62
      · rw [if_pos (by simp only [List.length_cons, List.length_nil]; omega)]
        rw [beSaves_false, bumpErrs_false, hsv]
        rw [if_neg (by simp only [List.length_cons]; omega)]
        subst h62
        rw [show (63 : Nat) - 62 = 1 from rfl]
        simp [hflc]
      · have h61 : total ≤ 61 := by omega
        rw [if_neg (by simp only [List.length_cons, List.length_nil]; omega)]
        rw [bumpErrs_false]
        rw [show (([c2], (false : Bool)) ::
          List.map (fun c => ([c], (false : Bool))) u'') =
          List.map (fun c => ([c], (false : Bool))) (c2 :: u'') from rfl]
        rw [show total + ([c] : List Nat).length = total + 1 from rfl]
        rw [ih (by simp)
          (idx + 1) errs pages (page ++ [[c]]) (total + 1) (q ++ [c])
          (by rw [hflc, hq]; rfl)
          (by rw [hflc]; simp [hlen])
          (by omega)]
        rw [beSaves_false]
        by_cases hfit : (total + 1) + (c2 :: u'').length ≤ 63
        · rw [if_pos hfit]
          dsimp only
          rw [if_pos (by simp only [List.length_cons] at hfit ⊢; omega)]
          simp only [List.nil_append, Prod.mk.injEq,
            List.cons.injEq, SState.mk.injEq, and_true, true_and]
          constructor
          · simp only [List.length_cons]
            omega
          · rw [hflc]
            simp [List.append_assoc]
        · rw [if_neg hfit]
          dsimp only
          rw [if_neg (by simp only [List.length_cons] at hfit ⊢; omega)]
          simp only [List.nil_append, Prod.mk.injEq,
            List.cons.injEq, SState.mk.injEq, and_true, true_and]
          have h1 : 63 - (total + 1) = 62 - total := by omega
          have h2 : 63 - total = (62 - total) + 1 := by omega
          constructor
          · omega
          · rw [hflc, h1, h2, List.take_succ_cons]
            simp [List.append_assoc]

theorem drop_ne_nil {α : Type} (l : List α) (n : Nat) (h : n < l.length) :
    l.drop n ≠ [] := by
  intro hx
  have := congrArg List.length hx
  simp at this
  omega

theorem beExt_ascii (s : List Nat)
    (hbom : ∀ c ∈ s, ¬(c = BOM_LE ∨ c = BOM_BE))
    (cur : Nat) (errs : Int) (P : List (List Nat)) (hcur : cur < s.length) :
    beExt (s.map (fun c => ([c], false))) ⟨cur, errs, P⟩ =
      .ok [⟨min (cur + 63) s.length, errs, P ++ [(s.drop cur).take 63]⟩] := by
  unfold beExt
  dsimp only
  rw [← List.map_drop]
  rw [beLoop_singletons (s.drop cur) (drop_ne_nil s cur hcur)
    (fun c hc => hbom c (List.mem_of_mem_drop hc)) cur errs P [] 0
    rfl (fun _ => rfl) (by simp) (by omega)]
  have hdl : (s.drop cur).length = s.length - cur := by simp
  by_cases hrem : (0 : Nat) + (s.drop cur).length ≤ 63
  · rw [if_pos hrem]
    dsimp only
    simp only [Except.ok.injEq, List.cons.injEq, SState.mk.injEq, and_true,
      true_and, List.nil_append]
    constructor
    · omega
    · rw [List.take_of_length_le (by omega)]
      rfl
  · rw [if_neg hrem]
    dsimp only
    simp only [Except.ok.injEq, List.cons.injEq, SState.mk.injEq, and_true,
      true_and, List.nil_append]
    constructor
    · omega
    · rw [Nat.sub_zero]
      rfl

theorem leExt_ascii (v : List Nat) (cur : Nat) (errs : Int)
    (P : List (List Nat)) (hcur : cur < v.length) :
    leExt (v.map (fun c => ([c], false))) ⟨cur, errs, P⟩ =
      [⟨min (cur + 62) v.length, errs, P ++ [BOM_LE :: (v.drop cur).take 62]⟩] := by
  unfold leExt
  dsimp only
  rw [← List.map_drop]
  rw [leLoop_singletons (v.drop cur) (drop_ne_nil v cur hcur)
    cur errs P [[BOM_LE]] 1 [] rfl rfl (by omega)]
  have hdl : (v.drop cur).length = v.length - cur := by simp
  by_cases hrem : 1 + (v.drop cur).length ≤ 63
  · rw [if_pos hrem]
    dsimp only
    simp only [Bool.false_eq_true, if_false, List.append_nil,
      List.cons.injEq, SState.mk.injEq, and_true, true_and]
    constructor
    · omega
    · rw [List.take_of_length_le (by omega)]
      rfl
  · rw [if_neg hrem]
    dsimp only
    simp only [Bool.false_eq_true, if_false, List.append_nil,
      List.cons.injEq, SState.mk.injEq, and_true, true_and]
    constructor
    · omega
    · rw [show (63 : Nat) - 1 = 62 from rfl]
      rfl

theorem beExt_done (zbe : List (List Nat × Bool)) (st : SState)
    (h : zbe.length ≤ st.cursor) : beExt zbe st = .ok [] := by
  unfold beExt
  rw [List.drop_eq_nil_of_le h]
  rfl

theorem leExt_done (zle : List (List Nat × Bool)) (st : SState)
    (h : zle.length ≤ st.cursor) : leExt zle st = [st] := by
  unfold leExt
  rw [List.drop_eq_nil_of_le h]
  rfl

theorem beamIter_ascii (s : List Nat) (zbe zle : List (List Nat × Bool))
    (hzbe : zbe = s.map (fun c => ([c], false)))
    (hzle : zle = (s.map (fun c => c * 256)).map (fun x => ([x], false)))
    (hbom : ∀ c ∈ s, ¬(c = BOM_LE ∨ c = BOM_BE))
    (cur : Nat) (errs : Int) (P : List (List Nat)) (hcur : cur < s.length) :
    beamIter zbe zle [⟨cur, errs, P⟩] =
      .ok [⟨min (cur + 63) s.length, errs, P ++ [(s.drop cur).take 63]⟩] := by
  subst hzbe hzle
  unfold beamIter
  rw [show mapE (beExt (s.map (fun c => ([c], false)))) [⟨cur, errs, P⟩] =
    .ok [[⟨min (cur + 63) s.length, errs, P ++ [(s.drop cur).take 63]⟩]] from by
      unfold mapE
      rw [beExt_ascii s hbom cur errs P hcur]
      rfl]
  dsimp only
  rw [show ([⟨cur, errs, P⟩] : List SState).map
      (leExt ((s.map (fun c => c * 256)).map (fun x => ([x], false)))) =
      [[⟨min (cur + 62) s.length, errs,
        P ++ [BOM_LE :: ((s.map (fun c => c * 256)).drop cur).take 62]⟩]] from by
    simp only [List.map_cons, List.map_nil]
    rw [leExt_ascii (s.map (fun c => c * 256)) cur errs P
      (by simp only [List.length_map]; omega)]
    simp only [List.length_map]]
  rw [show ([[⟨min (cur + 63) s.length, errs, P ++ [(s.drop cur).take 63]⟩]] :
      List (List SState)).flatten ++
      ([[⟨min (cur + 62) s.length, errs,
        P ++ [BOM_LE :: ((s.map (fun c => c * 256)).drop cur).take 62]⟩]] :
      List (List SState)).flatten =
      [⟨min (cur + 63) s.length, errs, P ++ [(s.drop cur).take 63]⟩,
       ⟨min (cur + 62) s.length, errs,
        P ++ [BOM_LE :: ((s.map (fun c => c * 256)).drop cur).take 62]⟩] from by
    simp]
  unfold pruneFold
  simp only [List.foldl_cons, List.foldl_nil]
  rw [show updAssoc []
      (⟨min (cur + 63) s.length, errs, P ++ [(s.drop cur).take 63]⟩ : SState) =
      [(errs, ⟨min (cur + 63) s.length, errs, P ++ [(s.drop cur).take 63]⟩)]
      from by
    unfold updAssoc
    rw [if_pos (by dsimp only; omega)]]
  rw [show updAssoc
      [(errs, (⟨min (cur + 63) s.length, errs,
        P ++ [(s.drop cur).take 63]⟩ : SState))]
      (⟨min (cur + 62) s.length, errs,
        P ++ [BOM_LE :: ((s.map (fun c => c * 256)).drop cur).take 62]⟩ : SState) =
      [(errs, ⟨min (cur + 63) s.length, errs, P ++ [(s.drop cur).take 63]⟩)]
      from by
    unfold updAssoc
    rw [if_pos (by dsimp only), if_neg (by dsimp only; omega)]]
  rfl

theorem beamLoop_ascii (s : List Nat) (zbe zle : List (List Nat × Bool))
    (hzbe : zbe = s.map (fun c => ([c], false)))
    (hzle : zle = (s.map (fun c => c * 256)).map (fun x => ([x], false)))
    (hbom : ∀ c ∈ s, ¬(c = BOM_LE ∨ c = BOM_BE)) :
    ∀ (fuel : Nat) (cur : Nat) (errs : Int) (P : List (List Nat)),
      cur < s.length → s.length ≤ cur + 63 * fuel →
      P.flatten = s.take cur → (∀ p ∈ P, p.length = 63) →
      ∃ Q, beamLoop zbe zle s.length fuel [⟨cur, errs, P⟩] =
          .ok [⟨s.length, errs, Q⟩] ∧
        Q.flatten = s ∧ Q ≠ [] ∧
        (∀ p ∈ Q.dropLast, p.length = 63) ∧
        (∀ l, Q.getLast? = some l → 1 ≤ l.length ∧ l.length ≤ 63) := by
  intro fuel
  induction fuel with
  | zero =>
    intro cur errs P hcur hbound _ _
    omega
  | succ f ih =>
    intro cur errs P hcur hbound hflat hp63
    simp only [beamLoop]
    rw [beamIter_ascii s zbe zle hzbe hzle hbom cur errs P hcur]
    dsimp only
    by_cases hdone : s.length ≤ cur + 63
    · rw [if_pos (by simp; omega)]
      refine ⟨P ++ [(s.drop cur).take 63], ?_, ?_, by simp, ?_, ?_⟩
      · rw [show min (cur + 63) s.length = s.length from by omega]
      · rw [List.flatten_append]
        simp only [List.flatten_cons, List.flatten_nil, List.append_nil]
        rw [hflat]
        have h1 : (s.drop cur).take 63 = s.drop cur :=
          List.take_of_length_le (by simp only [List.length_drop]; omega)
        rw [h1, List.take_append_drop]
      · intro p hp
        rw [List.dropLast_concat] at hp
        exact hp63 p hp
      · intro l hl
        rw [List.getLast?_concat] at hl
        cases hl
        simp only [List.length_take, List.length_drop]
        omega
    · rw [if_neg (by simp; omega)]
      have hmin : min (cur + 63) s.length = cur + 63 := by omega
      rw [hmin]
      rcases ih (cur + 63) errs (P ++ [(s.drop cur).take 63])
        (by omega) (by omega)
        (by
          rw [List.flatten_append]
          simp only [List.flatten_cons, List.flatten_nil, List.append_nil]
          rw [hflat, List.take_add])
        (by
          intro p hp
          rcases List.mem_append.mp hp with hp | hp
          · exact hp63 p hp
          · rw [List.mem_singleton.mp hp]
            simp
            omega) with ⟨Q, hQ, hQf, hQn, hQ63, hQl⟩
      exact ⟨Q, hQ, hQf, hQn, hQ63, hQl⟩

theorem mapE_id_of {α : Type} (f : α → Except String α) (l : List α)
    (h : ∀ a ∈ l, f a = .ok a) : mapE f l = .ok l := by
  induction l with
  | nil => rfl
  | cons a t ih =>
    unfold mapE
    rw [h a (by simp), ih (fun x hx => h x (by simp [hx]))]

theorem right_pad_63 (p : List Nat) (ch : Nat) (h : p.length = 63) :
    right_pad_page p ch = .ok p := by
  unfold right_pad_page
  rw [if_pos (by omega), h]
  simp

theorem assembleList_id (Q : List (List Nat)) (hQn : Q ≠ [])
    (h63 : ∀ p ∈ Q.dropLast, p.length = 63) :
    assembleList Q = .ok Q := by
  unfold assembleList
  rw [List.getLast?_eq_getLast Q hQn]
  dsimp only
  rw [mapE_id_of _ Q.dropLast (by
    intro p hp
    cases hpv : p with
    | nil =>
      have := h63 p hp
      rw [hpv] at this
      simp at this
    | cons c q =>
      dsimp only
      have h1 : p.length = 63 := h63 p hp
      rw [← hpv]
      by_cases hcb : c = BOM_LE
      · rw [hpv, if_pos hcb, ← hpv, right_pad_63 p BOM_LE h1]
      · rw [hpv, if_neg hcb, ← hpv, right_pad_63 p BOM_BE h1])]
  dsimp only
  rw [List.dropLast_append_getLast hQn]

theorem lossOf_self (N : Nat) (mult errs : Int) (Q : List (List Nat)) :
    lossOf N mult ⟨N, errs, Q⟩ = errs := by
  unfold lossOf
  dsimp only
  simp

theorem selectBest_first_min (Q : List (List Nat)) (a b : Int)
    (pa pb : List Nat) (ha : 1 ≤ a) (hb : 1 ≤ b) :
    selectBest [(0, Q), (a, [pa]), (b, [pb])] = (0, Q) := by
  unfold selectBest
  simp only [List.foldl_cons, List.foldl_nil]
  have h1 : keyLt (candKey (a, [pa])) (candKey (0, Q)) = false := by
    simp only [keyLt, candKey]
    simp
    omega
  rw [h1]
  simp only [Bool.false_eq_true, if_false]
  have h2 : keyLt (candKey (b, [pb])) (candKey (0, Q)) = false := by
    simp only [keyLt, candKey]
    simp
    omega
  rw [h2]
  simp only [Bool.false_eq_true, if_false]

theorem ascii_coerce_text (norms : List Nat → List (List Nat)) (s : List Nat)
    (hs : s ≠ [])
    (hc : ∀ c ∈ s, c ∈ SMS_CHARSET)
    (hn : ∀ c ∈ s, norms [c] = [[c], [c], [c], [c]])
    (hlen : s.length ≤ 315) :
    coerce_text norms (s.map (fun c => [c])) 5 1 .replace = .ok s := by
  cases s with
  | nil => exact absurd rfl hs
  | cons c0 t =>
  unfold coerce_text selectedPages
  rw [if_neg (by norm_num)]
  rw [coerceSetup_ascii norms c0 t .replace 1 hc hn]
  dsimp only
  by_cases h70 : (c0 :: t).length ≤ 70
  · rw [if_pos ⟨by simp, h70⟩]
    simp only [Except.map, List.flatten_cons, List.flatten_nil, List.append_nil]
  · rw [if_neg (fun h => h70 h.2)]
    rw [if_neg (by
      intro h
      have := h.2
      simp only [List.length_cons, List.length_map] at this h70
      omega)]
    have hbound : (c0 :: t).length ≤ 0 + 63 * (5 : Int).toNat := by
      rw [show ((5 : Int).toNat) = 5 from rfl]
      omega
    rcases beamLoop_ascii (c0 :: t)
      (((c0 :: t).map (fun c => [c])).zip ((c0 :: t).map (fun _ => false)))
      (((c0 :: t).map (fun c => [c * 256])).zip ((c0 :: t).map (fun _ => false)))
      (by rw [List.zip_map'])
      (by rw [List.zip_map', List.map_map]; rfl)
      (fun c hcm => by
        have := (sms_char_facts c (hc c hcm)).1
        simp only [BOM_LE, BOM_BE]
        omega)
      (5 : Int).toNat 0 0 [] (by simp) hbound rfl (by simp)
      with ⟨Q, hQ, hQf, hQn, hQ63, hQl⟩
    rw [hQ]
    dsimp only
    unfold beamCandidates
    dsimp only
    generalize hA : countSingleErrs 1 0
      ((c0 :: t).map (fun c => ((false : Bool), [c]))) = A
    generalize hB : countSingleErrs 1 1
      ((c0 :: t).map (fun c => ((false : Bool), [c * 256]))) = B
    have hA1 : 1 ≤ A := by
      rw [← hA, countSingleErrs_singles 0 _
        (by
          intro p hp
          rcases List.mem_map.mp hp with ⟨x, _, hx⟩
          rw [← hx]
          exact ⟨rfl, rfl⟩)
        (by omega)]
      simp only [List.length_map, List.length_cons]
      simp only [List.length_cons] at h70
      omega
    have hB1 : 1 ≤ B := by
      rw [← hB, countSingleErrs_singles 1 _
        (by
          intro p hp
          rcases List.mem_map.mp hp with ⟨x, _, hx⟩
          rw [← hx]
          exact ⟨rfl, rfl⟩)
        (by omega)]
      simp only [List.length_map, List.length_cons]
      simp only [List.length_cons] at h70
      omega
    simp only [List.map_cons, List.map_nil, List.cons_append, List.nil_append]
    rw [lossOf_self]
    rw [selectBest_first_min Q A B _ _ hA1 hB1]
    rw [assembleList_id Q hQn hQ63]
    simp [Except.map, hQf]

theorem segmentGraphemes_singletons : ∀ (s : List Nat), hasCRLF s = false →
    segmentGraphemes s = s.map (fun c => [c]) := by
  intro s
  induction s using segmentGraphemes.induct with
  | case1 => intro _; rfl
  | case2 rest ih =>
    intro h
    rw [show hasCRLF (13 :: 10 :: rest) = true from rfl] at h
    cases h
  | case3 c rest hne ih =>
    intro h
    have hseg : segmentGraphemes (c :: rest) = [c] :: segmentGraphemes rest := by
      rw [segmentGraphemes.eq_def]
      split
      · rename_i heq
        exact absurd heq (by simp)
      · rename_i r2 heq
        injection heq with h1 h2
        exact (hne r2 h1 h2).elim
      · rename_i c3 r3 hx heq
        injection heq with h1 h2
        rw [h1, h2]
    have hcr : hasCRLF (c :: rest) = hasCRLF rest := by
      rw [hasCRLF.eq_def]
      split
      · rename_i r2 heq
        injection heq with h1 h2
        exact (hne r2 h1 h2).elim
      · rename_i c3 r3 hx heq
        injection heq with h1 h2
        rw [h2]
      · rename_i heq
        exact absurd heq (by simp)
    rw [hcr] at h
    rw [hseg, ih h]
    rfl

set_option maxRecDepth 40000 in
/-- C4 counterexample: the 72-character text CRLF×36 consists solely of
SMS_CHARSET codepoints, yet `coerce_text` does not return it unchanged: CR-LF
is a single grapheme cluster, so the 63-unit page boundary cannot fall between
the 31st CR-LF pair's units, the first page is flushed at 62 units and padded
with a BOM (U+FEFF) that survives into the concatenated output. -/
theorem c4_counterexample :
    (∀ c ∈ List.flatten (List.replicate 36 [13, 10]), c ∈ SMS_CHARSET) ∧
    coerce_text idNorms
      (segmentGraphemes (List.flatten (List.replicate 36 [13, 10])))
      5 1 .replace =
      .ok ((List.replicate 31 [13, 10]).flatten ++
        65279 :: (List.replicate 5 [13, 10]).flatten) ∧
    (List.replicate 31 [13, 10]).flatten ++
        65279 :: (List.replicate 5 [13, 10]).flatten ≠
      List.flatten (List.replicate 36 [13, 10]) :=
  ⟨by decide, by rfl, by decide⟩

/-- C4 amended: for a non-empty text of at most 315 characters drawn from
SMS_CHARSET, with no CR immediately followed by LF (so every character is its
own grapheme cluster) and normalization acting as the identity on its
characters, `coerce_text` with the default parameters is the identity.  The
length bound is what the page budget forces (5 pages × 63 units); the CR-LF
and non-emptiness exclusions are forced by `c4_counterexample` and
`c3_counterexample` respectively. -/
theorem c4_ascii_fixed_point (norms : List Nat → List (List Nat))
    (s : List Nat) (hs : s ≠ [])
    (hcrlf : hasCRLF s = false)
    (hc : ∀ c ∈ s, c ∈ SMS_CHARSET)
    (hn : ∀ c ∈ s, norms [c] = [[c], [c], [c], [c]])
    (hlen : s.length ≤ 315) :
    coerce_text norms (segmentGraphemes s) 5 1 .replace = .ok s := by
  rw [segmentGraphemes_singletons s hcrlf]
  exact ascii_coerce_text norms s hs hc hn hlen

/-- Witness for C4 at a concrete input. -/
theorem c4_ascii_fixed_point_witness :
    hasCRLF [104, 105] = false ∧
    coerce_text idNorms (segmentGraphemes [104, 105]) 5 1 .replace =
      .ok [104, 105] :=
  ⟨rfl, c4_ascii_fixed_point idNorms [104, 105] (by decide) rfl (by decide)
    (fun c _ => rfl) (by decide)⟩

theorem sms_char_pos : ∀ c ∈ SMS_CHARSET, 0 < c := by decide

theorem utf16DecodeBE_inv (p : List Nat)
    (hp : ∀ c ∈ p, ¬(0xD800 ≤ c ∧ c < 0xE000)) :
    utf16DecodeBE ((p.map (fun c => [c / 256, c % 256])).flatten) = .ok p := by
  induction p with
  | nil => rfl
  | cons c q ih =>
    have hc : ¬(0xD800 ≤ c ∧ c < 0xE000) := hp c (by simp)
    simp only [List.map_cons, List.flatten_cons, List.cons_append,
      List.nil_append]
    rw [utf16DecodeBE.eq_def]
    split
    · rename_i heq
      cases heq
    · rename_i heq
      injection heq with _ rest1
      exact (List.cons_ne_nil _ _ rest1).elim
    · rename_i b0 b1 rest heq
      injection heq with e0 rest1
      injection rest1 with e1 erest
      dsimp only
      rw [← e0, ← e1]
      have hu : c / 256 * 256 + c % 256 = c := by omega
      rw [hu]
      rw [if_neg (by omega), if_neg (by omega)]
      rw [← erest, ih (fun x hx => hp x (by simp [hx]))]

theorem rstripBOM_id (l : List Nat) (h : ∀ c ∈ l, c ≠ BOM_BE) :
    rstripBOM l = l := by
  unfold rstripBOM
  cases hrev : l.reverse with
  | nil =>
    simp only [List.dropWhile_nil]
    rw [← hrev, List.reverse_reverse]
  | cons x xs =>
    have hx : x ∈ l := by
      rw [← List.mem_reverse, hrev]
      simp
    rw [List.dropWhile_cons_of_neg (by simp [h x hx])]
    rw [← hrev, List.reverse_reverse]

theorem phone_render_chunks (ps : List (List Nat))
    (h : ∀ p ∈ ps, ∀ c ∈ p, 0 < c ∧ c ≤ 126) :
    mobile_phone_render true
      (ps.map (fun p => (p.map (fun c => [c / 256, c % 256])).flatten)) =
      .ok ps.flatten := by
  have hdec : mapE (fun p =>
      if p.take 2 = [0xFE, 0xFF] then utf16DecodeBE (p.drop 2)
      else if p.take 2 = [0xFF, 0xFE] then utf16DecodeLE (p.drop 2)
      else utf16DecodeBE p)
      (ps.map (fun p => (p.map (fun c => [c / 256, c % 256])).flatten)) =
      .ok ps := by
    induction ps with
    | nil => rfl
    | cons p ps' ih =>
      simp only [List.map_cons]
      unfold mapE
      have hone : (if ((p.map (fun c => [c / 256, c % 256])).flatten).take 2 =
            [0xFE, 0xFF] then
            utf16DecodeBE (((p.map (fun c => [c / 256, c % 256])).flatten).drop 2)
          else if ((p.map (fun c => [c / 256, c % 256])).flatten).take 2 =
            [0xFF, 0xFE] then
            utf16DecodeLE (((p.map (fun c => [c / 256, c % 256])).flatten).drop 2)
          else utf16DecodeBE ((p.map (fun c => [c / 256, c % 256])).flatten)) =
          .ok p := by
        have hne : ∀ m2 : Nat, 0xFE ≤ m2 →
            ((p.map (fun c => [c / 256, c % 256])).flatten).take 2 ≠
              [m2, m2 + 1] ∧
            ((p.map (fun c => [c / 256, c % 256])).flatten).take 2 ≠
              [m2 + 1, m2] := by
          intro m2 hm2
          cases p with
          | nil => exact ⟨by simp, by simp⟩
          | cons c0 q =>
            have hc0 : 0 < c0 ∧ c0 ≤ 126 := h (c0 :: q) (by simp) c0 (by simp)
            simp only [List.map_cons, List.flatten_cons, List.cons_append,
              List.nil_append]
            rw [show ((c0 / 256 :: c0 % 256 ::
              (q.map (fun c => [c / 256, c % 256])).flatten).take 2) =
              [c0 / 256, c0 % 256] from rfl]
            rw [Nat.div_eq_of_lt (by omega), Nat.mod_eq_of_lt (by omega)]
            constructor
            · intro hx
              injection hx with h1 _
              omega
            · intro hx
              injection hx with h1 _
              omega
        rw [if_neg (by
          have := (hne 0xFE (by norm_num)).1
          simpa using this)]
        rw [if_neg (by
          have := (hne 0xFE (by norm_num)).2
          simpa using this)]
        exact utf16DecodeBE_inv p (fun c hcm => by
          have := h p (by simp) c hcm
          omega)
      rw [hone, ih (fun p2 hp2 => h p2 (by simp [hp2]))]
  unfold mobile_phone_render
  rw [hdec]
  dsimp only
  rw [if_pos rfl]
  rw [List.map_congr_left (fun p hp => rstripBOM_id p (fun c hcm => by
    have := h p hp c hcm
    simp only [BOM_BE]
    omega))]
  simp

theorem gwSplit_props : ∀ (fuel : Nat) (u : List Nat), u.length ≤ fuel →
    (gwSplit fuel u).flatten = u ∧
    ∀ p ∈ gwSplit fuel u, ∀ c ∈ p, c ∈ u := by
  intro fuel
  induction fuel with
  | zero =>
    intro u hu
    have : u = [] := by
      cases u with
      | nil => rfl
      | cons a t => simp at hu
    rw [this]
    exact ⟨rfl, by simp [gwSplit]⟩
  | succ f ih =>
    intro u hu
    cases u with
    | nil => exact ⟨rfl, by simp [gwSplit]⟩
    | cons c rest =>
      have hstep : ∀ k : Nat, 1 ≤ k →
          ((c :: rest).take k :: gwSplit f ((c :: rest).drop k)).flatten =
            c :: rest ∧
          ∀ p ∈ (c :: rest).take k :: gwSplit f ((c :: rest).drop k),
            ∀ x ∈ p, x ∈ c :: rest := by
        intro k hk
        have hrec := ih ((c :: rest).drop k) (by
          simp only [List.length_drop, List.length_cons]
          simp only [List.length_cons] at hu
          omega)
        constructor
        · simp only [List.flatten_cons]
          rw [hrec.1, List.take_append_drop]
        · intro p hp x hx
          rcases List.mem_cons.mp hp with hp | hp
          · exact List.take_subset k (c :: rest) (by rw [← hp]; exact hx)
          · exact List.drop_subset k (c :: rest) (hrec.2 p hp x hx)
      rw [show gwSplit (f + 1) (c :: rest) =
        if c = BOM_BE ∨ c = BOM_LE then
          (c :: rest).take 67 :: gwSplit f ((c :: rest).drop 67)
        else
          (c :: rest).take 63 :: gwSplit f ((c :: rest).drop 63) from by
        rw [gwSplit.eq_def]]
      by_cases hb : c = BOM_BE ∨ c = BOM_LE
      · rw [if_pos hb]
        exact hstep 67 (by norm_num)
      · rw [if_neg hb]
        exact hstep 63 (by norm_num)

theorem lossOf_mono_arith (N : Nat) (mult : Int) (hm : 1 ≤ mult) (s t : SState)
    (he : t.errs ≤ s.errs + ((t.cursor : Int) - (s.cursor : Int)))
    (hc : s.cursor ≤ t.cursor) (hcN : t.cursor ≤ N) :
    lossOf N mult t ≤ lossOf N mult s := by
  unfold lossOf
  have h1 : max (0 : Int) ((N : Int) - (t.cursor : Int)) =
      (N : Int) - (t.cursor : Int) := by
    rw [max_eq_right]
    have : (t.cursor : Int) ≤ (N : Int) := by exact_mod_cast hcN
    omega
  have h2 : max (0 : Int) ((N : Int) - (s.cursor : Int)) =
      (N : Int) - (s.cursor : Int) := by
    rw [max_eq_right]
    have h3 : (s.cursor : Int) ≤ (t.cursor : Int) := by exact_mod_cast hc
    have : (t.cursor : Int) ≤ (N : Int) := by exact_mod_cast hcN
    omega
  rw [h1, h2]
  have h4 : (0 : Int) ≤ (t.cursor : Int) - (s.cursor : Int) := by
    have : (s.cursor : Int) ≤ (t.cursor : Int) := by exact_mod_cast hc
    omega
  nlinarith [mul_le_mul_of_nonneg_left hm h4]

theorem lossOf_mono_cursor (N : Nat) (mult : Int) (hm : 0 ≤ mult) (s t : SState)
    (he : t.errs = s.errs) (hc : s.cursor ≤ t.cursor) :
    lossOf N mult t ≤ lossOf N mult s := by
  unfold lossOf
  rw [he]
  have h1 : max (0 : Int) ((N : Int) - (t.cursor : Int)) ≤
      max (0 : Int) ((N : Int) - (s.cursor : Int)) := by
    have : (s.cursor : Int) ≤ (t.cursor : Int) := by exact_mod_cast hc
    omega
  nlinarith [mul_le_mul_of_nonneg_right h1 hm]

theorem selectBest_le (l : List (Int × List (List Nat)))
    (x : Int × List (List Nat)) (hx : x ∈ l) : (selectBest l).1 ≤ x.1 := by
  have key : ∀ (t : List (Int × List (List Nat))) (b : Int × List (List Nat)),
      ((t.foldl (fun best y => if keyLt (candKey y) (candKey best) then y
        else best) b).1 ≤ b.1) ∧
      ∀ z ∈ t, (t.foldl (fun best y => if keyLt (candKey y) (candKey best)
        then y else best) b).1 ≤ z.1 := by
    intro t
    induction t with
    | nil => exact fun b => ⟨le_refl _, by simp⟩
    | cons y t' ih =>
      intro b
      simp only [List.foldl_cons]
      have hstep : (if keyLt (candKey y) (candKey b) then y else b).1 ≤ b.1 ∧
          (if keyLt (candKey y) (candKey b) then y else b).1 ≤ y.1 := by
        by_cases hk : keyLt (candKey y) (candKey b) = true
        · rw [if_pos hk]
          unfold keyLt candKey at hk
          simp at hk
          constructor
          · rcases hk with hk | hk
            · omega
            · omega
          · exact le_refl _
        · rw [if_neg hk]
          unfold keyLt candKey at hk
          simp at hk
          exact ⟨le_refl _, by omega⟩
      refine ⟨le_trans (ih _).1 hstep.1, ?_⟩
      intro z hz
      rcases List.mem_cons.mp hz with hz | hz
      · rw [hz]
        exact le_trans (ih _).1 hstep.2
      · exact (ih _).2 z hz
  cases l with
  | nil => cases hx
  | cons y t =>
    unfold selectBest
    dsimp only
    rcases List.mem_cons.mp hx with hx | hx
    · rw [hx]
      exact (key t y).1
    · exact (key t y).2 x hx

theorem updAssoc_keys (A : List (Int × SState)) (s : SState)
    (h : ∀ kv ∈ A, kv.2.errs = kv.1) :
    ∀ kv ∈ updAssoc A s, kv.2.errs = kv.1 := by
  induction A with
  | nil =>
    intro kv hkv
    unfold updAssoc at hkv
    by_cases hc : 0 < s.cursor
    · rw [if_pos hc] at hkv
      rw [List.mem_singleton.mp hkv]
    · rw [if_neg hc] at hkv
      cases hkv
  | cons kt rest ih =>
    intro kv hkv
    rcases kt with ⟨k, t⟩
    unfold updAssoc at hkv
    by_cases hk : k = s.errs
    · rw [if_pos hk] at hkv
      by_cases hcur : t.cursor < s.cursor
      · rw [if_pos hcur] at hkv
        rcases List.mem_cons.mp hkv with hkv | hkv
        · rw [hkv, ← hk]
        · exact h kv (by simp [hkv])
      · rw [if_neg hcur] at hkv
        exact h kv hkv
    · rw [if_neg hk] at hkv
      rcases List.mem_cons.mp hkv with hkv | hkv
      · rw [hkv]
        exact h (k, t) (by simp)
      · exact ih (fun kv2 hkv2 => h kv2 (by simp [hkv2])) kv hkv

theorem updAssoc_preserve (A : List (Int × SState)) (s : SState)
    (kv : Int × SState) (hkv : kv ∈ A) :
    ∃ kv2 ∈ updAssoc A s, kv2.1 = kv.1 ∧ kv.2.cursor ≤ kv2.2.cursor := by
  induction A with
  | nil => cases hkv
  | cons kt rest ih =>
    rcases kt with ⟨k, t⟩
    unfold updAssoc
    by_cases hk : k = s.errs
    · rw [if_pos hk]
      by_cases hcur : t.cursor < s.cursor
      · rw [if_pos hcur]
        rcases List.mem_cons.mp hkv with hkv | hkv
        · exact ⟨(k, s), by simp, by rw [hkv], by rw [hkv]; dsimp only; omega⟩
        · exact ⟨kv, by simp [hkv], rfl, le_refl _⟩
      · rw [if_neg hcur]
        exact ⟨kv, hkv, rfl, le_refl _⟩
    · rw [if_neg hk]
      rcases List.mem_cons.mp hkv with hkv | hkv
      · exact ⟨(k, t), by simp, by rw [hkv], by rw [hkv]⟩
      · rcases ih hkv with ⟨kv2, h1, h2, h3⟩
        exact ⟨kv2, by simp [h1], h2, h3⟩

theorem updAssoc_covers (A : List (Int × SState)) (s : SState)
    (hs : 1 ≤ s.cursor) :
    ∃ kv2 ∈ updAssoc A s, kv2.1 = s.errs ∧ s.cursor ≤ kv2.2.cursor := by
  induction A with
  | nil =>
    unfold updAssoc
    rw [if_pos (by omega)]
    exact ⟨(s.errs, s), by simp, rfl, le_refl _⟩
  | cons kt rest ih =>
    rcases kt with ⟨k, t⟩
    unfold updAssoc
    by_cases hk : k = s.errs
    · rw [if_pos hk]
      by_cases hcur : t.cursor < s.cursor
      · rw [if_pos hcur]
        exact ⟨(k, s), by simp, hk, le_refl _⟩
      · rw [if_neg hcur]
        exact ⟨(k, t), by simp, hk, by dsimp only; omega⟩
    · rw [if_neg hk]
      rcases ih with ⟨kv2, h1, h2, h3⟩
      exact ⟨kv2, by simp [h1], h2, h3⟩

theorem pruneFold_aux (l : List SState) :
    ∀ (A : List (Int × SState)), (∀ kv ∈ A, kv.2.errs = kv.1) →
    ((∀ kv ∈ l.foldl updAssoc A, kv.2.errs = kv.1) ∧
     (∀ kv ∈ A, ∃ kv2 ∈ l.foldl updAssoc A,
        kv2.1 = kv.1 ∧ kv.2.cursor ≤ kv2.2.cursor) ∧
     (∀ x ∈ l, 1 ≤ x.cursor → ∃ kv2 ∈ l.foldl updAssoc A,
        kv2.1 = x.errs ∧ x.cursor ≤ kv2.2.cursor)) := by
  induction l with
  | nil =>
    intro A hA
    exact ⟨hA, fun kv hkv => ⟨kv, hkv, rfl, le_refl _⟩, by simp⟩
  | cons x l' ih =>
    intro A hA
    simp only [List.foldl_cons]
    have hA' := updAssoc_keys A x hA
    obtain ⟨p1, p2, p3⟩ := ih (updAssoc A x) hA'
    refine ⟨p1, ?_, ?_⟩
    · intro kv hkv
      rcases updAssoc_preserve A x kv hkv with ⟨kv2, h1, h2, h3⟩
      rcases p2 kv2 h1 with ⟨kv3, h4, h5, h6⟩
      exact ⟨kv3, h4, by rw [h5, h2], le_trans h3 h6⟩
    · intro y hy hyc
      rcases List.mem_cons.mp hy with hy | hy
      · rcases updAssoc_covers A x (by rw [← hy]; exact hyc) with ⟨kv2, h1, h2, h3⟩
        rcases p2 kv2 h1 with ⟨kv3, h4, h5, h6⟩
        exact ⟨kv3, h4, by rw [h5, h2, hy], by rw [hy]; exact le_trans h3 h6⟩
      · exact p3 y hy hyc

theorem pruneFold_covers (l : List SState) (t0 : SState) (h0 : t0 ∈ l)
    (hc : 1 ≤ t0.cursor) :
    ∃ t ∈ pruneFold l, t.errs = t0.errs ∧ t0.cursor ≤ t.cursor := by
  obtain ⟨p1, _, p3⟩ := pruneFold_aux l [] (by simp)
  rcases p3 t0 h0 hc with ⟨kv2, h1, h2, h3⟩
  refine ⟨kv2.2, ?_, ?_, h3⟩
  · unfold pruneFold
    exact List.mem_map.mpr ⟨kv2, h1, rfl⟩
  · rw [p1 kv2 h1, h2]

theorem bumpErrs_le (e : Bool) (errs : Int) : bumpErrs e errs ≤ errs + 1 := by
  unfold bumpErrs
  split <;> omega

theorem bumpErrs_ge (e : Bool) (errs : Int) : errs ≤ bumpErrs e errs := by
  unfold bumpErrs
  split <;> omega

theorem leLoop_save_exists :
    ∀ (rest : List (List Nat × Bool)), rest ≠ [] →
      (∀ ge ∈ rest, ge.1 ≠ ([] : List Nat)) →
    ∀ (idx : Nat) (errs : Int) (pages page : List (List Nat)) (total : Nat)
      (q : List Nat), page.flatten = BOM_LE :: q →
      ∃ t ∈ (leLoop idx errs pages page total rest).1,
        idx + 1 ≤ t.cursor ∧ t.cursor ≤ idx + rest.length ∧
        t.errs ≤ errs + ((t.cursor : Int) - (idx : Int)) := by
  intro rest
  induction rest with
  | nil => intro h; exact absurd rfl h
  | cons ge rest' ih =>
    intro _ hne idx errs pages page total q hq
    rcases ge with ⟨g, e⟩
    have hg : g ≠ [] := hne (g, e) (by simp)
    have hsv : saveState (idx + 1) (bumpErrs e errs) pages (page ++ [g]) =
        some ⟨idx + 1, bumpErrs e errs, pages ++ [(page ++ [g]).flatten]⟩ := by
      apply saveState_some _ _ _ _ BOM_LE (q ++ g)
      · rw [List.flatten_append, hq]
        simp
      · exact .inr ⟨.inr rfl, by simp [hg]⟩
    have herr := bumpErrs_le e errs
    rw [leLoop_cons_eq]
    cases rest' with
    | nil =>
      dsimp only
      rw [hsv]
      refine ⟨⟨idx + 1, bumpErrs e errs, pages ++ [(page ++ [g]).flatten]⟩,
        ?_, ?_, ?_, ?_⟩
      · exact List.mem_append_right _ (by simp)
      · exact le_refl _
      · simp
      · dsimp only
        push_cast
        omega
    | cons ge2 rest2 =>
      rcases ge2 with ⟨g2, e2⟩
      dsimp only
      by_cases hfit : g2.length + (total + g.length) > 63
      · rw [if_pos hfit]
        dsimp only
        rw [hsv]
        refine ⟨⟨idx + 1, bumpErrs e errs, pages ++ [(page ++ [g]).flatten]⟩,
          ?_, ?_, ?_, ?_⟩
        · exact List.mem_append_right _ (by simp)
        · exact le_refl _
        · simp
        · dsimp only
          push_cast
          omega
      · rw [if_neg hfit]
        dsimp only
        rcases ih (by simp) (fun x hx => hne x (by simp [hx]))
          (idx + 1) (bumpErrs e errs) pages (page ++ [g]) (total + g.length)
          (q ++ g) (by rw [List.flatten_append, hq]; simp)
          with ⟨t, hmem, h1, h2, h3⟩
        refine ⟨t, List.mem_append_right _ hmem, by omega, ?_, ?_⟩
        · simp only [List.length_cons] at h2 ⊢
          omega
        · push_cast at h3 ⊢
          omega

theorem beamIter_progress (zbe zle : List (List Nat × Bool)) (N : Nat)
    (hlen : zle.length = N) (hN : 1 ≤ N)
    (hfle : ∀ ge ∈ zle, ge.1 ≠ ([] : List Nat))
    (mult : Int) (hmult : 1 ≤ mult)
    (states ns : List SState)
    (hiter : beamIter zbe zle states = .ok ns) :
    ∀ s ∈ states, ∃ t ∈ ns, lossOf N mult t ≤ lossOf N mult s := by
  intro s hs
  unfold beamIter at hiter
  cases hbs : mapE (beExt zbe) states with
  | error e => rw [hbs] at hiter; cases hiter
  | ok bs =>
    rw [hbs] at hiter
    dsimp only at hiter
    cases hiter
    by_cases hcur : s.cursor < zle.length
    · rcases leLoop_save_exists (zle.drop s.cursor) (drop_ne_nil _ _ hcur)
        (fun ge hge => hfle ge (List.drop_subset _ _ hge))
        s.cursor s.errs s.pages [[BOM_LE]] 1 [] rfl
        with ⟨t0, hmem0, h1, h2, h3⟩
      have hmemle : t0 ∈ leExt zle s := by
        unfold leExt
        exact List.mem_append_left _ hmem0
      have hbig : t0 ∈ bs.flatten ++ (states.map (leExt zle)).flatten :=
        List.mem_append_right _ (List.mem_flatten.mpr
          ⟨leExt zle s, List.mem_map_of_mem _ hs, hmemle⟩)
      rcases pruneFold_covers _ t0 hbig (by omega) with ⟨t, htm, hte, htc⟩
      refine ⟨t, htm, le_trans
        (lossOf_mono_cursor N mult (by omega) t0 t hte htc) ?_⟩
      apply lossOf_mono_arith N mult hmult s t0
      · push_cast at h3 ⊢
        omega
      · omega
      · rw [List.length_drop, hlen] at h2
        omega
    · have hmemle : s ∈ leExt zle s := by
        unfold leExt
        rw [show leLoop s.cursor s.errs s.pages [[BOM_LE]] 1
          (zle.drop s.cursor) = ([], true) from by
          rw [List.drop_eq_nil_of_le (by omega)]
          rfl]
        simp
      have hbig : s ∈ bs.flatten ++ (states.map (leExt zle)).flatten :=
        List.mem_append_right _ (List.mem_flatten.mpr
          ⟨leExt zle s, List.mem_map_of_mem _ hs, hmemle⟩)
      rcases pruneFold_covers _ s hbig (by omega) with ⟨t, htm, hte, htc⟩
      exact ⟨t, htm, lossOf_mono_cursor N mult (by omega) s t hte htc⟩

theorem beamLoop_dominates (zbe zle : List (List Nat × Bool)) (N : Nat)
    (hlen : zle.length = N) (hN : 1 ≤ N)
    (hfle : ∀ ge ∈ zle, ge.1 ≠ ([] : List Nat))
    (mult : Int) (hmult : 1 ≤ mult) :
    ∀ (fuel : Nat) (states fin : List SState),
      beamLoop zbe zle N fuel states = .ok fin →
      ∀ s ∈ states, ∃ t ∈ fin, lossOf N mult t ≤ lossOf N mult s := by
  intro fuel
  induction fuel with
  | zero =>
    intro states fin h s hs
    simp only [beamLoop] at h
    cases h
    exact ⟨s, hs, le_refl _⟩
  | succ f ih =>
    intro states fin h s hs
    simp only [beamLoop] at h
    cases hit : beamIter zbe zle states with
    | error e => rw [hit] at h; cases h
    | ok ns =>
      rw [hit] at h
      dsimp only at h
      rcases beamIter_progress zbe zle N hlen hN hfle mult hmult states ns hit
        s hs with ⟨u, hu, hul⟩
      by_cases hall : ns.all (fun s => decide (N ≤ s.cursor)) = true
      · rw [if_pos hall] at h
        cases h
        exact ⟨u, hu, hul⟩
      · rw [if_neg hall] at h
        rcases ih ns fin h u hu with ⟨t, ht, htl⟩
        exact ⟨t, ht, le_trans htl hul⟩

theorem beamLoop_fuel_mono (zbe zle : List (List Nat × Bool)) (N : Nat)
    (hlen : zle.length = N) (hN : 1 ≤ N)
    (hfle : ∀ ge ∈ zle, ge.1 ≠ ([] : List Nat))
    (mult : Int) (hmult : 1 ≤ mult) :
    ∀ (f1 f2 : Nat), f1 ≤ f2 → ∀ (states fin1 fin2 : List SState),
      beamLoop zbe zle N f1 states = .ok fin1 →
      beamLoop zbe zle N f2 states = .ok fin2 →
      ∀ s ∈ fin1, ∃ t ∈ fin2, lossOf N mult t ≤ lossOf N mult s := by
  intro f1
  induction f1 with
  | zero =>
    intro f2 _ states fin1 fin2 h1 h2 s hs
    simp only [beamLoop] at h1
    cases h1
    exact beamLoop_dominates zbe zle N hlen hN hfle mult hmult f2 states fin2
      h2 s hs
  | succ g ih =>
    intro f2 h12 states fin1 fin2 h1 h2 s hs
    cases f2 with
    | zero => omega
    | succ h2f =>
      simp only [beamLoop] at h1 h2
      cases hit : beamIter zbe zle states with
      | error e => rw [hit] at h1; cases h1
      | ok ns =>
        rw [hit] at h1 h2
        dsimp only at h1 h2
        by_cases hall : ns.all (fun s => decide (N ≤ s.cursor)) = true
        · rw [if_pos hall] at h1 h2
          cases h1
          cases h2
          exact ⟨s, hs, le_refl _⟩
        · rw [if_neg hall] at h1 h2
          exact ih h2f (by omega) ns fin1 fin2 h1 h2 s hs

/-- C8 counterexample: with multiplier 0 (an allowed value of
`truncated_text_error_multiplier`, over which the claim quantifies) the text
"a\x00" under policy "error" has selected loss 0 at `max_pages = 1` but loss 1
at `max_pages = 2`: with a larger budget the beam finishes the text, paying
the unsupported-NUL error unit that truncation hid for free when the
multiplier was 0. -/
theorem c8_counterexample :
    selectionLoss idNorms (segmentGraphemes [97, 0]) 1 0 .error = .ok 0 ∧
    selectionLoss idNorms (segmentGraphemes [97, 0]) 2 0 .error = .ok 1 ∧
    ¬ ((1 : Int) ≤ 0) :=
  ⟨rfl, rfl, by decide⟩

/-- C8 amended: for multiplier ≥ 1 (each truncated grapheme costs at least
as much as an error unit), the loss minimized at final selection is monotone
non-increasing in the page budget, for inputs on which `coerce_text` is
total (non-empty scalar graphemes with non-empty scalar normalizations; no
all-unsupported grapheme under policy "ignore"). -/
theorem c8_monotone (norms : List Nat → List (List Nat)) (gs : List (List Nat))
    (pol : Policy) (mult m1 m2 : Int)
    (hmult : 1 ≤ mult) (hm1 : 1 ≤ m1) (hm12 : m1 ≤ m2)
    (hgs : gs ≠ [])
    (hg : ∀ g ∈ gs, g ≠ [] ∧ ∀ c ∈ g, ValidCp c)
    (hn : ∀ g ∈ gs, ∀ f ∈ norms g, f ≠ [] ∧ ∀ c ∈ f, ValidCp c)
    (hig : pol = .ignore → ∀ g ∈ gs,
      (g.any fun c => UNSUPPORTED_CHARS.contains c) = false) :
    ∃ l1 l2, selectionLoss norms gs m1 mult pol = .ok l1 ∧
      selectionLoss norms gs m2 mult pol = .ok l2 ∧ l2 ≤ l1 := by
  have hcg : ∀ g ∈ gs, ∃ r, coerce_grapheme norms g pol = .ok r := fun g hgm =>
    coerce_grapheme_total norms g pol (hg g hgm).1 (hg g hgm).2 (hn g hgm)
  rcases mapE_total _ gs hcg with ⟨coerced, hmap⟩
  have hfragne : ∀ p ∈ coerced, p.1.getD [REPLACEMENT_CHARACTER_BE] ≠ [] ∧
      p.2.getD [REPLACEMENT_CHARACTER_LE] ≠ [] := by
    intro p hp
    rcases mapE_ok_forall _ _ _ hmap p hp with ⟨g, hgm, hgp⟩
    exact coerce_grapheme_frag_ne norms g pol p hgp (fun hpol => hig hpol g hgm)
  have hclen : coerced.length = gs.length := mapE_ok_length _ _ _ hmap
  have hflatne : (fragsBE coerced).flatten ≠ [] := by
    intro hx
    have hall := List.flatten_eq_nil_iff.mp hx
    cases hcv : coerced with
    | nil =>
      rw [hcv] at hclen
      cases gs with
      | nil => exact absurd rfl hgs
      | cons a t => simp at hclen
    | cons p t =>
      have h1 := (hfragne p (by simp [hcv])).1
      have h2 : p.1.getD [REPLACEMENT_CHARACTER_BE] ∈ fragsBE coerced := by
        rw [hcv]
        unfold fragsBE
        simp
      exact h1 (hall _ h2)
  have hmk : ∃ st, mkSetup coerced gs.length mult = .ok st := by
    unfold mkSetup
    cases hflat : (fragsBE coerced).flatten with
    | nil => exact absurd hflat hflatne
    | cons c0 r0 =>
      dsimp only
      exact ⟨_, rfl⟩
  rcases hmk with ⟨st, hmkeq⟩
  have hsetup : coerceSetup norms gs pol mult = .ok st := by
    unfold coerceSetup
    rw [if_neg (by simp [hgs]), hmap]
    exact hmkeq
  obtain ⟨hgbe, hgle, hebe, hele, _, _, hNN, _⟩ :=
    mkSetup_ok coerced gs.length mult st hmkeq
  have hbfragne : ∀ ge ∈ st.gbe.zip st.ebe, ge.1 ≠ ([] : List Nat) := by
    intro ge hge
    have hm1x := (List.of_mem_zip hge).1
    rw [hgbe] at hm1x
    rcases List.mem_map.mp hm1x with ⟨p, hp, hpf⟩
    rw [← hpf]
    exact (hfragne p hp).1
  have hfle : ∀ ge ∈ st.gle.zip st.ele, ge.1 ≠ ([] : List Nat) := by
    intro ge hge
    have hm1x := (List.of_mem_zip hge).1
    rw [hgle] at hm1x
    rcases List.mem_map.mp hm1x with ⟨p, hp, hpf⟩
    rw [← hpf]
    exact (hfragne p hp).2
  have hlen : (st.gle.zip st.ele).length = st.N := by
    rw [List.length_zip, hgle, hele, hNN]
    unfold fragsLE flagsLE
    simp [hclen]
  have hN : 1 ≤ st.N := by
    rw [hNN]
    have := List.length_pos.mpr hgs
    omega
  rcases beamLoop_total (st.gbe.zip st.ebe) (st.gle.zip st.ele) st.N hbfragne
    m1.toNat [⟨0, 0, []⟩] with ⟨fin1, hb1⟩
  rcases beamLoop_total (st.gbe.zip st.ebe) (st.gle.zip st.ele) st.N hbfragne
    m2.toNat [⟨0, 0, []⟩] with ⟨fin2, hb2⟩
  refine ⟨(selectBest (beamCandidates st mult fin1)).1,
    (selectBest (beamCandidates st mult fin2)).1, ?_, ?_, ?_⟩
  · unfold selectionLoss
    rw [if_neg (by omega), hsetup]
    dsimp only
    rw [hb1]
  · unfold selectionLoss
    rw [if_neg (by omega), hsetup]
    dsimp only
    rw [hb2]
  · have hmono := beamLoop_fuel_mono (st.gbe.zip st.ebe) (st.gle.zip st.ele)
      st.N hlen hN hfle mult hmult m1.toNat m2.toNat
      (Int.toNat_le_toNat hm12) [⟨0, 0, []⟩] fin1 fin2 hb1 hb2
    have hx1 : selectBest (beamCandidates st mult fin1) ∈
        fin1.map (fun s => (lossOf st.N mult s, s.pages)) ++
          [(st.spbeErr, [st.spbe]), (st.spleErr, [st.sple])] :=
      selectBest_mem (beamCandidates st mult fin1)
        (by unfold beamCandidates; simp)
    rcases List.mem_append.mp hx1 with hx1 | hx1
    · rcases List.mem_map.mp hx1 with ⟨s1, hs1, heq1⟩
      rcases hmono s1 hs1 with ⟨t, ht, htl⟩
      have hx2 : (lossOf st.N mult t, t.pages) ∈ beamCandidates st mult fin2 := by
        unfold beamCandidates
        exact List.mem_append_left _ (List.mem_map_of_mem _ ht)
      calc (selectBest (beamCandidates st mult fin2)).1
          ≤ (lossOf st.N mult t, t.pages).1 := selectBest_le _ _ hx2
        _ = lossOf st.N mult t := rfl
        _ ≤ lossOf st.N mult s1 := htl
        _ = (selectBest (beamCandidates st mult fin1)).1 := by rw [← heq1]
    · have hx2 : selectBest (beamCandidates st mult fin1) ∈
          beamCandidates st mult fin2 := by
        unfold beamCandidates
        exact List.mem_append_right _ hx1
      exact selectBest_le _ _ hx2

/-- Witness for C8 at concrete arguments. -/
theorem c8_monotone_witness :
    ∃ l1 l2, selectionLoss idNorms [[97]] 1 1 .replace = .ok l1 ∧
      selectionLoss idNorms [[97]] 2 1 .replace = .ok l2 ∧ l2 ≤ l1 :=
  c8_monotone idNorms [[97]] .replace 1 1 2 (by norm_num) (by norm_num)
    (by norm_num) (by simp)
    (by
      intro g hgm
      simp at hgm
      subst hgm
      refine ⟨by simp, ?_⟩
      intro c hc
      simp at hc
      rw [hc]
      exact ⟨by norm_num, by omega⟩)
    (by
      intro g hgm f hf
      simp at hgm
      subst hgm
      simp [idNorms] at hf
      subst hf
      refine ⟨by simp, ?_⟩
      intro c hc
      simp at hc
      rw [hc]
      exact ⟨by norm_num, by omega⟩)
    (by intro hpol; cases hpol)

theorem swap16_swap16 (u : Nat) (hu : u ≤ 0xFFFF) : swap16 (swap16 u) = u := by
  unfold swap16
  omega

theorem utf16UnitsOf_bound (c : Nat) (hc : c < 0x110000) :
    ∀ u ∈ utf16UnitsOf c, 0 < u → u ≤ 0xFFFF := by
  intro u hu _
  unfold utf16UnitsOf surrogatePairOf at hu
  by_cases hb : c < 0x10000
  · rw [if_pos hb] at hu
    simp only [List.mem_singleton] at hu
    omega
  · rw [if_neg hb] at hu
    simp only [List.mem_cons, List.mem_singleton, List.not_mem_nil,
      or_false] at hu
    have h1 : (c - 0x10000) / 1024 < 1024 := by omega
    have h2 : (c - 0x10000) % 1024 < 1024 := by omega
    rcases hu with h | h <;> omega

